import Mathlib

/-!
# SlotFinder, bit helpers and Perlin noise of `samples/common/common.h`

A shallow embedding of the bit-scan helpers (`popcnt`, `tzcnt`, `nthSetBit`), of the
`SlotFinder` class, of the alignment and power-of-two helpers, and of the classes
`PerlinNoise3D` and `MultiOctavePerlinNoise3D`.  32-bit unsigned words are natural numbers below `2 ^ 32`; `int32_t`
values are integers.  Arrays reached through a raw pointer are `Option (List Nat)`, where
`none` is the null pointer; a read or write outside the array has no result (`none`).

The member functions that common.h defines inline (`reset`, `getUsage`, `getNumSlots`,
`getNumUsed`, the move assignment) are translated from the header.  The member functions
that it only declares are modelled from the specification, and say so.
-/

namespace OptiXUtility

/-! ## Definitions -/

/-- The modulus of `uint32_t` arithmetic. -/
def u32 : Nat := 2 ^ 32

/-- Number of set bits among the lowest `k` bits of `x`. -/
def popcntAux : Nat → Nat → Nat
  | 0, _ => 0
  | k + 1, x => x % 2 + popcntAux k (x / 2)

/-- The function `popcnt` of common.h: the population count of a 32-bit word (the hardware
intrinsic `_mm_popcnt_u32` / `__popc`). -/
def popcnt (x : Nat) : Nat := popcntAux 32 x

/-- Index of the lowest set bit among the lowest `k` bits of `x`, and `k` when there is none. -/
def tzcntAux : Nat → Nat → Nat
  | 0, _ => 0
  | k + 1, x => if x % 2 = 1 then 0 else 1 + tzcntAux k (x / 2)

/-- The function `tzcnt` of common.h: the number of trailing zero bits of a 32-bit word (the
hardware intrinsic `_tzcnt_u32`), which is 32 for the word 0. -/
def tzcnt (x : Nat) : Nat := tzcntAux 32 x

/-- The body of the `for` loop of `nthSetBit`, run for the loop variable `width` ranging over
the given list (the source runs it for 16, 8, 4, 2, 1).  `n` is an `int32_t`; it is only ever
decreased by a `count` with `0 ≤ count ≤ n`, so the subtraction never wraps. -/
def nthSetBitLoop : List Nat → Nat → Int → Nat → Nat
  | [], _, _, idx => idx
  | width :: rest, value, n, idx =>
    if value = 0 then 0xFFFFFFFF
    else
      let mask := (1 <<< width) - 1
      let count : Int := (popcnt (value &&& mask) : Nat)
      if n ≥ count then
        nthSetBitLoop rest (value >>> width) (n - count) ((idx + width) % u32)
      else
        nthSetBitLoop rest value n idx

/-- The function `nthSetBit(value, n)` of common.h. -/
def nthSetBit (value : Nat) (n : Int) : Nat :=
  if n ≥ ((popcnt value : Nat) : Int) then 0xFFFFFFFF
  else nthSetBitLoop [16, 8, 4, 2, 1] value n 0

/-- The constant `SlotFinder::InvalidSlotIndex`. -/
def InvalidSlotIndex : Nat := 0xFFFFFFFF


/-- The data members of `class SlotFinder`.  The five `uint32_t*` members are arrays reached
through a pointer: `none` is `nullptr`. -/
structure SlotFinder where
  m_numLayers : Nat
  m_numLowestFlagBins : Nat
  m_numTotalCompiledFlagBins : Nat
  m_flagBins : Option (List Nat)
  m_offsetsToOR_AND : Option (List Nat)
  m_numUsedFlagsUnderBinList : Option (List Nat)
  m_offsetsToNumUsedFlags : Option (List Nat)
  m_numFlagsInLayerList : Option (List Nat)
  deriving DecidableEq

/-- The read `p[i]` through a pointer: no result for the null pointer or outside the array. -/
def readAt (p : Option (List Nat)) (i : Nat) : Option Nat :=
  match p with
  | none => none
  | some l => l[i]?

/-- The write `p[i] = v` through a pointer: no result for the null pointer or outside the
array. -/
def writeAt (p : Option (List Nat)) (i v : Nat) : Option (Option (List Nat)) :=
  match p with
  | none => none
  | some l => if i < l.length then some (some (l.set i v)) else none

/-- The call `std::fill_n(p, n, 0)`: the first `n` elements become 0.  Filling zero elements
touches nothing; otherwise the pointer must be non-null and the array at least `n` long. -/
def fillZero (p : Option (List Nat)) (n : Nat) : Option (Option (List Nat)) :=
  if n = 0 then some p
  else
    match p with
    | none => none
    | some l => if n ≤ l.length then some (some (List.replicate n 0 ++ l.drop n)) else none

namespace SlotFinder

/-- The default constructor `SlotFinder()`. -/
def ctor : SlotFinder :=
  { m_numLayers := 0, m_numLowestFlagBins := 0, m_numTotalCompiledFlagBins := 0,
    m_flagBins := none, m_offsetsToOR_AND := none, m_numUsedFlagsUnderBinList := none,
    m_offsetsToNumUsedFlags := none, m_numFlagsInLayerList := none }

/-- The move assignment `*this = std::move(inst)`, returning `(*this, inst)` afterwards.
`finalize` is declared in the header but defined elsewhere; its effect on `*this` is a
parameter, and every member it could change is overwritten after the call. -/
def moveAssign (finalize : SlotFinder → SlotFinder) (self inst : SlotFinder) :
    SlotFinder × SlotFinder :=
  let self := finalize self
  let self := { self with
    m_numLayers := inst.m_numLayers
    m_numLowestFlagBins := inst.m_numLowestFlagBins
    m_numTotalCompiledFlagBins := inst.m_numTotalCompiledFlagBins
    m_flagBins := inst.m_flagBins
    m_offsetsToOR_AND := inst.m_offsetsToOR_AND
    m_numUsedFlagsUnderBinList := inst.m_numUsedFlagsUnderBinList
    m_offsetsToNumUsedFlags := inst.m_offsetsToNumUsedFlags
    m_numFlagsInLayerList := inst.m_numFlagsInLayerList }
  let inst := { inst with
    m_flagBins := none
    m_offsetsToOR_AND := none
    m_numUsedFlagsUnderBinList := none
    m_offsetsToNumUsedFlags := none
    m_numFlagsInLayerList := none }
  (self, inst)

/-- The member function `SlotFinder::reset()`. -/
def reset (s : SlotFinder) : Option SlotFinder :=
  match fillZero s.m_flagBins ((s.m_numLowestFlagBins + s.m_numTotalCompiledFlagBins) % u32) with
  | none => none
  | some flagBins =>
    match fillZero s.m_numUsedFlagsUnderBinList
        ((s.m_numLowestFlagBins + s.m_numTotalCompiledFlagBins / 2) % u32) with
    | none => none
    | some numUsed =>
      some { s with m_flagBins := flagBins, m_numUsedFlagsUnderBinList := numUsed }

/-- The member function `SlotFinder::getUsage(slotIdx)`. -/
def getUsage (s : SlotFinder) (slotIdx : Nat) : Option Bool :=
  let binIdx := slotIdx / 32
  let flagIdxInBin := slotIdx % 32
  match readAt s.m_flagBins binIdx with
  | none => none
  | some flagBin => some (((flagBin >>> flagIdxInBin) &&& 0x1) != 0)

/-- The member function `SlotFinder::getNumSlots()`. -/
def getNumSlots (s : SlotFinder) : Option Nat :=
  readAt s.m_numFlagsInLayerList 0

/-- The member function `SlotFinder::getNumUsed()`; `m_numLayers - 1` is a `uint32_t`
subtraction. -/
def getNumUsed (s : SlotFinder) : Option Nat :=
  match readAt s.m_offsetsToNumUsedFlags ((s.m_numLayers + u32 - 1) % u32) with
  | none => none
  | some offset => readAt s.m_numUsedFlagsUnderBinList offset

/-- The storage `reset()` relies on: a flag-bin array of `m_numLowestFlagBins` leaf words
followed by `m_numTotalCompiledFlagBins` aggregate words, and a used-count array of
`m_numLowestFlagBins + m_numTotalCompiledFlagBins / 2` entries. -/
def Allocated (s : SlotFinder) : Prop :=
  s.m_flagBins.map List.length = some (s.m_numLowestFlagBins + s.m_numTotalCompiledFlagBins) ∧
  s.m_numUsedFlagsUnderBinList.map List.length
    = some (s.m_numLowestFlagBins + s.m_numTotalCompiledFlagBins / 2) ∧
  s.m_numLowestFlagBins + s.m_numTotalCompiledFlagBins < u32

instance (s : SlotFinder) : Decidable s.Allocated := by
  unfold Allocated
  infer_instance

end SlotFinder

/-- A concrete SlotFinder for 40 slots, two layers, with slots 0, 2 and 33 in use: leaf bins
`[5, 2]`, one OR bin `3` and one AND bin `0`, used counts `[2, 1]` below the leaf bins and `3`
below the top bin. -/
def sampleFinder : SlotFinder :=
  { m_numLayers := 2, m_numLowestFlagBins := 2, m_numTotalCompiledFlagBins := 2,
    m_flagBins := some [5, 2, 3, 0], m_offsetsToOR_AND := some [0, 0, 2, 3],
    m_numUsedFlagsUnderBinList := some [2, 1, 3], m_offsetsToNumUsedFlags := some [0, 2],
    m_numFlagsInLayerList := some [40, 2] }

/-! ## The pyramid operations of `SlotFinder`

`initialize`, `setInUse`, `setNotInUse`, `getFirstAvailableSlot`, `find_nthUsedSlot` and
`resize` are declared in common.h and defined in a source file that is not among the given
sources.  They are modelled here from the specification, over the data members and the
layout that the header fixes: one flat flag-bin array (leaf words first, then for every
higher layer its OR bins followed by its AND bins), one flat used-count array (one entry per
bin of every layer), and the per-layer offset tables. -/

/-- Modelled from the spec: the number of 32-bit bins of a layer holding `numFlags` flags
("flags are packed 32 per storage word").  A layer always has at least one bin, so that a
SlotFinder for 0 slots is "a 0-capacity allocator where all queries report not found /
count 0". -/
def numBinsFor (numFlags : Nat) : Nat := max 1 ((numFlags + 31) / 32)

/-- Modelled from the spec: the number of flags of layer `layer`; layer 0 has one flag per
slot and every higher layer has one flag per bin of the layer below ("each layer's bits
summarizing occupancy of blocks in the layer below"). -/
def numFlagsInLayer (numSlots : Nat) : Nat → Nat
  | 0 => numSlots
  | layer + 1 => numBinsFor (numFlagsInLayer numSlots layer)

/-- Modelled from the spec: the number of bins of layer `layer`. -/
def numBinsInLayer (numSlots layer : Nat) : Nat :=
  numBinsFor (numFlagsInLayer numSlots layer)

/-- Modelled from the spec: the number of layers, "enough levels so the top layer fits in a
single 32-bit word": layers are added while the current layer has more than one bin, so the
top layer is the first one with a single bin, the one `getNumUsed` reads its count from.
(This is the least such number of layers; the closed form `ceil(log32(numSlots)) + 1` that
the spec puts next to this sentence is one more than it for 2 slots and more.) -/
def countLayers : Nat → Nat → Nat
  | 0, _ => 1
  | fuel + 1, numFlags =>
    if numBinsFor numFlags > 1 then 1 + countLayers fuel (numBinsFor numFlags) else 1

/-- Modelled from the spec: the number of layers of a SlotFinder for `numSlots` slots.  The
number of bins strictly decreases from layer to layer while it exceeds 1, so `numSlots`
rounds are enough. -/
def numLayersFor (numSlots : Nat) : Nat := countLayers numSlots numSlots

/-- Modelled from the spec: the position in the flat flag-bin array just past the bins of
layer `layer` (layer 0 has one set of bins, every higher layer an OR set and an AND set). -/
def layerEnd (numSlots : Nat) : Nat → Nat
  | 0 => numBinsInLayer numSlots 0
  | layer + 1 => layerEnd numSlots layer + 2 * numBinsInLayer numSlots (layer + 1)

/-- Modelled from the spec: the start of the OR bins of a layer in the flat flag-bin array;
at layer 0 the OR bins and the AND bins are both the leaf words. -/
def offsetToOR (numSlots : Nat) : Nat → Nat
  | 0 => 0
  | layer + 1 => layerEnd numSlots layer

/-- Modelled from the spec: the start of the AND bins of a layer in the flat flag-bin
array. -/
def offsetToAND (numSlots : Nat) : Nat → Nat
  | 0 => 0
  | layer + 1 => layerEnd numSlots layer + numBinsInLayer numSlots (layer + 1)

/-- Modelled from the spec: the start of the used counts of a layer in the flat used-count
array. -/
def offsetToNumUsedFlags (numSlots : Nat) : Nat → Nat
  | 0 => 0
  | layer + 1 => offsetToNumUsedFlags numSlots layer + numBinsInLayer numSlots layer

namespace SlotFinder

/-- Modelled from the spec: `SlotFinder::initialize(numSlots)`, which "allocates and zeroes
all layers" and precomputes the offset tables and the per-layer flag counts. -/
def init (numSlots : Nat) : SlotFinder :=
  let numLayers := numLayersFor numSlots
  { m_numLayers := numLayers
    m_numLowestFlagBins := numBinsInLayer numSlots 0
    m_numTotalCompiledFlagBins := layerEnd numSlots (numLayers - 1) - numBinsInLayer numSlots 0
    m_flagBins := some (List.replicate (layerEnd numSlots (numLayers - 1)) 0)
    m_offsetsToOR_AND := some ((List.range (2 * numLayers)).map (fun i =>
      if i % 2 = 0 then offsetToOR numSlots (i / 2) else offsetToAND numSlots (i / 2)))
    m_numUsedFlagsUnderBinList := some (List.replicate (offsetToNumUsedFlags numSlots numLayers) 0)
    m_offsetsToNumUsedFlags := some ((List.range numLayers).map (offsetToNumUsedFlags numSlots))
    m_numFlagsInLayerList := some ((List.range numLayers).map (numFlagsInLayer numSlots)) }

/-- Modelled from the spec: the layer loop of `setInUse`, run for the layers `layer`,
`layer + 1`, ... (`numLeft` of them).  In each layer the flag of the unit below is set in the
OR bin, and in the AND bin when the unit below has become fully used; the used count of the
bin is incremented ("propagates updated aggregate bits and used-counts up through every
layer above the leaf").  At layer 0 the OR bin and the AND bin are the same leaf word. -/
def setInUseLoop : Nat → Nat → SlotFinder → Nat → Bool → Option SlotFinder
  | 0, _, s, _, _ => some s
  | numLeft + 1, layer, s, flagIdxInLayer, setANDFlag => do
    let binIdx := flagIdxInLayer / 32
    let flagIdxInBin := flagIdxInLayer % 32
    let offsetOR ← readAt s.m_offsetsToOR_AND (2 * layer)
    let offsetAND ← readAt s.m_offsetsToOR_AND (2 * layer + 1)
    let offsetNumUsed ← readAt s.m_offsetsToNumUsedFlags layer
    let numFlagsInLayer ← readAt s.m_numFlagsInLayerList layer
    let orFlagBin ← readAt s.m_flagBins (offsetOR + binIdx)
    let flagBins1 ← writeAt s.m_flagBins (offsetOR + binIdx) (orFlagBin ||| (1 <<< flagIdxInBin))
    let andFlagBin ← readAt flagBins1 (offsetAND + binIdx)
    let andFlagBin1 := if setANDFlag then andFlagBin ||| (1 <<< flagIdxInBin) else andFlagBin
    let flagBins2 ← writeAt flagBins1 (offsetAND + binIdx) andFlagBin1
    let numUsed ← readAt s.m_numUsedFlagsUnderBinList (offsetNumUsed + binIdx)
    let numUsedList ← writeAt s.m_numUsedFlagsUnderBinList (offsetNumUsed + binIdx)
      ((numUsed + 1) % u32)
    let numFlagsInBin := min 32 (numFlagsInLayer - 32 * binIdx)
    setInUseLoop numLeft (layer + 1)
      { s with m_flagBins := flagBins2, m_numUsedFlagsUnderBinList := numUsedList }
      binIdx (popcnt andFlagBin1 == numFlagsInBin)

/-- Modelled from the spec: `SlotFinder::setInUse(slotIdx)`, which "marks slot occupied" and
is "idempotent w.r.t. counts": a slot that is already in use is left alone. -/
def setInUse (s : SlotFinder) (slotIdx : Nat) : Option SlotFinder := do
  let used ← s.getUsage slotIdx
  if used then pure s else setInUseLoop s.m_numLayers 0 s slotIdx false

/-- Modelled from the spec: the layer loop of `setNotInUse` ("symmetric clear").  In each
layer the flag of the unit below is cleared in the AND bin, and in the OR bin when the unit
below has become entirely unused; the used count of the bin is decremented. -/
def setNotInUseLoop : Nat → Nat → SlotFinder → Nat → Bool → Option SlotFinder
  | 0, _, s, _, _ => some s
  | numLeft + 1, layer, s, flagIdxInLayer, resetORFlag => do
    let binIdx := flagIdxInLayer / 32
    let flagIdxInBin := flagIdxInLayer % 32
    let offsetOR ← readAt s.m_offsetsToOR_AND (2 * layer)
    let offsetAND ← readAt s.m_offsetsToOR_AND (2 * layer + 1)
    let offsetNumUsed ← readAt s.m_offsetsToNumUsedFlags layer
    let orFlagBin ← readAt s.m_flagBins (offsetOR + binIdx)
    let orFlagBin1 :=
      if resetORFlag then orFlagBin &&& (0xFFFFFFFF ^^^ (1 <<< flagIdxInBin)) else orFlagBin
    let flagBins1 ← writeAt s.m_flagBins (offsetOR + binIdx) orFlagBin1
    let andFlagBin ← readAt flagBins1 (offsetAND + binIdx)
    let flagBins2 ← writeAt flagBins1 (offsetAND + binIdx)
      (andFlagBin &&& (0xFFFFFFFF ^^^ (1 <<< flagIdxInBin)))
    let numUsed ← readAt s.m_numUsedFlagsUnderBinList (offsetNumUsed + binIdx)
    let numUsedList ← writeAt s.m_numUsedFlagsUnderBinList (offsetNumUsed + binIdx)
      ((numUsed + u32 - 1) % u32)
    setNotInUseLoop numLeft (layer + 1)
      { s with m_flagBins := flagBins2, m_numUsedFlagsUnderBinList := numUsedList }
      binIdx (orFlagBin1 == 0)

/-- Modelled from the spec: `SlotFinder::setNotInUse(slotIdx)`, the "symmetric clear, with
the same idempotence requirement": a slot that is not in use is left alone. -/
def setNotInUse (s : SlotFinder) (slotIdx : Nat) : Option SlotFinder := do
  let used ← s.getUsage slotIdx
  if used then setNotInUseLoop s.m_numLayers 0 s slotIdx true else pure s

/-- Modelled from the spec: the descent of `getFirstAvailableSlot` through the layers
`numLeft - 1`, ..., 0, "at each layer choosing the lowest-index child bin whose not fully
used aggregate bit is set", and at the leaf layer "finding the lowest zero bit within the
chosen 32-bit bin via bit-scan". -/
def getFirstAvailableSlotLoop : Nat → SlotFinder → Nat → Option Nat
  | 0, _, binIdx => some binIdx
  | layer + 1, s, binIdx => do
    let offsetAND ← readAt s.m_offsetsToOR_AND (2 * layer + 1)
    let andFlagBin ← readAt s.m_flagBins (offsetAND + binIdx)
    let numFlagsInLayer ← readAt s.m_numFlagsInLayerList layer
    let numFlagsInBin := min 32 (numFlagsInLayer - 32 * binIdx)
    if popcnt andFlagBin ≠ numFlagsInBin then
      getFirstAvailableSlotLoop layer s (tzcnt (andFlagBin ^^^ 0xFFFFFFFF) + 32 * binIdx)
    else
      some InvalidSlotIndex

/-- Modelled from the spec: `SlotFinder::getFirstAvailableSlot()`, walking the pyramid
top-down from the single bin of the top layer. -/
def getFirstAvailableSlot (s : SlotFinder) : Option Nat :=
  getFirstAvailableSlotLoop s.m_numLayers s 0

/-- Modelled from the spec: the scan of one layer in `find_nthUsedSlot`, over the bins
`binIdx`, `binIdx + 1`, ... (`numLeft` of them), adding up the used counts until the bin that
contains the used slot of rank `n` is reached.  The result is that bin and the number of
used slots before it, or the sum alone when no bin is reached. -/
def scanBins (numUsedList : Option (List Nat)) (offsetNumUsed n : Nat) :
    Nat → Nat → Nat → Option (Option Nat × Nat)
  | 0, _, accNumUsed => some (none, accNumUsed)
  | numLeft + 1, binIdx, accNumUsed => do
    let numUsed ← readAt numUsedList (offsetNumUsed + binIdx)
    if accNumUsed + numUsed > n then pure (some binIdx, accNumUsed)
    else scanBins numUsedList offsetNumUsed n numLeft (binIdx + 1) (accNumUsed + numUsed)

/-- Modelled from the spec: the descent of `find_nthUsedSlot` through the layers
`numLeft - 1`, ..., 0, "at each level consulting the used-count-under-this-bin arrays to
decide which child branch contains the desired rank, then within the leaf bin using a
population-count-based bit-select (`nthSetBit`) to locate the exact bit". -/
def find_nthUsedSlotLoop : Nat → SlotFinder → Nat → Nat → Nat → Option Nat
  | 0, _, startBinIdx, _, _ => some startBinIdx
  | layer + 1, s, startBinIdx, accNumUsed, n => do
    let offsetNumUsed ← readAt s.m_offsetsToNumUsedFlags layer
    let numFlagsInLayer ← readAt s.m_numFlagsInLayerList layer
    let found ← scanBins s.m_numUsedFlagsUnderBinList offsetNumUsed n
      (numBinsFor numFlagsInLayer - startBinIdx) startBinIdx accNumUsed
    match found.1 with
    | none => find_nthUsedSlotLoop layer s startBinIdx found.2 n
    | some binIdx =>
      if layer = 0 then do
        let offsetOR ← readAt s.m_offsetsToOR_AND (2 * layer)
        let flagBin ← readAt s.m_flagBins (offsetOR + binIdx)
        pure ((32 * binIdx + nthSetBit flagBin ((n - found.2 : Nat) : Int)) % u32)
      else
        find_nthUsedSlotLoop layer s (32 * binIdx) found.2 n

/-- Modelled from the spec: `SlotFinder::find_nthUsedSlot(n)`, which "returns sentinel when
`n >= getNumUsed()`" and otherwise descends the pyramid from the top layer. -/
def find_nthUsedSlot (s : SlotFinder) (n : Nat) : Option Nat := do
  let numUsed ← s.getNumUsed
  if n ≥ numUsed then pure InvalidSlotIndex
  else find_nthUsedSlotLoop s.m_numLayers s 0 0 n

end SlotFinder

/-- A call of one of the two mutators of `SlotFinder`. -/
inductive Call where
  | setInUse (slotIdx : Nat)
  | setNotInUse (slotIdx : Nat)
  deriving DecidableEq

/-- The slot index a call is made on. -/
def Call.slotIdx : Call → Nat
  | Call.setInUse i => i
  | Call.setNotInUse i => i

/-- The net effect of one call on the usage of slot `i`. -/
def Call.effect (c : Call) (i : Nat) (used : Bool) : Bool :=
  match c with
  | Call.setInUse j => if j = i then true else used
  | Call.setNotInUse j => if j = i then false else used

/-- The net effect of a sequence of calls on slot `i` of a SlotFinder whose slots are all
free at the start: whether the last call on slot `i`, if any, is `setInUse`. -/
def netUsage (calls : List Call) (i : Nat) : Bool :=
  calls.foldl (fun used c => c.effect i used) false

namespace SlotFinder

/-- Making one call. -/
def applyCall (s : SlotFinder) : Call → Option SlotFinder
  | Call.setInUse i => s.setInUse i
  | Call.setNotInUse i => s.setNotInUse i

/-- Making a sequence of calls, in order. -/
def runCalls (s : SlotFinder) : List Call → Option SlotFinder
  | [] => some s
  | c :: cs =>
    match s.applyCall c with
    | none => none
    | some s' => runCalls s' cs

end SlotFinder

namespace SlotFinder

/-- Modelled from the spec: the copy loop of `resize`, over the leaf bins `binIdx`,
`binIdx + 1`, ... (`numLeft` of them) that the old and the new pyramid both have.  Each leaf
word of the old pyramid is copied with the flags of the slots beyond the new size masked
off ("slots beyond the new size are discarded"), and its population count becomes the used
count of the new leaf bin. -/
def copyLeafBins (old : SlotFinder) (numSlots : Nat) : Nat → Nat → SlotFinder → Option SlotFinder
  | 0, _, new => some new
  | numLeft + 1, binIdx, new => do
    let numFlagsInBin := min 32 (numSlots - 32 * binIdx)
    let mask := (1 <<< numFlagsInBin) - 1
    let flagBin ← readAt old.m_flagBins binIdx
    let value := flagBin &&& mask
    let flagBins ← writeAt new.m_flagBins binIdx value
    let numUsedList ← writeAt new.m_numUsedFlagsUnderBinList binIdx (popcnt value)
    copyLeafBins old numSlots numLeft (binIdx + 1)
      { new with m_flagBins := flagBins, m_numUsedFlagsUnderBinList := numUsedList }

/-- Modelled from the spec: the recomputation of one aggregate bin from the bins
`32 * binIdx + bit` of the layer below, for `bit`, `bit + 1`, ... (`numLeft` of them): the
OR flag of a bin below is set when it has a flag set, its AND flag when all its flags are
set, and the used counts below are added up.  The result is the OR word, the AND word and
the used count. -/
def aggregateBits (flagBins numUsedList : Option (List Nat))
    (offsetOR_last offsetAND_last offsetNumUsed_last numFlags_last binIdx : Nat) :
    Nat → Nat → Nat → Nat → Nat → Option (Nat × Nat × Nat)
  | 0, _, orFlagBin, andFlagBin, numUsed => some (orFlagBin, andFlagBin, numUsed)
  | numLeft + 1, bit, orFlagBin, andFlagBin, numUsed => do
    let lBinIdx := 32 * binIdx + bit
    let lORFlagBin ← readAt flagBins (offsetOR_last + lBinIdx)
    let lANDFlagBin ← readAt flagBins (offsetAND_last + lBinIdx)
    let lNumUsed ← readAt numUsedList (offsetNumUsed_last + lBinIdx)
    let lNumFlagsInBin := min 32 (numFlags_last - 32 * lBinIdx)
    aggregateBits flagBins numUsedList offsetOR_last offsetAND_last offsetNumUsed_last
      numFlags_last binIdx numLeft (bit + 1)
      (if lORFlagBin ≠ 0 then orFlagBin ||| (1 <<< bit) else orFlagBin)
      (if popcnt lANDFlagBin = lNumFlagsInBin then andFlagBin ||| (1 <<< bit) else andFlagBin)
      ((numUsed + lNumUsed) % u32)

/-- Modelled from the spec: the recomputation of the bins `binIdx`, `binIdx + 1`, ...
(`numLeft` of them) of layer `layer` from the layer below. -/
def aggregateBins (layer : Nat) : Nat → Nat → SlotFinder → Option SlotFinder
  | 0, _, s => some s
  | numLeft + 1, binIdx, s => do
    let offsetOR ← readAt s.m_offsetsToOR_AND (2 * layer)
    let offsetAND ← readAt s.m_offsetsToOR_AND (2 * layer + 1)
    let offsetNumUsed ← readAt s.m_offsetsToNumUsedFlags layer
    let numFlagsInLayer ← readAt s.m_numFlagsInLayerList layer
    let offsetOR_last ← readAt s.m_offsetsToOR_AND (2 * (layer - 1))
    let offsetAND_last ← readAt s.m_offsetsToOR_AND (2 * (layer - 1) + 1)
    let offsetNumUsed_last ← readAt s.m_offsetsToNumUsedFlags (layer - 1)
    let numFlags_last ← readAt s.m_numFlagsInLayerList (layer - 1)
    let numFlagsInBin := min 32 (numFlagsInLayer - 32 * binIdx)
    let r ← aggregateBits s.m_flagBins s.m_numUsedFlagsUnderBinList offsetOR_last
      offsetAND_last offsetNumUsed_last numFlags_last binIdx numFlagsInBin 0 0 0 0
    let flagBins1 ← writeAt s.m_flagBins (offsetOR + binIdx) r.1
    let flagBins2 ← writeAt flagBins1 (offsetAND + binIdx) r.2.1
    let numUsedList ← writeAt s.m_numUsedFlagsUnderBinList (offsetNumUsed + binIdx) r.2.2
    aggregateBins layer numLeft (binIdx + 1)
      { s with m_flagBins := flagBins2, m_numUsedFlagsUnderBinList := numUsedList }

/-- Modelled from the spec: the layer loop of `aggregate`, over the layers `layer`,
`layer + 1`, ... (`numLeft` of them), bottom-up. -/
def aggregateLayers : Nat → Nat → SlotFinder → Option SlotFinder
  | 0, _, s => some s
  | numLeft + 1, layer, s => do
    let numFlagsInLayer ← readAt s.m_numFlagsInLayerList layer
    let s' ← aggregateBins layer (numBinsFor numFlagsInLayer) 0 s
    aggregateLayers numLeft (layer + 1) s'

/-- Modelled from the spec: `SlotFinder::aggregate()` (private, declared in common.h), which
recomputes every aggregate layer from the layer below it ("aggregates recomputed"). -/
def aggregate (s : SlotFinder) : Option SlotFinder :=
  aggregateLayers (s.m_numLayers - 1) 1 s

/-- Modelled from the spec: `SlotFinder::resize(numSlots)`, which "grows or shrinks capacity,
preserving in-use status of slots that remain valid under the new size; slots beyond the new
size are discarded; aggregates recomputed".  A pyramid for the new size is set up, the leaf
words are copied, the aggregate layers are recomputed, and the result replaces the old
pyramid. -/
def resize (s : SlotFinder) (numSlots : Nat) : Option SlotFinder := do
  let oldNumSlots ← s.getNumSlots
  if numSlots = oldNumSlots then pure s
  else do
    let newFinder := init numSlots
    let copied ← copyLeafBins s numSlots
      (min s.m_numLowestFlagBins newFinder.m_numLowestFlagBins) 0 newFinder
    aggregate copied

end SlotFinder

/-! ## The state a pyramid is in

The vocabulary in which the operations above are verified: the usage of every slot as a
function `u : Nat → Bool`, and what every word of the two flat arrays is for a given usage. -/

/-- A SlotFinder for `numSlots` slots with the given flag-bin array and used-count array. -/
def withArrays (numSlots : Nat) (flagBins numUsedList : List Nat) : SlotFinder :=
  { SlotFinder.init numSlots with
    m_flagBins := some flagBins
    m_numUsedFlagsUnderBinList := some numUsedList }

/-- The AND bin `binIdx` of layer `layer` (at layer 0, the leaf word). -/
def andWord (numSlots : Nat) (flagBins : List Nat) (layer binIdx : Nat) : Nat :=
  flagBins.getD (offsetToAND numSlots layer + binIdx) 0

/-- The used count of bin `binIdx` of layer `layer`. -/
def cntAt (numSlots : Nat) (numUsedList : List Nat) (layer binIdx : Nat) : Nat :=
  numUsedList.getD (offsetToNumUsedFlags numSlots layer + binIdx) 0

/-- The number of flags that bin `binIdx` of layer `layer` holds. -/
def flagsInBin (numSlots layer binIdx : Nat) : Nat :=
  min 32 (numFlagsInLayer numSlots layer - 32 * binIdx)

/-- Every slot summarized by flag `flagIdx` of layer `layer` is in use. -/
def blockFull (numSlots : Nat) (u : Nat → Bool) (layer flagIdx : Nat) : Prop :=
  ∀ i, i < numSlots → i / 32 ^ layer = flagIdx → u i = true

/-- The number of slots below `m` that are in use. -/
def usedBelow (u : Nat → Bool) (m : Nat) : Nat := (List.range m).countP u

/-- The flat arrays describe, layer by layer, the usage `v layer`: the AND flags say which
blocks are full, no AND bin has a bit beyond its flags, and the used counts are the numbers
of used slots under the bins.  (While a mutator runs, the layers it has already updated
describe the new usage and the others still the old one.) -/
structure DescribesAt (numSlots : Nat) (v : Nat → Nat → Bool) (flagBins numUsedList : List Nat) :
    Prop where
  lenFlagBins : flagBins.length = layerEnd numSlots (numLayersFor numSlots - 1)
  lenNumUsed : numUsedList.length = offsetToNumUsedFlags numSlots (numLayersFor numSlots)
  outside : ∀ layer, layer < numLayersFor numSlots → ∀ i, numSlots ≤ i → v layer i = false
  andFlag : ∀ layer, layer < numLayersFor numSlots →
    ∀ f, f < numFlagsInLayer numSlots layer →
      ((andWord numSlots flagBins layer (f / 32)).testBit (f % 32) = true
        ↔ blockFull numSlots (v layer) layer f)
  andBound : ∀ layer, layer < numLayersFor numSlots →
    ∀ b, b < numBinsInLayer numSlots layer →
      andWord numSlots flagBins layer b < 2 ^ flagsInBin numSlots layer b
  numUsed : ∀ layer, layer < numLayersFor numSlots →
    ∀ b, b < numBinsInLayer numSlots layer →
      cntAt numSlots numUsedList layer b + usedBelow (v layer) (32 ^ (layer + 1) * b)
        = usedBelow (v layer) (32 ^ (layer + 1) * (b + 1))

/-- The SlotFinder `s` is a pyramid for `numSlots` slots whose usage is `u`. -/
def Describes (numSlots : Nat) (u : Nat → Bool) (s : SlotFinder) : Prop :=
  ∃ flagBins numUsedList, s = withArrays numSlots flagBins numUsedList ∧
    DescribesAt numSlots (fun _ => u) flagBins numUsedList

/-- The flag-bin array after the OR write of one layer of `setInUse`. -/
def orWritten (numSlots : Nat) (flagBins : List Nat) (layer f : Nat) : List Nat :=
  flagBins.set (offsetToOR numSlots layer + f / 32)
    (flagBins.getD (offsetToOR numSlots layer + f / 32) 0 ||| (1 <<< (f % 32)))

/-- The word that one layer of `setInUse` writes to the AND bin. -/
def andWordSet (numSlots : Nat) (flagBins : List Nat) (layer f : Nat) (setANDFlag : Bool) : Nat :=
  if setANDFlag then
    (orWritten numSlots flagBins layer f).getD (offsetToAND numSlots layer + f / 32) 0
      ||| (1 <<< (f % 32))
  else (orWritten numSlots flagBins layer f).getD (offsetToAND numSlots layer + f / 32) 0

/-- The flag-bin array after one layer of `setInUse`. -/
def flagBinsSet (numSlots : Nat) (flagBins : List Nat) (layer f : Nat) (setANDFlag : Bool) :
    List Nat :=
  (orWritten numSlots flagBins layer f).set (offsetToAND numSlots layer + f / 32)
    (andWordSet numSlots flagBins layer f setANDFlag)

/-- The used-count array after one layer of `setInUse`. -/
def numUsedInc (numSlots : Nat) (numUsedList : List Nat) (layer f : Nat) : List Nat :=
  numUsedList.set (offsetToNumUsedFlags numSlots layer + f / 32)
    ((numUsedList.getD (offsetToNumUsedFlags numSlots layer + f / 32) 0 + 1) % u32)

/-- The word that one layer of `setNotInUse` writes to the OR bin. -/
def orWordCleared (numSlots : Nat) (flagBins : List Nat) (layer f : Nat) (resetORFlag : Bool) :
    Nat :=
  if resetORFlag then
    flagBins.getD (offsetToOR numSlots layer + f / 32) 0 &&& (0xFFFFFFFF ^^^ (1 <<< (f % 32)))
  else flagBins.getD (offsetToOR numSlots layer + f / 32) 0

/-- The flag-bin array after the OR write of one layer of `setNotInUse`. -/
def orCleared (numSlots : Nat) (flagBins : List Nat) (layer f : Nat) (resetORFlag : Bool) :
    List Nat :=
  flagBins.set (offsetToOR numSlots layer + f / 32)
    (orWordCleared numSlots flagBins layer f resetORFlag)

/-- The word that one layer of `setNotInUse` writes to the AND bin. -/
def andWordCleared (numSlots : Nat) (flagBins : List Nat) (layer f : Nat) (resetORFlag : Bool) :
    Nat :=
  (orCleared numSlots flagBins layer f resetORFlag).getD (offsetToAND numSlots layer + f / 32) 0
    &&& (0xFFFFFFFF ^^^ (1 <<< (f % 32)))

/-- The flag-bin array after one layer of `setNotInUse`. -/
def flagBinsCleared (numSlots : Nat) (flagBins : List Nat) (layer f : Nat) (resetORFlag : Bool) :
    List Nat :=
  (orCleared numSlots flagBins layer f resetORFlag).set (offsetToAND numSlots layer + f / 32)
    (andWordCleared numSlots flagBins layer f resetORFlag)

/-- The used-count array after one layer of `setNotInUse`. -/
def numUsedDec (numSlots : Nat) (numUsedList : List Nat) (layer f : Nat) : List Nat :=
  numUsedList.set (offsetToNumUsedFlags numSlots layer + f / 32)
    ((numUsedList.getD (offsetToNumUsedFlags numSlots layer + f / 32) 0 + u32 - 1) % u32)

/-- A sequence of calls on a SlotFinder for 40 slots: afterwards slots 0, 2 and 33 are in
use. -/
def sampleCalls : List Call :=
  [Call.setInUse 0, Call.setInUse 5, Call.setInUse 33, Call.setNotInUse 5, Call.setInUse 2,
    Call.setInUse 33, Call.setNotInUse 7]

/-- Bin `b` of layer `k` describes the usage `u`: its AND flags say which of its blocks are
full, it has no bit beyond its flags, and its used count is the number of used slots under
it. -/
def BinDescribes (numSlots : Nat) (u : Nat → Bool) (flagBins numUsedList : List Nat)
    (k b : Nat) : Prop :=
  andWord numSlots flagBins k b < 2 ^ flagsInBin numSlots k b ∧
  (∀ i, i < flagsInBin numSlots k b →
    ((andWord numSlots flagBins k b).testBit i = true ↔ blockFull numSlots u k (32 * b + i))) ∧
  cntAt numSlots numUsedList k b + usedBelow u (32 ^ (k + 1) * b)
    = usedBelow u (32 ^ (k + 1) * (b + 1))

/-! ## Perlin noise

`PerlinNoise3D` and `MultiOctavePerlinNoise3D` of common.h.  In this section `float`
arithmetic is read as exact arithmetic on rational numbers (every `float` is a rational
number; the section on binary32 arithmetic further down rounds); `int32_t` values
are integers, and an operation that C++ leaves undefined (a signed overflow, a conversion out
of range, a read outside the table, a division by zero) has no result (`none`). -/

/-- The constant table `PermutationTable` of common.h. -/
def PermutationTable : List Nat :=
  [ -- table 0: 11 numbers
    0, 10, 2, 7, 3, 5, 6, 4, 8, 1, 9,
    -- table 1: 13 numbers
    5, 11, 6, 8, 1, 10, 12, 9, 3, 7, 0, 4, 2,
    -- table 2: 16 numbers
    13, 10, 11, 5, 6, 9, 4, 3, 8, 7, 14, 2, 0, 1, 15, 12,
    -- table 3: 17 numbers
    1, 13, 5, 14, 12, 3, 6, 16, 0, 8, 9, 2, 11, 4, 15, 7, 10,
    -- table 4: 19 numbers
    10, 6, 5, 8, 15, 0, 17, 7, 14, 18, 13, 16, 2, 9, 12, 1, 11, 4, 3 ]

/-- The read `PermutationTable[i]` at an `int` index: no result outside the table. -/
def tableAt (i : Int) : Option Nat :=
  if 0 ≤ i then PermutationTable[i.toNat]? else none

/-- An addition of two `int` values: a signed overflow has no result. -/
def addInt (a b : Int) : Option Int :=
  if -2 ^ 31 ≤ a + b ∧ a + b < 2 ^ 31 then some (a + b) else none

/-- One line of `PerlinNoise3D::hash`, for the sub-table of length `len` that starts at
`offset`:
`PermutationTable[offset + (PermutationTable[offset + (PermutationTable[offset + x % len] + y) % len] + z) % len]`.
The operator `%` on `int` is the truncating remainder `Int.tmod`, and a table entry is
promoted to `int` before `y` or `z` is added. -/
def hashTerm (offset len x y z : Int) : Option Nat := do
  let a ← tableAt (offset + Int.tmod x len)
  let ay ← addInt (a : Int) y
  let b ← tableAt (offset + Int.tmod ay len)
  let bz ← addInt (b : Int) z
  tableAt (offset + Int.tmod bz len)

/-- The source type `float3`, with exact coordinates. -/
structure float3 where
  x : ℚ
  y : ℚ
  z : ℚ

/-- The data member of `class PerlinNoise3D`. -/
structure PerlinNoise3D where
  m_repeat : Int

/-- The rounding toward zero of a conversion from `float` to an integer type. -/
def truncQ (q : ℚ) : Int := if 0 ≤ q then ⌊q⌋ else ⌈q⌉

/-- The conversion `static_cast<uint32_t>(q)`: no result when the truncated value is not a
`uint32_t`. -/
def toUInt32 (q : ℚ) : Option Nat :=
  if 0 ≤ truncQ q ∧ truncQ q < 2 ^ 32 then some (truncQ q).toNat else none

/-- The initialization `int32_t xi = std::floor(x)`: no result when the floor is not an
`int32_t`. -/
def floorToInt32 (x : ℚ) : Option Int :=
  if -2 ^ 31 ≤ ⌊x⌋ ∧ ⌊x⌋ < 2 ^ 31 then some ⌊x⌋ else none

/-- The library function `fmodf(x, y)`, exactly: `x - n * y` with `n` the quotient `x / y`
rounded toward zero. -/
def fmodf (x y : ℚ) : ℚ := x - truncQ (x / y) * y

/-- The wrapping of one coordinate in `PerlinNoise3D::evaluate`, in exact arithmetic:
`if (repeat > 0) { x = fmodf(x, repeat); if (x < 0) x += repeat; }`.  The sum is not rounded
here; `wrapCoordF32` rounds it as the source does. -/
def wrapCoord (rep : Nat) (x : ℚ) : ℚ :=
  if rep > 0 then
    if fmodf x rep < 0 then fmodf x rep + rep else fmodf x rep
  else x

/-- The lambda `fade` of `PerlinNoise3D::evaluate`. -/
def fade (t : ℚ) : ℚ := t * t * t * (t * (t * 6 - 15) + 10)

/-- The lambda `lerp` of `PerlinNoise3D::evaluate`. -/
def lerp (v0 v1 t : ℚ) : ℚ := v0 * (1 - t) + v1 * t

/-- The lambda `inc` of `PerlinNoise3D::evaluate`: `++num; if (repeat > 0) num %= repeat;`.
In `num %= repeat` the `int32_t` is converted to `uint32_t`, the remainder is unsigned, and
the result is converted back to `int32_t`. -/
def inc (rep : Nat) (num : Int) : Option Int := do
  let num ← addInt num 1
  if rep > 0 then
    let r : Int := (num % 2 ^ 32) % (rep : Int)
    pure (if r < 2 ^ 31 then r else r - 2 ^ 32)
  else pure num

namespace PerlinNoise3D

/-- The static member function `PerlinNoise3D::hash(x, y, z)`; `sum` is a `uint32_t` and the
result a `uint8_t`. -/
def hash (x y z : Int) : Option Nat := do
  let t0 ← hashTerm 0 11 x y z
  let t1 ← hashTerm 11 13 x y z
  let t2 ← hashTerm 24 16 x y z
  let t3 ← hashTerm 40 17 x y z
  let t4 ← hashTerm 57 19 x y z
  let sum := (((((0 + t0) % u32 + t1) % u32 + t2) % u32 + t3) % u32 + t4) % u32
  pure (sum % 16 % 256)

/-- The static member function `PerlinNoise3D::gradient(hash, xu, yu, zu)`. -/
def gradient (hash : Nat) (xu yu zu : ℚ) : ℚ :=
  match hash &&& 0xF with
  | 0x0 => xu + yu
  | 0x1 => -xu + yu
  | 0x2 => xu - yu
  | 0x3 => -xu - yu
  | 0x4 => xu + zu
  | 0x5 => -xu + zu
  | 0x6 => xu - zu
  | 0x7 => -xu - zu
  | 0x8 => yu + zu
  | 0x9 => -yu + zu
  | 0xA => yu - zu
  | 0xB => -yu - zu
  | 0xC => xu + yu
  | 0xD => -yu + zu
  | 0xE => -xu + yu
  | 0xF => -yu - zu
  | _ => 0

/-- The trilinear blend at the end of `PerlinNoise3D::evaluate`, from the eight corner
hashes, the offsets in the cell and the faded offsets. -/
def blend (lll ull lul uul llu ulu luu uuu : Nat) (xu yu zu u v w : ℚ) : ℚ :=
  let _llValue := lerp (gradient lll xu yu zu) (gradient ull (xu - 1) yu zu) u
  let _ulValue := lerp (gradient lul xu (yu - 1) zu) (gradient uul (xu - 1) (yu - 1) zu) u
  let __lValue := lerp _llValue _ulValue v
  let _luValue := lerp (gradient llu xu yu (zu - 1)) (gradient ulu (xu - 1) yu (zu - 1)) u
  let _uuValue :=
    lerp (gradient luu xu (yu - 1) (zu - 1)) (gradient uuu (xu - 1) (yu - 1) (zu - 1)) u
  let __uValue := lerp _luValue _uuValue v
  lerp __lValue __uValue w

/-- The part of `PerlinNoise3D::evaluate` after the wrapping: the lattice cell of the point
`(x, y, z)`, the eight corner hashes and the blend. -/
def evaluateWrapped (rep : Nat) (x y z : ℚ) : Option ℚ := do
  let xi ← floorToInt32 x
  let yi ← floorToInt32 y
  let zi ← floorToInt32 z
  let xu := x - xi
  let yu := y - yi
  let zu := z - zi
  let u := fade xu
  let v := fade yu
  let w := fade zu
  let xi1 ← inc rep xi
  let yi1 ← inc rep yi
  let zi1 ← inc rep zi
  let lll ← hash xi yi zi
  let ull ← hash xi1 yi zi
  let lul ← hash xi yi1 zi
  let uul ← hash xi1 yi1 zi
  let llu ← hash xi yi zi1
  let ulu ← hash xi1 yi zi1
  let luu ← hash xi yi1 zi1
  let uuu ← hash xi1 yi1 zi1
  pure (blend lll ull lul uul llu ulu luu uuu xu yu zu u v w)

/-- The member function `PerlinNoise3D::evaluate(p, frequency)`, in exact arithmetic: no
product, sum or conversion is rounded, and the period is taken from the exact product
`m_repeat * frequency`.  The function `evaluateF32` rounds every operation as the source
does. -/
def evaluate (g : PerlinNoise3D) (p : float3) (frequency : ℚ) : Option ℚ := do
  let x := frequency * p.x
  let y := frequency * p.y
  let z := frequency * p.z
  let rep ← toUInt32 (g.m_repeat * frequency)
  evaluateWrapped rep (wrapCoord rep x) (wrapCoord rep y) (wrapCoord rep z)

end PerlinNoise3D

/-- The data members of `class MultiOctavePerlinNoise3D`. -/
structure MultiOctavePerlinNoise3D where
  m_primaryNoiseGen : PerlinNoise3D
  m_numOctaves : Nat
  m_initialFrequency : ℚ
  m_initialAmplitude : ℚ
  m_frequencyMultiplier : ℚ
  m_persistence : ℚ
  m_supValue : ℚ

/-- The summing loop of the constructor of `MultiOctavePerlinNoise3D`, run `numOctaves` times
from the given sum and amplitude: `sum += amplitude; amplitude *= m_persistence;`. -/
def sumAmplitudes (persistence : ℚ) : Nat → ℚ → ℚ → ℚ
  | 0, sum, _ => sum
  | numLeft + 1, sum, amplitude =>
    sumAmplitudes persistence numLeft (sum + amplitude) (amplitude * persistence)

namespace MultiOctavePerlinNoise3D

/-- The constructor of `MultiOctavePerlinNoise3D`.  The `uint32_t repeat` is converted to the
`int32_t` parameter of the `PerlinNoise3D` constructor; the division by a zero `tempSupValue`
has no result; and the loop counter `int i`, compared with the `uint32_t` count as unsigned,
overflows before the loop ends when the count is `2^31` or more, which has no result
either. -/
def ctor (numOctaves : Nat) (initialFrequency supValueOrInitialAmplitude : ℚ)
    (supSpecified : Bool) (frequencyMultiplier persistence : ℚ) (rep : Nat) :
    Option MultiOctavePerlinNoise3D :=
  let primaryNoiseGen : PerlinNoise3D :=
    { m_repeat := if (rep : Int) < 2 ^ 31 then (rep : Int) else (rep : Int) - 2 ^ 32 }
  if numOctaves < 2 ^ 31 then
    if supSpecified then
      let tempSupValue := sumAmplitudes persistence numOctaves 0 1
      if tempSupValue = 0 then none
      else
        some
          { m_primaryNoiseGen := primaryNoiseGen
            m_numOctaves := numOctaves
            m_initialFrequency := initialFrequency
            m_initialAmplitude := supValueOrInitialAmplitude / tempSupValue
            m_frequencyMultiplier := frequencyMultiplier
            m_persistence := persistence
            m_supValue := supValueOrInitialAmplitude }
    else
      some
        { m_primaryNoiseGen := primaryNoiseGen
          m_numOctaves := numOctaves
          m_initialFrequency := initialFrequency
          m_initialAmplitude := supValueOrInitialAmplitude
          m_frequencyMultiplier := frequencyMultiplier
          m_persistence := persistence
          m_supValue := sumAmplitudes persistence numOctaves 0 supValueOrInitialAmplitude }
  else none

/-- The loop of `MultiOctavePerlinNoise3D::evaluate`, run `numLeft` times from the given
total, frequency and amplitude. -/
def evaluateLoop (m : MultiOctavePerlinNoise3D) (p : float3) : Nat → ℚ → ℚ → ℚ → Option ℚ
  | 0, total, _, _ => some total
  | numLeft + 1, total, frequency, amplitude => do
    let value ← m.m_primaryNoiseGen.evaluate p frequency
    evaluateLoop m p numLeft (total + value * amplitude) (frequency * m.m_frequencyMultiplier)
      (amplitude * m.m_persistence)

/-- The member function `MultiOctavePerlinNoise3D::evaluate(p)`; as in the constructor, the
loop counter `int i` overflows when the count is `2^31` or more. -/
def evaluate (m : MultiOctavePerlinNoise3D) (p : float3) : Option ℚ :=
  if m.m_numOctaves < 2 ^ 31 then
    evaluateLoop m p m.m_numOctaves 0 m.m_initialFrequency m.m_initialAmplitude
  else none

end MultiOctavePerlinNoise3D

/-- The sixteen directions that `PerlinNoise3D::gradient` takes dot products with, in the
order of its `case` labels: the twelve directions from the center of a cube to its edges,
and four of them once more. -/
def gradientDirections : List (ℚ × ℚ × ℚ) :=
  [(1, 1, 0), (-1, 1, 0), (1, -1, 0), (-1, -1, 0),
   (1, 0, 1), (-1, 0, 1), (1, 0, -1), (-1, 0, -1),
   (0, 1, 1), (0, -1, 1), (0, 1, -1), (0, -1, -1),
   (1, 1, 0), (0, -1, 1), (-1, 1, 0), (0, -1, -1)]

/-- The dot product of a direction with the offset `(xu, yu, zu)`. -/
def dot3 (d : ℚ × ℚ × ℚ) (xu yu zu : ℚ) : ℚ := d.1 * xu + d.2.1 * yu + d.2.2 * zu

/-- A point at which the noise exceeds 1: in the lattice cell (14, 89, 43), at the offsets
(5/8, 1/2, 1/2). -/
def highPoint : float3 := { x := 117 / 8, y := 179 / 2, z := 87 / 2 }

/-- The value of one line of the hash on natural numbers, with total table reads; it is what
`hashTerm` returns on non-negative arguments without overflow. -/
def hashTermNat (offset len x y z : Nat) : Nat :=
  PermutationTable.getD
    (offset + (PermutationTable.getD
      (offset + (PermutationTable.getD (offset + x % len) 0 + y) % len) 0 + z) % len) 0

/-- The value of the hash on natural numbers, with total table reads. -/
def hashNat (x y z : Nat) : Nat :=
  (hashTermNat 0 11 x y z + hashTermNat 11 13 x y z + hashTermNat 24 16 x y z +
    hashTermNat 40 17 x y z + hashTermNat 57 19 x y z) % 16

/-- The three indices at which one line of `PerlinNoise3D::hash` reads the table, innermost
read first, for the sub-table of length `len` that starts at `offset`; the additions of `y`
and `z` to the entries read are `int` additions as in `hashTerm`. -/
def hashTermIndices (offset len x y z : Int) : Option (Int × Int × Int) := do
  let i0 := offset + Int.tmod x len
  let a ← tableAt i0
  let ay ← addInt (a : Int) y
  let i1 := offset + Int.tmod ay len
  let b ← tableAt i1
  let bz ← addInt (b : Int) z
  let i2 := offset + Int.tmod bz len
  pure (i0, i1, i2)

/-- The `(offset, length)` pairs of the five lines of `PerlinNoise3D::hash`. -/
def hashLines : List (Int × Int) := [(0, 11), (11, 13), (24, 16), (40, 17), (57, 19)]

/-! ## Alignment and power-of-two helpers -/

/-- The function template `alignUp<T>(value, alignment)` of common.h for an unsigned type `T`
of `bits` bits: `(value + alignment - 1) / alignment * alignment`.  The arithmetic is unsigned
arithmetic in the wider of `T` and `uint32_t`, the result is converted to `T`, and the division
by a zero alignment has no result. -/
def alignUp (bits : Nat) (value alignment : Nat) : Option Nat :=
  let w := 2 ^ max bits 32
  if alignment = 0 then none
  else some ((((value + alignment) % w + w - 1) % w) / alignment * alignment % w % 2 ^ bits)

/-- Number of zero bits above the highest set bit among the lowest `k` bits of `x`, and `k`
when there is none. -/
def lzcntAux : Nat → Nat → Nat
  | 0, _ => 0
  | k + 1, x => if x.testBit k then 0 else 1 + lzcntAux k x

/-- The function `lzcnt` of common.h: the number of leading zero bits of a 32-bit word (the
hardware intrinsic `_lzcnt_u32` / `__clz`), which is 32 for the word 0. -/
def lzcnt (x : Nat) : Nat := lzcntAux 32 x

/-- The function `nextPowOf2Exponent(x)` of common.h; `x - 1` is a `uint32_t` subtraction. -/
def nextPowOf2Exponent (x : Nat) : Nat :=
  if x = 0 then 0 else 32 - lzcnt ((x + u32 - 1) % u32)

/-- The expression `1 << e` with the `int` literal 1, converted to `uint32_t`: a shift count
of 32 or more has no result, and for the count 31 the `int` result converts to `2^31`. -/
def shiftLeftOne (e : Nat) : Option Nat :=
  if e < 32 then some ((1 <<< e) % u32) else none

/-- The function `nextPowerOf2(x)` of common.h. -/
def nextPowerOf2 (x : Nat) : Option Nat :=
  if x = 0 then some 0 else shiftLeftOne (nextPowOf2Exponent x)

/-- The function template `nextMultiplesForPowOf2<IntType>(x, exponent)` of common.h for
`IntType = uint32_t`: `mask = (1 << exponent) - 1` is computed in `int`, which has no result
for an exponent of 31 or more, and `(x + mask) & ~mask` is computed in `uint32_t`. -/
def nextMultiplesForPowOf2 (x exponent : Nat) : Option Nat :=
  if exponent < 31 then
    let mask := (1 <<< exponent) - 1
    some (((x + mask) % u32) &&& (mask ^^^ 0xFFFFFFFF))
  else none

/-- The function template `nextMultiplierForPowOf2<IntType>(x, exponent)` of common.h for
`IntType = uint32_t`. -/
def nextMultiplierForPowOf2 (x exponent : Nat) : Option Nat :=
  (nextMultiplesForPowOf2 x exponent).map (fun m => m >>> exponent)

/-! ## Perlin noise in binary32 arithmetic

The translation of `PerlinNoise3D::evaluate` above reads `float` arithmetic as exact.  The
definitions of this section round the result of every `float` operation and conversion to
binary32 (round to nearest, ties to even, every operation rounded on its own), so that they
give the values the source computes.  A `float` is a rational number that binary32
represents; a result that is not finite has no value (`none`). -/

/-- The integer nearest to `r`, the even one of the two when `r` lies half-way. -/
def roundNearestEven (r : ℚ) : Int :=
  if r - ⌊r⌋ < 1 / 2 then ⌊r⌋
  else if 1 / 2 < r - ⌊r⌋ then ⌊r⌋ + 1
  else if ⌊r⌋ % 2 = 0 then ⌊r⌋ else ⌊r⌋ + 1

/-- The position of the highest set bit of `n`, found in at most `fuel` halvings (0 for
`n < 2`). -/
def log2Aux : Nat → Nat → Nat
  | 0, _ => 0
  | fuel + 1, n => if n < 2 then 0 else 1 + log2Aux fuel (n / 2)

/-- The binary exponent of a positive rational `a`: the integer `k` with
`2^k <= a < 2^(k+1)`.  The difference `d` of the positions of the highest bits of the numerator
and of the denominator is `k` or `k + 1`. -/
def floorLog2 (a : ℚ) : Int :=
  let d : Int := (log2Aux a.num.natAbs a.num.natAbs : Int) - (log2Aux a.den a.den : Int)
  if (2 : ℚ) ^ d ≤ a then d else d - 1

/-- The rounding of a real result to binary32: to the nearest multiple of `2^e`, ties to even,
where `2^e` is the spacing of binary32 at `q` (24 significant bits, and `2^-149` in the
subnormal range); a rounded value of magnitude `2^128` or more is not finite. -/
def roundF32 (q : ℚ) : Option ℚ :=
  if q = 0 then some 0
  else
    let e : Int := max (floorLog2 |q| - 23) (-149)
    let r : ℚ := roundNearestEven (q / 2 ^ e) * 2 ^ e
    if |r| < 2 ^ 128 then some r else none

/-- The `float` product `a * b`. -/
def mulF32 (a b : ℚ) : Option ℚ := roundF32 (a * b)

/-- The `float` sum `a + b`. -/
def addF32 (a b : ℚ) : Option ℚ := roundF32 (a + b)

/-- The `float` difference `a - b`. -/
def subF32 (a b : ℚ) : Option ℚ := roundF32 (a - b)

/-- The wrapping of one coordinate in `PerlinNoise3D::evaluate`, in binary32:
`x = fmodf(x, repeat); if (x < 0) x += repeat;` for `repeat > 0`.  The `uint32_t repeat` is
converted to `float`, the remainder of `fmodf` is exact, and the sum is rounded. -/
def wrapCoordF32 (rep : Nat) (x : ℚ) : Option ℚ :=
  if rep > 0 then do
    let r ← roundF32 rep
    if fmodf x r < 0 then addF32 (fmodf x r) r else pure (fmodf x r)
  else pure x

/-- The lambda `fade` of `PerlinNoise3D::evaluate`, in binary32:
`t * t * t * (t * (t * 6 - 15) + 10)`. -/
def fadeF32 (t : ℚ) : Option ℚ := do
  let tt ← mulF32 t t
  let ttt ← mulF32 tt t
  let t6 ← mulF32 t 6
  let t6m ← subF32 t6 15
  let inner ← mulF32 t t6m
  let sum ← addF32 inner 10
  mulF32 ttt sum

/-- The lambda `lerp` of `PerlinNoise3D::evaluate`, in binary32: `v0 * (1 - t) + v1 * t`. -/
def lerpF32 (v0 v1 t : ℚ) : Option ℚ := do
  let s ← subF32 1 t
  let a ← mulF32 v0 s
  let b ← mulF32 v1 t
  addF32 a b

namespace PerlinNoise3D

/-- The static member function `PerlinNoise3D::gradient`, in binary32; a negation is exact. -/
def gradientF32 (hash : Nat) (xu yu zu : ℚ) : Option ℚ :=
  match hash &&& 0xF with
  | 0x0 => addF32 xu yu
  | 0x1 => addF32 (-xu) yu
  | 0x2 => subF32 xu yu
  | 0x3 => subF32 (-xu) yu
  | 0x4 => addF32 xu zu
  | 0x5 => addF32 (-xu) zu
  | 0x6 => subF32 xu zu
  | 0x7 => subF32 (-xu) zu
  | 0x8 => addF32 yu zu
  | 0x9 => addF32 (-yu) zu
  | 0xA => subF32 yu zu
  | 0xB => subF32 (-yu) zu
  | 0xC => addF32 xu yu
  | 0xD => addF32 (-yu) zu
  | 0xE => addF32 (-xu) yu
  | 0xF => subF32 (-yu) zu
  | _ => some 0

/-- One edge of the blend, in binary32: `lerp(gradient(h0, xu, yu, zu),
gradient(h1, xu - 1, yu, zu), u)`, with `xu1` the rounded `xu - 1`. -/
def edgeF32 (h0 h1 : Nat) (xu xu1 yu zu u : ℚ) : Option ℚ := do
  let g0 ← gradientF32 h0 xu yu zu
  let g1 ← gradientF32 h1 xu1 yu zu
  lerpF32 g0 g1 u

/-- The trilinear blend at the end of `PerlinNoise3D::evaluate`, in binary32; `xu1`, `yu1` and
`zu1` are the rounded differences `xu - 1`, `yu - 1` and `zu - 1` of the gradient
arguments. -/
def blendF32 (lll ull lul uul llu ulu luu uuu : Nat) (xu yu zu u v w : ℚ) : Option ℚ := do
  let xu1 ← subF32 xu 1
  let yu1 ← subF32 yu 1
  let zu1 ← subF32 zu 1
  let _llValue ← edgeF32 lll ull xu xu1 yu zu u
  let _ulValue ← edgeF32 lul uul xu xu1 yu1 zu u
  let __lValue ← lerpF32 _llValue _ulValue v
  let _luValue ← edgeF32 llu ulu xu xu1 yu zu1 u
  let _uuValue ← edgeF32 luu uuu xu xu1 yu1 zu1 u
  let __uValue ← lerpF32 _luValue _uuValue v
  lerpF32 __lValue __uValue w

/-- The difference `x - xi` of `PerlinNoise3D::evaluate`, in binary32: the index is converted
to `float` and the difference is rounded. -/
def offsetF32 (x : ℚ) (xi : Int) : Option ℚ := do
  let xiAsFloat ← roundF32 xi
  subF32 x xiAsFloat

/-- The end of `PerlinNoise3D::evaluate`, in binary32: the incremented indices, the eight
corner hashes and the blend. -/
def evaluateCellF32 (rep : Nat) (xi yi zi : Int) (xu yu zu u v w : ℚ) : Option ℚ := do
  let xi1 ← inc rep xi
  let yi1 ← inc rep yi
  let zi1 ← inc rep zi
  let lll ← hash xi yi zi
  let ull ← hash xi1 yi zi
  let lul ← hash xi yi1 zi
  let uul ← hash xi1 yi1 zi
  let llu ← hash xi yi zi1
  let ulu ← hash xi1 yi zi1
  let luu ← hash xi yi1 zi1
  let uuu ← hash xi1 yi1 zi1
  blendF32 lll ull lul uul llu ulu luu uuu xu yu zu u v w

/-- The part of `PerlinNoise3D::evaluate` after the wrapping, in binary32: the lattice cell of
the point `(x, y, z)`, the offsets in the cell and their fades, then the hashes and the
blend. -/
def evaluateWrappedF32 (rep : Nat) (x y z : ℚ) : Option ℚ := do
  let xi ← floorToInt32 x
  let yi ← floorToInt32 y
  let zi ← floorToInt32 z
  let xu ← offsetF32 x xi
  let yu ← offsetF32 y yi
  let zu ← offsetF32 z zi
  let u ← fadeF32 xu
  let v ← fadeF32 yu
  let w ← fadeF32 zu
  evaluateCellF32 rep xi yi zi xu yu zu u v w

/-- The effective period of `PerlinNoise3D::evaluate` in binary32:
`static_cast<uint32_t>(m_repeat * frequency)`, where `m_repeat` is converted to `float` and
the product is rounded before it is truncated. -/
def periodF32 (g : PerlinNoise3D) (frequency : ℚ) : Option Nat := do
  let repeatAsFloat ← roundF32 g.m_repeat
  let product ← mulF32 repeatAsFloat frequency
  toUInt32 product

/-- The member function `PerlinNoise3D::evaluate(p, frequency)`, in binary32, for a point and
a frequency that are binary32 values. -/
def evaluateF32 (g : PerlinNoise3D) (p : float3) (frequency : ℚ) : Option ℚ := do
  let x ← mulF32 frequency p.x
  let y ← mulF32 frequency p.y
  let z ← mulF32 frequency p.z
  let rep ← periodF32 g frequency
  let xw ← wrapCoordF32 rep x
  let yw ← wrapCoordF32 rep y
  let zw ← wrapCoordF32 rep z
  evaluateWrappedF32 rep xw yw zw

end PerlinNoise3D

/-! ## Bit-level lemmas -/

theorem popcntAux_zero (k : Nat) : popcntAux k 0 = 0 := by
  induction k with
  | zero => rfl
  | succ k ih => simp [popcntAux, ih]

theorem popcntAux_le (k x : Nat) : popcntAux k x ≤ k := by
  induction k generalizing x with
  | zero => simp [popcntAux]
  | succ k ih =>
    have h1 := ih (x / 2)
    have h2 : x % 2 < 2 := Nat.mod_lt _ (by decide)
    simp only [popcntAux]
    omega

theorem popcntAux_add (a b x : Nat) :
    popcntAux (a + b) x = popcntAux a x + popcntAux b (x / 2 ^ a) := by
  induction a generalizing x with
  | zero => simp [popcntAux]
  | succ a ih =>
    have e : a + 1 + b = (a + b) + 1 := by omega
    rw [e]
    simp only [popcntAux]
    rw [ih (x / 2), Nat.div_div_eq_div_mul, pow_succ' 2 a]
    omega

theorem popcntAux_mod (k m x : Nat) :
    popcntAux k (x % 2 ^ m) = popcntAux (min k m) x := by
  induction k generalizing m x with
  | zero => simp [popcntAux]
  | succ k ih =>
    cases m with
    | zero => simp [Nat.mod_one, popcntAux_zero, popcntAux]
    | succ m =>
      have e1 : x % 2 ^ (m + 1) % 2 = x % 2 := by
        rw [pow_succ' 2 m]
        exact Nat.mod_mul_right_mod x 2 (2 ^ m)
      have e2 : x % 2 ^ (m + 1) / 2 = x / 2 % 2 ^ m := by
        rw [pow_succ' 2 m]
        exact Nat.mod_mul_right_div_self x 2 (2 ^ m)
      have e3 : min (k + 1) (m + 1) = min k m + 1 := by omega
      rw [e3]
      simp only [popcntAux]
      rw [e1, e2, ih]

theorem popcntAux_eq_countP (k x : Nat) :
    popcntAux k x = (List.range k).countP (fun i => x.testBit i) := by
  induction k with
  | zero => simp [popcntAux]
  | succ k ih =>
    have h := popcntAux_add k 1 x
    rw [h, ih, List.range_succ, List.countP_append]
    congr 1
    simp only [popcntAux, List.countP_cons, List.countP_nil, Nat.zero_add, Nat.add_zero]
    rw [Nat.testBit_to_div_mod]
    by_cases hb : x / 2 ^ k % 2 = 1
    · simp [hb]
    · have : x / 2 ^ k % 2 = 0 := by omega
      simp [this]

theorem popcnt_and_mask (w x : Nat) (hw : w ≤ 32) :
    popcnt (x &&& ((1 <<< w) - 1)) = popcntAux w x := by
  unfold popcnt
  rw [Nat.one_shiftLeft, Nat.and_pow_two_sub_one_eq_mod, popcntAux_mod, Nat.min_eq_right hw]

/-- The loop variable values `2 ^ (k - 1), ..., 2, 1`. -/
theorem nthSetBitLoop_spec (k : Nat) (hk : k ≤ 5) (value m idx : Nat)
    (h : m < popcntAux (2 ^ k) value) (hidx : idx + 2 ^ k ≤ 2 ^ 32) :
    ∃ d, d < 2 ^ k ∧
      nthSetBitLoop ((List.range k).reverse.map (fun j => 2 ^ j)) value (m : Int) idx = idx + d ∧
      value.testBit d = true ∧ popcntAux d value = m := by
  induction k generalizing value m idx with
  | zero =>
    refine ⟨0, by simp, by simp [nthSetBitLoop], ?_, ?_⟩
    · simp only [pow_zero, popcntAux] at h
      rw [Nat.testBit_to_div_mod]
      simp
      omega
    · simp only [pow_zero, popcntAux] at h
      have : value % 2 < 2 := Nat.mod_lt _ (by decide)
      simp only [popcntAux]
      omega
  | succ k ih =>
    have hk4 : k ≤ 4 := by omega
    have hw : 2 ^ k ≤ 32 := by
      calc 2 ^ k ≤ 2 ^ 4 := Nat.pow_le_pow_right (by decide) hk4
        _ ≤ 32 := by decide
    have hsplit : popcntAux (2 ^ (k + 1)) value
        = popcntAux (2 ^ k) value + popcntAux (2 ^ k) (value / 2 ^ 2 ^ k) := by
      rw [pow_succ, Nat.mul_two, popcntAux_add]
    have hne : value ≠ 0 := by
      intro h0
      rw [h0, popcntAux_zero] at h
      omega
    have hp2 : 2 ^ (k + 1) = 2 ^ k + 2 ^ k := by rw [pow_succ]; omega
    rw [hp2] at hidx
    have hpos : 0 < 2 ^ k := Nat.two_pow_pos k
    rw [List.range_succ, List.reverse_append, List.reverse_singleton, List.singleton_append,
      List.map_cons]
    simp only [nthSetBitLoop, if_neg hne, popcnt_and_mask _ _ hw]
    by_cases hge : (m : Int) ≥ ((popcntAux (2 ^ k) value : Nat) : Int)
    · rw [if_pos hge]
      have hge' : popcntAux (2 ^ k) value ≤ m := by exact_mod_cast hge
      have hm' : m - popcntAux (2 ^ k) value < popcntAux (2 ^ k) (value / 2 ^ 2 ^ k) := by omega
      have hmod : (idx + 2 ^ k) % u32 = idx + 2 ^ k := by
        apply Nat.mod_eq_of_lt
        unfold u32
        have : 0 < 2 ^ k := Nat.two_pow_pos k
        omega
      obtain ⟨d, hd, hr, ht, hc⟩ := ih (by omega) (value / 2 ^ 2 ^ k) (m - popcntAux (2 ^ k) value)
        (idx + 2 ^ k) hm' (by omega)
      refine ⟨2 ^ k + d, by omega, ?_, ?_, ?_⟩
      · rw [hmod, Nat.shiftRight_eq_div_pow]
        have e : ((m : Int) - ((popcntAux (2 ^ k) value : Nat) : Int))
            = ((m - popcntAux (2 ^ k) value : Nat) : Int) := by omega
        rw [e, hr]
        omega
      · rw [← Nat.shiftRight_eq_div_pow, Nat.testBit_shiftRight] at ht
        exact ht
      · rw [popcntAux_add, hc]
        omega
    · rw [if_neg hge]
      have hlt : m < popcntAux (2 ^ k) value := by
        have : ¬ (popcntAux (2 ^ k) value ≤ m) := fun hh => hge (by exact_mod_cast hh)
        omega
      obtain ⟨d, hd, hr, ht, hc⟩ := ih (by omega) value m idx hlt (by omega)
      exact ⟨d, by omega, hr, ht, hc⟩

/-- The bit select of `nthSetBit`: for a rank `m` below the population count, the result is
the index of a set bit with exactly `m` set bits below it. -/
theorem nthSetBit_spec (value m : Nat) (hm : m < popcnt value) :
    nthSetBit value (m : Int) < 32 ∧ value.testBit (nthSetBit value (m : Int)) = true ∧
      (List.range (nthSetBit value (m : Int))).countP (fun i => value.testBit i) = m := by
  have hm' : m < popcntAux (2 ^ 5) value := hm
  obtain ⟨d, hd, hr, ht, hc⟩ := nthSetBitLoop_spec 5 (le_refl 5) value m 0 hm' (by decide)
  have hl : (List.range 5).reverse.map (fun j => 2 ^ j) = [16, 8, 4, 2, 1] := by decide
  have hn : ¬ ((m : Int) ≥ ((popcnt value : Nat) : Int)) := by
    intro h
    have : popcnt value ≤ m := by exact_mod_cast h
    omega
  have hres : nthSetBit value (m : Int) = d := by
    unfold nthSetBit
    rw [if_neg hn, ← hl, hr]
    omega
  rw [hres]
  refine ⟨by simpa using hd, ht, ?_⟩
  rw [← popcntAux_eq_countP, hc]

/-- C1: for every word `value` and every `n` with `0 ≤ n < popcnt(value)`, `nthSetBit(value, n)`
is an index `i` in `0..31` such that bit `i` of `value` is set and exactly `n` set bits of
`value` lie at indices below `i`. -/
theorem nthSetBit_selects (value : Nat) (n : Int) (h0 : 0 ≤ n)
    (hn : n < ((popcnt value : Nat) : Int)) :
    nthSetBit value n < 32 ∧ value.testBit (nthSetBit value n) = true ∧
      (((List.range (nthSetBit value n)).countP (fun i => value.testBit i) : Nat) : Int) = n := by
  obtain ⟨m, rfl⟩ := Int.eq_ofNat_of_zero_le h0
  have hm : m < popcnt value := by exact_mod_cast hn
  obtain ⟨h1, h2, h3⟩ := nthSetBit_spec value m hm
  exact ⟨h1, h2, by exact_mod_cast h3⟩

theorem nthSetBit_selects_witness :
    nthSetBit 44 1 < 32 ∧ (44 : Nat).testBit (nthSetBit 44 1) = true ∧
      (((List.range (nthSetBit 44 1)).countP (fun i => (44 : Nat).testBit i) : Nat) : Int) = 1 :=
  nthSetBit_selects 44 1 (by decide) (by decide)

/-- C2: for every word `value` and every signed `n` with `n ≥ popcnt(value)`,
`nthSetBit(value, n)` is `0xFFFFFFFF`, which is `SlotFinder::InvalidSlotIndex`. -/
theorem nthSetBit_not_found (value : Nat) (n : Int) (hn : n ≥ ((popcnt value : Nat) : Int)) :
    nthSetBit value n = 0xFFFFFFFF ∧ nthSetBit value n = InvalidSlotIndex := by
  unfold nthSetBit InvalidSlotIndex
  rw [if_pos hn]
  exact ⟨rfl, rfl⟩

theorem nthSetBit_not_found_witness :
    nthSetBit 0 0 = 0xFFFFFFFF ∧ nthSetBit 0 0 = InvalidSlotIndex :=
  nthSetBit_not_found 0 0 (by decide)


/-! ## `reset`, `getUsage` and move assignment -/

theorem fillZero_some (l : List Nat) (n : Nat) (h : n ≤ l.length) :
    fillZero (some l) n = some (some (List.replicate n 0 ++ l.drop n)) := by
  unfold fillZero
  by_cases h0 : n = 0
  · subst h0
    simp
  · simp [h0, h]

theorem readAt_filled (l : List Nat) (n i : Nat) (hi : i < n) :
    readAt (some (List.replicate n 0 ++ l.drop n)) i = some 0 := by
  unfold readAt
  simp only
  rw [List.getElem?_append_left (by simpa using hi)]
  simp [List.getElem?_replicate, hi]

theorem testBit_eq_shift_and (x i : Nat) : (((x >>> i) &&& 0x1) != 0) = x.testBit i := by
  rw [Nat.testBit, Nat.one_and_eq_mod_two, Nat.and_comm, Nat.one_and_eq_mod_two]

namespace SlotFinder

/-- C3: after `reset()` on a SlotFinder with its storage allocated, every word of the flag-bin
array and every used-count entry is 0; hence `getUsage(i)` is false for every slot
`i < 32 * m_numLowestFlagBins`, and `getNumUsed()` is 0 when the top-layer count offset lies
inside the count array. -/
theorem reset_clears (s : SlotFinder) (h : s.Allocated) (off : Nat)
    (hoff : readAt s.m_offsetsToNumUsedFlags ((s.m_numLayers + u32 - 1) % u32) = some off)
    (hin : off < s.m_numLowestFlagBins + s.m_numTotalCompiledFlagBins / 2) :
    ∃ s', s.reset = some s' ∧
      (∀ i, i < s.m_numLowestFlagBins + s.m_numTotalCompiledFlagBins →
        readAt s'.m_flagBins i = some 0) ∧
      (∀ i, i < s.m_numLowestFlagBins + s.m_numTotalCompiledFlagBins / 2 →
        readAt s'.m_numUsedFlagsUnderBinList i = some 0) ∧
      (∀ i, i < 32 * s.m_numLowestFlagBins → s'.getUsage i = some false) ∧
      s'.getNumUsed = some 0 := by
  obtain ⟨hf, hc, hlt⟩ := h
  cases hfb : s.m_flagBins with
  | none => rw [hfb] at hf; simp at hf
  | some fb =>
    cases hcn : s.m_numUsedFlagsUnderBinList with
    | none => rw [hcn] at hc; simp at hc
    | some cn =>
      rw [hfb] at hf
      rw [hcn] at hc
      simp only [Option.map_some', Option.some.injEq] at hf hc
      have hm1 : (s.m_numLowestFlagBins + s.m_numTotalCompiledFlagBins) % u32
          = s.m_numLowestFlagBins + s.m_numTotalCompiledFlagBins := Nat.mod_eq_of_lt hlt
      have hm2 : (s.m_numLowestFlagBins + s.m_numTotalCompiledFlagBins / 2) % u32
          = s.m_numLowestFlagBins + s.m_numTotalCompiledFlagBins / 2 := by
        apply Nat.mod_eq_of_lt
        have := Nat.div_le_self s.m_numTotalCompiledFlagBins 2
        omega
      have hr : s.reset = some { s with
          m_flagBins := some (List.replicate (s.m_numLowestFlagBins
            + s.m_numTotalCompiledFlagBins) 0 ++ fb.drop (s.m_numLowestFlagBins
            + s.m_numTotalCompiledFlagBins))
          m_numUsedFlagsUnderBinList := some (List.replicate (s.m_numLowestFlagBins
            + s.m_numTotalCompiledFlagBins / 2) 0 ++ cn.drop (s.m_numLowestFlagBins
            + s.m_numTotalCompiledFlagBins / 2)) } := by
        unfold reset
        rw [hfb, hcn, hm1, hm2, fillZero_some fb _ (le_of_eq hf.symm),
          fillZero_some cn _ (le_of_eq hc.symm)]
      refine ⟨_, hr, ?_, ?_, ?_, ?_⟩
      · intro i hi
        exact readAt_filled fb _ i hi
      · intro i hi
        exact readAt_filled cn _ i hi
      · intro i hi
        unfold getUsage
        simp only
        rw [readAt_filled fb _ (i / 32) (by omega)]
        simp
      · unfold getNumUsed
        simp only
        rw [hoff]
        exact readAt_filled cn _ off hin

theorem reset_clears_witness :
    ∃ s', sampleFinder.reset = some s' ∧
      (∀ i, i < sampleFinder.m_numLowestFlagBins + sampleFinder.m_numTotalCompiledFlagBins →
        readAt s'.m_flagBins i = some 0) ∧
      (∀ i, i < sampleFinder.m_numLowestFlagBins
          + sampleFinder.m_numTotalCompiledFlagBins / 2 →
        readAt s'.m_numUsedFlagsUnderBinList i = some 0) ∧
      (∀ i, i < 32 * sampleFinder.m_numLowestFlagBins → s'.getUsage i = some false) ∧
      s'.getNumUsed = some 0 :=
  reset_clears sampleFinder (by decide) 2 (by decide) (by decide)

/-- C4: for a slot index `s` inside the leaf layer, `getUsage(s)` is true exactly when bit
`s mod 32` of leaf flag word `s div 32` is 1; the word read is one of the
`m_numLowestFlagBins` leaf words, the result is fixed by that one word whatever the other
words and members are, and two different slot indices never name the same bit. -/
theorem getUsage_leaf_bit (f : SlotFinder) (s : Nat) (h : f.Allocated)
    (hs : s < 32 * f.m_numLowestFlagBins) :
    ∃ w, readAt f.m_flagBins (s / 32) = some w ∧ s / 32 < f.m_numLowestFlagBins ∧
      f.getUsage s = some (w.testBit (s % 32)) ∧
      (f.getUsage s = some true ↔ w.testBit (s % 32) = true) ∧
      (∀ g : SlotFinder, readAt g.m_flagBins (s / 32) = some w → g.getUsage s = f.getUsage s) ∧
      (∀ t : Nat, t ≠ s → ¬ (t / 32 = s / 32 ∧ t % 32 = s % 32)) := by
  obtain ⟨hf, -, -⟩ := h
  cases hfb : f.m_flagBins with
  | none => rw [hfb] at hf; simp at hf
  | some fb =>
    rw [hfb] at hf
    simp only [Option.map_some', Option.some.injEq] at hf
    have hlt : s / 32 < fb.length := by omega
    have hu : ∀ g : SlotFinder, readAt g.m_flagBins (s / 32) = some fb[s / 32] →
        g.getUsage s = some (fb[s / 32].testBit (s % 32)) := by
      intro g hg
      unfold getUsage
      simp only [hg, testBit_eq_shift_and]
    have hrd : readAt f.m_flagBins (s / 32) = some fb[s / 32] := by
      rw [hfb]
      exact List.getElem?_eq_getElem hlt
    rw [← hfb]
    refine ⟨fb[s / 32], hrd, by omega, hu f hrd, ?_, ?_, ?_⟩
    · rw [hu f hrd]
      simp
    · intro g hg
      rw [hu g hg, hu f hrd]
    · intro t hne ⟨h1, h2⟩
      omega

theorem getUsage_leaf_bit_witness :
    ∃ w, readAt sampleFinder.m_flagBins (33 / 32) = some w ∧
      33 / 32 < sampleFinder.m_numLowestFlagBins ∧
      sampleFinder.getUsage 33 = some (w.testBit (33 % 32)) ∧
      (sampleFinder.getUsage 33 = some true ↔ w.testBit (33 % 32) = true) ∧
      (∀ g : SlotFinder, readAt g.m_flagBins (33 / 32) = some w →
        g.getUsage 33 = sampleFinder.getUsage 33) ∧
      (∀ t : Nat, t ≠ 33 → ¬ (t / 32 = 33 / 32 ∧ t % 32 = 33 % 32)) :=
  getUsage_leaf_bit sampleFinder 33 (by decide) (by decide)

/-- C5: after the move assignment `dst = std::move(src)` on two distinct objects, `dst` holds
exactly the layer count, the bin counts and the five arrays `src` held before, so `getUsage`,
`getNumSlots` and `getNumUsed` on `dst` return what they returned on `src`; and the five array
pointers of `src` are null, as in a default-constructed SlotFinder. -/
theorem moveAssign_transfers (finalize : SlotFinder → SlotFinder) (dst src : SlotFinder) :
    (moveAssign finalize dst src).1 = src ∧
    (∀ i, (moveAssign finalize dst src).1.getUsage i = src.getUsage i) ∧
    (moveAssign finalize dst src).1.getNumSlots = src.getNumSlots ∧
    (moveAssign finalize dst src).1.getNumUsed = src.getNumUsed ∧
    (moveAssign finalize dst src).2.m_flagBins = none ∧
    (moveAssign finalize dst src).2.m_offsetsToOR_AND = none ∧
    (moveAssign finalize dst src).2.m_numUsedFlagsUnderBinList = none ∧
    (moveAssign finalize dst src).2.m_offsetsToNumUsedFlags = none ∧
    (moveAssign finalize dst src).2.m_numFlagsInLayerList = none ∧
    (moveAssign finalize dst src).2.m_flagBins = ctor.m_flagBins ∧
    (moveAssign finalize dst src).2.m_offsetsToOR_AND = ctor.m_offsetsToOR_AND ∧
    (moveAssign finalize dst src).2.m_numUsedFlagsUnderBinList
      = ctor.m_numUsedFlagsUnderBinList ∧
    (moveAssign finalize dst src).2.m_offsetsToNumUsedFlags = ctor.m_offsetsToNumUsedFlags ∧
    (moveAssign finalize dst src).2.m_numFlagsInLayerList = ctor.m_numFlagsInLayerList := by
  have h1 : (moveAssign finalize dst src).1 = src := by
    cases src
    rfl
  refine ⟨h1, ?_, ?_, ?_, rfl, rfl, rfl, rfl, rfl, rfl, rfl, rfl, rfl, rfl⟩
  · intro i
    rw [h1]
  · rw [h1]
  · rw [h1]

/-- C6: `reset()` changes only the contents of the flag-bin array and of the used-count
array: it returns on every SlotFinder with its storage allocated, the three counts, the two
offset tables and the flag-count list are unchanged, the two cleared arrays keep their
lengths, and `getNumSlots()` returns the same value before and after. -/
theorem reset_frame (s : SlotFinder) (h : s.Allocated) :
    ∃ s', s.reset = some s' ∧
      s'.m_numLayers = s.m_numLayers ∧
      s'.m_numLowestFlagBins = s.m_numLowestFlagBins ∧
      s'.m_numTotalCompiledFlagBins = s.m_numTotalCompiledFlagBins ∧
      s'.m_offsetsToOR_AND = s.m_offsetsToOR_AND ∧
      s'.m_offsetsToNumUsedFlags = s.m_offsetsToNumUsedFlags ∧
      s'.m_numFlagsInLayerList = s.m_numFlagsInLayerList ∧
      s'.m_flagBins.map List.length = s.m_flagBins.map List.length ∧
      s'.m_numUsedFlagsUnderBinList.map List.length
        = s.m_numUsedFlagsUnderBinList.map List.length ∧
      s'.getNumSlots = s.getNumSlots := by
  obtain ⟨hf, hc, hlt⟩ := h
  cases hfb : s.m_flagBins with
  | none => rw [hfb] at hf; simp at hf
  | some fb =>
    cases hcn : s.m_numUsedFlagsUnderBinList with
    | none => rw [hcn] at hc; simp at hc
    | some cn =>
      rw [hfb] at hf
      rw [hcn] at hc
      simp only [Option.map_some', Option.some.injEq] at hf hc
      have hm1 : (s.m_numLowestFlagBins + s.m_numTotalCompiledFlagBins) % u32
          = s.m_numLowestFlagBins + s.m_numTotalCompiledFlagBins := Nat.mod_eq_of_lt hlt
      have hm2 : (s.m_numLowestFlagBins + s.m_numTotalCompiledFlagBins / 2) % u32
          = s.m_numLowestFlagBins + s.m_numTotalCompiledFlagBins / 2 := by
        apply Nat.mod_eq_of_lt
        have := Nat.div_le_self s.m_numTotalCompiledFlagBins 2
        omega
      have hr : s.reset = some { s with
          m_flagBins := some (List.replicate (s.m_numLowestFlagBins
            + s.m_numTotalCompiledFlagBins) 0 ++ fb.drop (s.m_numLowestFlagBins
            + s.m_numTotalCompiledFlagBins))
          m_numUsedFlagsUnderBinList := some (List.replicate (s.m_numLowestFlagBins
            + s.m_numTotalCompiledFlagBins / 2) 0 ++ cn.drop (s.m_numLowestFlagBins
            + s.m_numTotalCompiledFlagBins / 2)) } := by
        unfold reset
        rw [hfb, hcn, hm1, hm2, fillZero_some fb _ (le_of_eq hf.symm),
          fillZero_some cn _ (le_of_eq hc.symm)]
      refine ⟨_, hr, rfl, rfl, rfl, rfl, rfl, rfl, ?_, ?_, rfl⟩
      · simp only [Option.map_some', Option.some.injEq, List.length_append,
          List.length_replicate, List.length_drop]
        omega
      · simp only [Option.map_some', Option.some.injEq, List.length_append,
          List.length_replicate, List.length_drop]
        omega

theorem reset_frame_witness :
    ∃ s', sampleFinder.reset = some s' ∧
      s'.m_numLayers = sampleFinder.m_numLayers ∧
      s'.m_numLowestFlagBins = sampleFinder.m_numLowestFlagBins ∧
      s'.m_numTotalCompiledFlagBins = sampleFinder.m_numTotalCompiledFlagBins ∧
      s'.m_offsetsToOR_AND = sampleFinder.m_offsetsToOR_AND ∧
      s'.m_offsetsToNumUsedFlags = sampleFinder.m_offsetsToNumUsedFlags ∧
      s'.m_numFlagsInLayerList = sampleFinder.m_numFlagsInLayerList ∧
      s'.m_flagBins.map List.length = sampleFinder.m_flagBins.map List.length ∧
      s'.m_numUsedFlagsUnderBinList.map List.length
        = sampleFinder.m_numUsedFlagsUnderBinList.map List.length ∧
      s'.getNumSlots = sampleFinder.getNumSlots :=
  reset_frame sampleFinder (by decide)

end SlotFinder

/-! ## The layout of the pyramid -/

theorem numBinsFor_pos (x : Nat) : 1 ≤ numBinsFor x := by
  unfold numBinsFor
  omega

theorem numBinsFor_mul (x : Nat) : x ≤ 32 * numBinsFor x := by
  unfold numBinsFor
  omega

theorem numBinsFor_pred (x : Nat) (hx : 1 ≤ x) : 32 * (numBinsFor x - 1) < x := by
  unfold numBinsFor
  omega

theorem numBinsFor_eq_one (x : Nat) : numBinsFor x = 1 ↔ x ≤ 32 := by
  unfold numBinsFor
  omega

theorem numFlagsInLayer_succ (N k : Nat) :
    numFlagsInLayer N (k + 1) = numBinsInLayer N k := rfl

theorem numFlagsInLayer_shift (x k : Nat) :
    numFlagsInLayer x (k + 1) = numFlagsInLayer (numBinsFor x) k := by
  induction k with
  | zero => rfl
  | succ k ih =>
    show numBinsFor (numFlagsInLayer x (k + 1)) = numBinsFor (numFlagsInLayer (numBinsFor x) k)
    rw [ih]

theorem countLayers_pos (f x : Nat) : 1 ≤ countLayers f x := by
  cases f with
  | zero => simp [countLayers]
  | succ f =>
    simp only [countLayers]
    split <;> omega

theorem countLayers_le (f x : Nat) : countLayers f x ≤ f + 1 := by
  induction f generalizing x with
  | zero => simp [countLayers]
  | succ f ih =>
    simp only [countLayers]
    split
    · have := ih (numBinsFor x)
      omega
    · omega

theorem countLayers_top (f x : Nat) (h : x ≤ f) :
    numBinsInLayer x (countLayers f x - 1) = 1 := by
  induction f generalizing x with
  | zero =>
    have : x = 0 := by omega
    subst this
    rfl
  | succ f ih =>
    simp only [countLayers]
    split
    · rename_i hgt
      have hx : numBinsFor x ≤ f := by
        unfold numBinsFor at hgt ⊢
        omega
      have hpos := countLayers_pos f (numBinsFor x)
      have e : 1 + countLayers f (numBinsFor x) - 1 = (countLayers f (numBinsFor x) - 1) + 1 := by
        omega
      rw [e]
      unfold numBinsInLayer
      rw [numFlagsInLayer_shift]
      exact ih (numBinsFor x) hx
    · rename_i hle
      have := numBinsFor_pos x
      show numBinsFor x = 1
      omega

theorem numLayersFor_pos (N : Nat) : 1 ≤ numLayersFor N := countLayers_pos N N

theorem numLayersFor_le (N : Nat) : numLayersFor N ≤ N + 1 := countLayers_le N N

theorem numBinsInLayer_top (N : Nat) : numBinsInLayer N (numLayersFor N - 1) = 1 :=
  countLayers_top N N (le_refl N)

theorem numBinsInLayer_pos (N k : Nat) : 1 ≤ numBinsInLayer N k := numBinsFor_pos _

/-- Every slot lies under some flag of every layer. -/
theorem div_lt_numFlagsInLayer (N k i : Nat) (hi : i < N) :
    i / 32 ^ k < numFlagsInLayer N k := by
  induction k with
  | zero => simpa [numFlagsInLayer] using hi
  | succ k ih =>
    have h1 : i / 32 ^ (k + 1) = i / 32 ^ k / 32 := by
      rw [pow_succ, Nat.div_div_eq_div_mul]
    have h2 := numBinsFor_mul (numFlagsInLayer N k)
    rw [h1]
    show i / 32 ^ k / 32 < numBinsFor (numFlagsInLayer N k)
    omega

/-- Every flag of every layer summarizes at least one slot. -/
theorem flag_block_nonempty (N k f : Nat) (hN : 1 ≤ N) (hf : f < numFlagsInLayer N k) :
    f * 32 ^ k < N := by
  induction k generalizing f with
  | zero => simpa [numFlagsInLayer] using hf
  | succ k ih =>
    have hpos : 1 ≤ numFlagsInLayer N k := by
      cases k with
      | zero => exact hN
      | succ k => exact numBinsFor_pos _
    have h1 := numBinsFor_pred (numFlagsInLayer N k) hpos
    have h2 : f < numBinsFor (numFlagsInLayer N k) := hf
    have h3 : 32 * f < numFlagsInLayer N k := by omega
    have h4 := ih (32 * f) h3
    rw [pow_succ]
    calc f * (32 ^ k * 32) = 32 * f * 32 ^ k := by ring
      _ < N := h4

theorem numSlots_le_pow (N : Nat) : N ≤ 32 ^ numLayersFor N := by
  by_contra hcon
  have hlt : 32 ^ numLayersFor N < N := by omega
  have hpos := numLayersFor_pos N
  have h1 := div_lt_numFlagsInLayer N (numLayersFor N - 1) (32 ^ numLayersFor N) hlt
  have h2 : 32 ^ numLayersFor N / 32 ^ (numLayersFor N - 1) = 32 := by
    have e : numLayersFor N = (numLayersFor N - 1) + 1 := by omega
    conv_lhs => rw [e]
    rw [pow_succ, Nat.mul_comm]
    have : 0 < 32 ^ (numLayersFor N - 1) := pow_pos (by decide) _
    exact Nat.mul_div_cancel _ this
  have h3 := numBinsInLayer_top N
  unfold numBinsInLayer at h3
  rw [numBinsFor_eq_one] at h3
  omega

theorem layerEnd_mono (N : Nat) {a b : Nat} (h : a ≤ b) : layerEnd N a ≤ layerEnd N b := by
  induction b with
  | zero =>
    have : a = 0 := by omega
    subst this
    exact le_refl _
  | succ b ih =>
    by_cases hab : a = b + 1
    · subst hab
      exact le_refl _
    · have := ih (by omega)
      simp only [layerEnd]
      omega

theorem offsetToAND_add (N k : Nat) : offsetToAND N k + numBinsInLayer N k = layerEnd N k := by
  cases k with
  | zero => simp [offsetToAND, layerEnd]
  | succ k => simp only [offsetToAND, layerEnd]; omega

theorem offsetToOR_add (N k : Nat) (hk : 1 ≤ k) :
    offsetToOR N k + numBinsInLayer N k = offsetToAND N k := by
  cases k with
  | zero => omega
  | succ k => simp only [offsetToAND, offsetToOR]

theorem offsetToOR_zero (N : Nat) : offsetToOR N 0 = offsetToAND N 0 := rfl

theorem layerEnd_le_offsetToOR (N : Nat) {a b : Nat} (h : a < b) :
    layerEnd N a ≤ offsetToOR N b := by
  cases b with
  | zero => omega
  | succ b =>
    simp only [offsetToOR]
    exact layerEnd_mono N (by omega)

theorem offsetToNumUsedFlags_mono (N : Nat) {a b : Nat} (h : a ≤ b) :
    offsetToNumUsedFlags N a ≤ offsetToNumUsedFlags N b := by
  induction b with
  | zero =>
    have : a = 0 := by omega
    subst this
    exact le_refl _
  | succ b ih =>
    by_cases hab : a = b + 1
    · subst hab
      exact le_refl _
    · have := ih (by omega)
      simp only [offsetToNumUsedFlags]
      omega

theorem offsetToNumUsedFlags_succ (N k : Nat) :
    offsetToNumUsedFlags N (k + 1) = offsetToNumUsedFlags N k + numBinsInLayer N k := rfl

/-! ## Reading and writing the arrays -/

theorem readAt_some (l : List Nat) (i : Nat) (h : i < l.length) :
    readAt (some l) i = some (l.getD i 0) := by
  unfold readAt
  simp [List.getD, List.getElem?_eq_getElem h]

theorem writeAt_some (l : List Nat) (i v : Nat) (h : i < l.length) :
    writeAt (some l) i v = some (some (l.set i v)) := by
  unfold writeAt
  simp [h]

theorem getD_set_eq (l : List Nat) (i v : Nat) (h : i < l.length) :
    (l.set i v).getD i 0 = v := by
  simp [List.getD, List.getElem?_set, h]

theorem getD_set_ne (l : List Nat) (i j v : Nat) (h : i ≠ j) :
    (l.set i v).getD j 0 = l.getD j 0 := by
  simp [List.getD, List.getElem?_set, h]

theorem readAt_offsetsOR (N k : Nat) (fb cnt : List Nat) (hk : k < numLayersFor N) :
    readAt (withArrays N fb cnt).m_offsetsToOR_AND (2 * k) = some (offsetToOR N k) := by
  unfold withArrays SlotFinder.init readAt
  simp only
  rw [List.getElem?_map, List.getElem?_range (by omega)]
  simp

theorem readAt_offsetsAND (N k : Nat) (fb cnt : List Nat) (hk : k < numLayersFor N) :
    readAt (withArrays N fb cnt).m_offsetsToOR_AND (2 * k + 1) = some (offsetToAND N k) := by
  unfold withArrays SlotFinder.init readAt
  simp only
  rw [List.getElem?_map, List.getElem?_range (by omega)]
  have h1 : (2 * k + 1) % 2 = 1 := by omega
  have h2 : (2 * k + 1) / 2 = k := by omega
  simp [h1, h2]

theorem readAt_offsetsNumUsed (N k : Nat) (fb cnt : List Nat) (hk : k < numLayersFor N) :
    readAt (withArrays N fb cnt).m_offsetsToNumUsedFlags k
      = some (offsetToNumUsedFlags N k) := by
  unfold withArrays SlotFinder.init readAt
  simp only
  rw [List.getElem?_map, List.getElem?_range hk]
  simp

theorem readAt_numFlags (N k : Nat) (fb cnt : List Nat) (hk : k < numLayersFor N) :
    readAt (withArrays N fb cnt).m_numFlagsInLayerList k = some (numFlagsInLayer N k) := by
  unfold withArrays SlotFinder.init readAt
  simp only
  rw [List.getElem?_map, List.getElem?_range hk]
  simp

theorem withArrays_flagBins (N : Nat) (fb cnt : List Nat) :
    (withArrays N fb cnt).m_flagBins = some fb := rfl

theorem withArrays_numUsed (N : Nat) (fb cnt : List Nat) :
    (withArrays N fb cnt).m_numUsedFlagsUnderBinList = some cnt := rfl

theorem withArrays_numLayers (N : Nat) (fb cnt : List Nat) :
    (withArrays N fb cnt).m_numLayers = numLayersFor N := rfl

theorem withArrays_update (N : Nat) (fb cnt fb' cnt' : List Nat) :
    { withArrays N fb cnt with m_flagBins := some fb', m_numUsedFlagsUnderBinList := some cnt' }
      = withArrays N fb' cnt' := rfl

/-! ## Words and their bits -/

theorem testBit_set_bit (w j i : Nat) :
    (w ||| (1 <<< j)).testBit i = (w.testBit i || decide (j = i)) := by
  rw [Nat.testBit_or, Nat.one_shiftLeft, Nat.testBit_two_pow]

theorem testBit_clear_bit (w j i : Nat) (hw : w < 2 ^ 32) :
    (w &&& (0xFFFFFFFF ^^^ (1 <<< j))).testBit i = (w.testBit i && !decide (j = i)) := by
  rw [Nat.testBit_and, Nat.testBit_xor, Nat.one_shiftLeft, Nat.testBit_two_pow]
  have e : (0xFFFFFFFF : Nat) = 2 ^ 32 - 1 := by decide
  rw [e, Nat.testBit_two_pow_sub_one]
  by_cases hi : i < 32
  · by_cases hj : j = i <;> simp [hi, hj]
  · have hwi : w.testBit i = false := by
      apply Nat.testBit_lt_two_pow
      calc w < 2 ^ 32 := hw
        _ ≤ 2 ^ i := Nat.pow_le_pow_right (by decide) (by omega)
    simp [hwi]

theorem testBit_flip (w i : Nat) (hi : i < 32) :
    (w ^^^ 0xFFFFFFFF).testBit i = !w.testBit i := by
  have e : (0xFFFFFFFF : Nat) = 2 ^ 32 - 1 := by decide
  rw [Nat.testBit_xor, e, Nat.testBit_two_pow_sub_one]
  simp [hi]

theorem set_bit_lt (w j c : Nat) (hw : w < 2 ^ c) (hj : j < c) : w ||| (1 <<< j) < 2 ^ c := by
  apply Nat.or_lt_two_pow hw
  rw [Nat.one_shiftLeft]
  exact Nat.pow_lt_pow_right (by decide) hj

theorem clear_bit_lt (w x c : Nat) (hw : w < 2 ^ c) : w &&& x < 2 ^ c :=
  lt_of_le_of_lt Nat.and_le_left hw

theorem testBit_of_lt (w c i : Nat) (hw : w < 2 ^ c) (hi : c ≤ i) : w.testBit i = false := by
  apply Nat.testBit_lt_two_pow
  calc w < 2 ^ c := hw
    _ ≤ 2 ^ i := Nat.pow_le_pow_right (by decide) hi

theorem popcnt_eq_countP_of_lt (w c : Nat) (hw : w < 2 ^ c) (hc : c ≤ 32) :
    popcnt w = (List.range c).countP (fun i => w.testBit i) := by
  unfold popcnt
  have e : 32 = c + (32 - c) := by omega
  rw [e, popcntAux_add, Nat.div_eq_of_lt hw, popcntAux_zero, popcntAux_eq_countP]
  rfl

theorem popcnt_le_of_lt (w c : Nat) (hw : w < 2 ^ c) (hc : c ≤ 32) : popcnt w ≤ c := by
  rw [popcnt_eq_countP_of_lt w c hw hc]
  calc (List.range c).countP (fun i => w.testBit i) ≤ (List.range c).length := List.countP_le_length _
    _ = c := List.length_range c

/-- A bin is full exactly when all the flags it holds are set. -/
theorem popcnt_eq_iff (w c : Nat) (hw : w < 2 ^ c) (hc : c ≤ 32) :
    popcnt w = c ↔ ∀ i, i < c → w.testBit i = true := by
  rw [popcnt_eq_countP_of_lt w c hw hc]
  have hl : (List.range c).length = c := List.length_range c
  constructor
  · intro h i hi
    have h' : (List.range c).countP (fun i => w.testBit i) = (List.range c).length := by
      rw [hl]; exact h
    rw [List.countP_eq_length] at h'
    exact h' i (List.mem_range.mpr hi)
  · intro h
    have h' : (List.range c).countP (fun i => w.testBit i) = (List.range c).length := by
      rw [List.countP_eq_length]
      intro i hi
      exact h i (List.mem_range.mp hi)
    rw [h', hl]

theorem tzcntAux_spec (k x : Nat) :
    tzcntAux k x ≤ k ∧ (∀ i, i < tzcntAux k x → x.testBit i = false) ∧
      (tzcntAux k x < k → x.testBit (tzcntAux k x) = true) := by
  induction k generalizing x with
  | zero => simp [tzcntAux]
  | succ k ih =>
    simp only [tzcntAux]
    by_cases hx : x % 2 = 1
    · rw [if_pos hx]
      refine ⟨by omega, by intro i hi; omega, ?_⟩
      intro _
      rw [Nat.testBit_zero]
      simp [hx]
    · rw [if_neg hx]
      obtain ⟨h1, h2, h3⟩ := ih (x / 2)
      refine ⟨by omega, ?_, ?_⟩
      · intro i hi
        cases i with
        | zero =>
          rw [Nat.testBit_zero]
          simp [hx]
        | succ i =>
          rw [Nat.testBit_succ]
          exact h2 i (by omega)
      · intro hlt
        have e : 1 + tzcntAux k (x / 2) = (tzcntAux k (x / 2)).succ := by omega
        rw [e, Nat.testBit_succ]
        exact h3 (by omega)

/-- The bit scan of `getFirstAvailableSlot`: in a bin that is not full, `tzcnt` of the
complemented word is the lowest flag that is clear, and it is one of the flags of the bin. -/
theorem tzcnt_flip_spec (w c : Nat) (hw : w < 2 ^ c) (hc : c ≤ 32) (hne : popcnt w ≠ c) :
    tzcnt (w ^^^ 0xFFFFFFFF) < c ∧ w.testBit (tzcnt (w ^^^ 0xFFFFFFFF)) = false ∧
      ∀ i, i < tzcnt (w ^^^ 0xFFFFFFFF) → w.testBit i = true := by
  obtain ⟨h1, h2, h3⟩ := tzcntAux_spec 32 (w ^^^ 0xFFFFFFFF)
  have hlow : ∀ i, i < tzcnt (w ^^^ 0xFFFFFFFF) → w.testBit i = true := by
    intro i hi
    have hi32 : i < 32 := lt_of_lt_of_le hi h1
    have := h2 i hi
    rw [testBit_flip w i hi32] at this
    simpa using this
  have hlt : tzcnt (w ^^^ 0xFFFFFFFF) < c := by
    by_contra hge
    apply hne
    rw [popcnt_eq_iff w c hw hc]
    intro i hi
    exact hlow i (by omega)
  refine ⟨hlt, ?_, hlow⟩
  have hlt32 : tzcntAux 32 (w ^^^ 0xFFFFFFFF) < 32 := lt_of_lt_of_le hlt hc
  have := h3 hlt32
  rw [testBit_flip w _ hlt32] at this
  simpa using this

/-! ## Counting used slots -/

theorem usedBelow_zero (u : Nat → Bool) : usedBelow u 0 = 0 := rfl

theorem usedBelow_succ (u : Nat → Bool) (m : Nat) :
    usedBelow u (m + 1) = usedBelow u m + (if u m = true then 1 else 0) := by
  unfold usedBelow
  rw [List.range_succ, List.countP_append]
  simp [List.countP_cons]

theorem usedBelow_mono (u : Nat → Bool) {a b : Nat} (h : a ≤ b) :
    usedBelow u a ≤ usedBelow u b := by
  induction b with
  | zero =>
    have : a = 0 := by omega
    subst this
    exact le_refl _
  | succ b ih =>
    by_cases hab : a = b + 1
    · subst hab
      exact le_refl _
    · have := ih (by omega)
      rw [usedBelow_succ]
      omega

theorem usedBelow_le (u : Nat → Bool) (m : Nat) : usedBelow u m ≤ m := by
  unfold usedBelow
  calc (List.range m).countP u ≤ (List.range m).length := List.countP_le_length _
    _ = m := List.length_range m

theorem usedBelow_outside (u : Nat → Bool) (N m : Nat) (hu : ∀ i, N ≤ i → u i = false)
    (hm : N ≤ m) : usedBelow u m = usedBelow u N := by
  induction m with
  | zero =>
    have : N = 0 := by omega
    subst this
    rfl
  | succ m ih =>
    by_cases hN : N = m + 1
    · subst hN
      rfl
    · rw [usedBelow_succ, ih (by omega), hu m (by omega)]
      simp

theorem usedBelow_set (u : Nat → Bool) (slot m : Nat) (h : u slot = false) :
    usedBelow (Function.update u slot true) m
      = usedBelow u m + (if slot < m then 1 else 0) := by
  induction m with
  | zero => simp [usedBelow_zero]
  | succ m ih =>
    rw [usedBelow_succ, usedBelow_succ, ih]
    by_cases hs : m = slot
    · subst hs
      simp [h]
    · have hne : ¬ slot = m := fun e => hs e.symm
      rw [Function.update_noteq hs]
      by_cases hlt : slot < m
      · have : slot < m + 1 := by omega
        simp [hlt, this]
        omega
      · have : ¬ slot < m + 1 := by omega
        simp [hlt, this]

theorem usedBelow_clear (u : Nat → Bool) (slot m : Nat) (h : u slot = true) :
    usedBelow (Function.update u slot false) m + (if slot < m then 1 else 0)
      = usedBelow u m := by
  induction m with
  | zero => simp [usedBelow_zero]
  | succ m ih =>
    rw [usedBelow_succ, usedBelow_succ, ← ih]
    by_cases hs : m = slot
    · subst hs
      simp [h]
    · have hne : ¬ slot = m := fun e => hs e.symm
      rw [Function.update_noteq hs]
      by_cases hlt : slot < m
      · have : slot < m + 1 := by omega
        simp [hlt, this]
        omega
      · have : ¬ slot < m + 1 := by omega
        simp [hlt, this]

theorem usedBelow_add (u : Nat → Bool) (a j : Nat) :
    usedBelow u (a + j) = usedBelow u a + (List.range j).countP (fun i => u (a + i)) := by
  induction j with
  | zero => simp
  | succ j ih =>
    have e : a + (j + 1) = (a + j) + 1 := by omega
    rw [e, usedBelow_succ, ih, List.range_succ, List.countP_append]
    simp [List.countP_cons]
    omega

/-! ## Addresses in the flat arrays -/

theorem offsetToOR_le_AND (N k : Nat) : offsetToOR N k ≤ offsetToAND N k := by
  cases k with
  | zero => exact le_refl _
  | succ k => simp only [offsetToOR, offsetToAND]; omega

theorem andAddr_lt (N k b : Nat) (hk : k < numLayersFor N) (hb : b < numBinsInLayer N k) :
    offsetToAND N k + b < layerEnd N (numLayersFor N - 1) := by
  have h1 := offsetToAND_add N k
  have h2 := layerEnd_mono N (show k ≤ numLayersFor N - 1 by omega)
  omega

theorem orAddr_lt (N k b : Nat) (hk : k < numLayersFor N) (hb : b < numBinsInLayer N k) :
    offsetToOR N k + b < layerEnd N (numLayersFor N - 1) := by
  have h1 := andAddr_lt N k b hk hb
  have h2 := offsetToOR_le_AND N k
  omega

theorem cntAddr_lt (N k b : Nat) (hk : k < numLayersFor N) (hb : b < numBinsInLayer N k) :
    offsetToNumUsedFlags N k + b < offsetToNumUsedFlags N (numLayersFor N) := by
  have h1 := offsetToNumUsedFlags_succ N k
  have h2 := offsetToNumUsedFlags_mono N (show k + 1 ≤ numLayersFor N by omega)
  omega

theorem andAddr_ne (N k b k' b' : Nat) (hb : b < numBinsInLayer N k)
    (hb' : b' < numBinsInLayer N k') (hne : k' ≠ k ∨ b' ≠ b) :
    offsetToAND N k + b ≠ offsetToAND N k' + b' := by
  rcases Nat.lt_trichotomy k' k with h | h | h
  · have h1 := offsetToAND_add N k'
    have h2 := layerEnd_le_offsetToOR N h
    have h3 := offsetToOR_le_AND N k
    omega
  · subst h
    omega
  · have h1 := offsetToAND_add N k
    have h2 := layerEnd_le_offsetToOR N h
    have h3 := offsetToOR_le_AND N k'
    omega

theorem orAddr_ne_and (N k b k' b' : Nat) (hk : 1 ≤ k) (hb : b < numBinsInLayer N k)
    (hb' : b' < numBinsInLayer N k') :
    offsetToOR N k + b ≠ offsetToAND N k' + b' := by
  have h0 := offsetToOR_add N k hk
  rcases Nat.lt_trichotomy k' k with h | h | h
  · have h1 := offsetToAND_add N k'
    have h2 := layerEnd_le_offsetToOR N h
    omega
  · subst h
    omega
  · have h1 := offsetToAND_add N k
    have h2 := layerEnd_le_offsetToOR N h
    have h3 := offsetToOR_le_AND N k'
    omega

theorem cntAddr_ne (N k b k' b' : Nat) (hb : b < numBinsInLayer N k)
    (hb' : b' < numBinsInLayer N k') (hne : k' ≠ k ∨ b' ≠ b) :
    offsetToNumUsedFlags N k + b ≠ offsetToNumUsedFlags N k' + b' := by
  rcases Nat.lt_trichotomy k' k with h | h | h
  · have h1 := offsetToNumUsedFlags_succ N k'
    have h2 := offsetToNumUsedFlags_mono N (show k' + 1 ≤ k by omega)
    omega
  · subst h
    omega
  · have h1 := offsetToNumUsedFlags_succ N k
    have h2 := offsetToNumUsedFlags_mono N (show k + 1 ≤ k' by omega)
    omega

/-! ## Blocks of slots -/

theorem pow32_pos (k : Nat) : 0 < 32 ^ k := pow_pos (by decide) k

theorem div_pow_succ (i k : Nat) : i / 32 ^ (k + 1) = i / 32 ^ k / 32 := by
  rw [pow_succ, Nat.div_div_eq_div_mul]

theorem path_flag_lt (N slot k : Nat) (hs : slot < N) :
    slot / 32 ^ k < numFlagsInLayer N k := div_lt_numFlagsInLayer N k slot hs

theorem path_bin_lt (N slot k : Nat) (hs : slot < N) :
    slot / 32 ^ k / 32 < numBinsInLayer N k := by
  rw [← div_pow_succ, ← numFlagsInLayer_succ]
  exact div_lt_numFlagsInLayer N (k + 1) slot hs

theorem flag_bin_lt (N k f : Nat) (hf : f < numFlagsInLayer N k) :
    f / 32 < numBinsInLayer N k := by
  have := numBinsFor_mul (numFlagsInLayer N k)
  unfold numBinsInLayer
  omega

theorem flag_bit_lt (N k f : Nat) (hf : f < numFlagsInLayer N k) :
    f % 32 < flagsInBin N k (f / 32) := by
  unfold flagsInBin
  omega

theorem flagsInBin_le (N k b : Nat) : flagsInBin N k b ≤ 32 := by
  unfold flagsInBin
  omega

theorem flag_of_bit_lt (N k b i : Nat) (hi : i < flagsInBin N k b) :
    32 * b + i < numFlagsInLayer N k := by
  unfold flagsInBin at hi
  omega

/-- A usage change at `slot` leaves alone the blocks that `slot` is not in. -/
theorem blockFull_update_other (N : Nat) (u : Nat → Bool) (slot k f : Nat) (x : Bool)
    (hne : slot / 32 ^ k ≠ f) :
    blockFull N (Function.update u slot x) k f ↔ blockFull N u k f := by
  unfold blockFull
  constructor
  · intro h i hi hif
    have hs : i ≠ slot := by
      intro e
      subst e
      exact hne hif
    have := h i hi hif
    rwa [Function.update_noteq hs] at this
  · intro h i hi hif
    have hs : i ≠ slot := by
      intro e
      subst e
      exact hne hif
    rw [Function.update_noteq hs]
    exact h i hi hif

theorem blockFull_path_false (N : Nat) (u : Nat → Bool) (slot k : Nat) (hs : slot < N)
    (hu : u slot = false) : ¬ blockFull N u k (slot / 32 ^ k) := by
  intro h
  have := h slot hs rfl
  rw [hu] at this
  exact Bool.noConfusion this

/-- A block of layer `k + 1` is full exactly when the blocks of all the flags of its bin in
layer `k` are full. -/
theorem blockFull_succ (N : Nat) (u : Nat → Bool) (k b : Nat) :
    (∀ i, i < flagsInBin N k b → blockFull N u k (32 * b + i)) ↔ blockFull N u (k + 1) b := by
  unfold blockFull
  constructor
  · intro h i hi hib
    rw [div_pow_succ] at hib
    have hg := div_lt_numFlagsInLayer N k i hi
    have hlt : i / 32 ^ k % 32 < flagsInBin N k b := by
      unfold flagsInBin
      omega
    exact h (i / 32 ^ k % 32) hlt i hi (by omega)
  · intro h i _ i' hi' hif
    apply h i' hi'
    rw [div_pow_succ, hif]
    unfold flagsInBin at *
    omega

theorem lt_block_iff (slot k b : Nat) : slot < 32 ^ k * b ↔ slot / 32 ^ k < b := by
  rw [Nat.div_lt_iff_lt_mul (pow32_pos k), Nat.mul_comm]

/-- The layers other than `k` are described as before when only a word and a count of layer
`k` have changed, and layer `k` is described by the new usage once its flags, the bound of
the changed word and its counts have been checked. -/
theorem DescribesAt.update_layer {N : Nat} {v : Nat → Nat → Bool} {fb cnt fb' cnt' : List Nat}
    (hD : DescribesAt N v fb cnt) (k b : Nat) (u' : Nat → Bool)
    (hlen1 : fb'.length = fb.length) (hlen2 : cnt'.length = cnt.length)
    (hA : ∀ k' b', k' < numLayersFor N → b' < numBinsInLayer N k' → (k' ≠ k ∨ b' ≠ b) →
      andWord N fb' k' b' = andWord N fb k' b')
    (hC : ∀ k' b', k' < numLayersFor N → b' < numBinsInLayer N k' → (k' ≠ k ∨ b' ≠ b) →
      cntAt N cnt' k' b' = cntAt N cnt k' b')
    (hout : ∀ i, N ≤ i → u' i = false)
    (hflags : ∀ f, f < numFlagsInLayer N k →
      ((andWord N fb' k (f / 32)).testBit (f % 32) = true ↔ blockFull N u' k f))
    (hbound : andWord N fb' k b < 2 ^ flagsInBin N k b)
    (hcnt : ∀ b', b' < numBinsInLayer N k →
      cntAt N cnt' k b' + usedBelow u' (32 ^ (k + 1) * b')
        = usedBelow u' (32 ^ (k + 1) * (b' + 1))) :
    DescribesAt N (Function.update v k u') fb' cnt' where
  lenFlagBins := by rw [hlen1]; exact hD.lenFlagBins
  lenNumUsed := by rw [hlen2]; exact hD.lenNumUsed
  outside := by
    intro layer hl i hi
    by_cases e : layer = k
    · subst e
      rw [Function.update_same]
      exact hout i hi
    · rw [Function.update_noteq e]
      exact hD.outside layer hl i hi
  andFlag := by
    intro layer hl f hf
    by_cases e : layer = k
    · subst e
      rw [Function.update_same]
      exact hflags f hf
    · rw [Function.update_noteq e, hA layer (f / 32) hl (flag_bin_lt N layer f hf) (Or.inl e)]
      exact hD.andFlag layer hl f hf
  andBound := by
    intro layer hl b' hb'
    by_cases e : layer = k ∧ b' = b
    · obtain ⟨e1, e2⟩ := e
      subst e1 e2
      exact hbound
    · have e' : layer ≠ k ∨ b' ≠ b := by
        by_cases e1 : layer = k
        · exact Or.inr (fun e2 => e ⟨e1, e2⟩)
        · exact Or.inl e1
      rw [hA layer b' hl hb' e']
      exact hD.andBound layer hl b' hb'
  numUsed := by
    intro layer hl b' hb'
    by_cases e : layer = k
    · subst e
      rw [Function.update_same]
      exact hcnt b' hb'
    · rw [Function.update_noteq e, hC layer b' hl hb' (Or.inl e)]
      exact hD.numUsed layer hl b' hb'

/-! ## One layer of `setInUse` and of `setNotInUse` -/

namespace SlotFinder

theorem setInUseLoop_unfold (N k f numLeft : Nat) (fb cnt : List Nat) (setANDFlag : Bool)
    (hk : k < numLayersFor N) (hb : f / 32 < numBinsInLayer N k)
    (hlen1 : fb.length = layerEnd N (numLayersFor N - 1))
    (hlen2 : cnt.length = offsetToNumUsedFlags N (numLayersFor N)) :
    setInUseLoop (numLeft + 1) k (withArrays N fb cnt) f setANDFlag
      = setInUseLoop numLeft (k + 1)
          (withArrays N (flagBinsSet N fb k f setANDFlag) (numUsedInc N cnt k f)) (f / 32)
          (popcnt (andWordSet N fb k f setANDFlag)
            == min 32 (numFlagsInLayer N k - 32 * (f / 32))) := by
  have h1 : offsetToOR N k + f / 32 < fb.length := by
    rw [hlen1]; exact orAddr_lt N k _ hk hb
  have h2 : offsetToAND N k + f / 32 < fb.length := by
    rw [hlen1]; exact andAddr_lt N k _ hk hb
  have h3 : offsetToNumUsedFlags N k + f / 32 < cnt.length := by
    rw [hlen2]; exact cntAddr_lt N k _ hk hb
  have h2' : offsetToAND N k + f / 32 < (fb.set (offsetToOR N k + f / 32)
      (fb.getD (offsetToOR N k + f / 32) 0 ||| (1 <<< (f % 32)))).length := by
    rw [List.length_set]; exact h2
  rw [setInUseLoop]
  simp only [readAt_offsetsOR N k fb cnt hk, readAt_offsetsAND N k fb cnt hk,
    readAt_offsetsNumUsed N k fb cnt hk, readAt_numFlags N k fb cnt hk,
    withArrays_flagBins, withArrays_numUsed, readAt_some _ _ h1, writeAt_some _ _ _ h1,
    readAt_some _ _ h2', writeAt_some _ _ _ h2', readAt_some _ _ h3, writeAt_some _ _ _ h3,
    Option.bind_eq_bind, Option.some_bind, withArrays_update]
  rfl

theorem setNotInUseLoop_unfold (N k f numLeft : Nat) (fb cnt : List Nat) (resetORFlag : Bool)
    (hk : k < numLayersFor N) (hb : f / 32 < numBinsInLayer N k)
    (hlen1 : fb.length = layerEnd N (numLayersFor N - 1))
    (hlen2 : cnt.length = offsetToNumUsedFlags N (numLayersFor N)) :
    setNotInUseLoop (numLeft + 1) k (withArrays N fb cnt) f resetORFlag
      = setNotInUseLoop numLeft (k + 1)
          (withArrays N (flagBinsCleared N fb k f resetORFlag) (numUsedDec N cnt k f)) (f / 32)
          (orWordCleared N fb k f resetORFlag == 0) := by
  have h1 : offsetToOR N k + f / 32 < fb.length := by
    rw [hlen1]; exact orAddr_lt N k _ hk hb
  have h2 : offsetToAND N k + f / 32 < fb.length := by
    rw [hlen1]; exact andAddr_lt N k _ hk hb
  have h3 : offsetToNumUsedFlags N k + f / 32 < cnt.length := by
    rw [hlen2]; exact cntAddr_lt N k _ hk hb
  have h2' : ∀ x, offsetToAND N k + f / 32 < (fb.set (offsetToOR N k + f / 32) x).length := by
    intro x
    rw [List.length_set]; exact h2
  rw [setNotInUseLoop]
  simp only [readAt_offsetsOR N k fb cnt hk, readAt_offsetsAND N k fb cnt hk,
    readAt_offsetsNumUsed N k fb cnt hk,
    withArrays_flagBins, withArrays_numUsed, readAt_some _ _ h1, writeAt_some _ _ _ h1,
    readAt_some _ _ (h2' _), writeAt_some _ _ _ (h2' _), readAt_some _ _ h3,
    writeAt_some _ _ _ h3, Option.bind_eq_bind, Option.some_bind, withArrays_update]
  rfl

end SlotFinder

/-! ## A usage change at one slot, seen from one layer -/

theorem usedBelow_congr_block (u u' : Nat → Bool) (lo hi : Nat) (h : lo ≤ hi)
    (hag : ∀ i, lo ≤ i → i < hi → u' i = u i) :
    usedBelow u' hi + usedBelow u lo = usedBelow u hi + usedBelow u' lo := by
  have e : hi = lo + (hi - lo) := by omega
  rw [e, usedBelow_add, usedBelow_add]
  have hc : (List.range (hi - lo)).countP (fun i => u' (lo + i))
      = (List.range (hi - lo)).countP (fun i => u (lo + i)) := by
    apply List.countP_congr
    intro i hi'
    rw [List.mem_range] at hi'
    rw [hag (lo + i) (by omega) (by omega)]
  rw [hc]
  omega

theorem usedBelow_le_numSlots (u : Nat → Bool) (N m : Nat) (hu : ∀ i, N ≤ i → u i = false) :
    usedBelow u m ≤ N := by
  by_cases h : m ≤ N
  · exact le_trans (usedBelow_le u m) h
  · rw [usedBelow_outside u N m hu (by omega)]
    exact usedBelow_le u N

theorem block_lo_le_hi (k b : Nat) : 32 ^ (k + 1) * b ≤ 32 ^ (k + 1) * (b + 1) :=
  Nat.mul_le_mul_left _ (Nat.le_succ b)

theorem path_in_block (slot k : Nat) :
    32 ^ (k + 1) * (slot / 32 ^ k / 32) ≤ slot ∧
      slot < 32 ^ (k + 1) * (slot / 32 ^ k / 32 + 1) := by
  rw [← div_pow_succ]
  constructor
  · exact Nat.mul_div_le slot (32 ^ (k + 1))
  · exact Nat.lt_mul_div_succ slot (pow32_pos (k + 1))

theorem not_in_other_block (slot k b' : Nat) (hne : b' ≠ slot / 32 ^ k / 32) (i : Nat)
    (h1 : 32 ^ (k + 1) * b' ≤ i) (h2 : i < 32 ^ (k + 1) * (b' + 1)) : i ≠ slot := by
  intro e
  subst e
  apply hne
  rw [← div_pow_succ]
  have h3 : i / 32 ^ (k + 1) < b' + 1 := by
    rw [Nat.div_lt_iff_lt_mul (pow32_pos _), Nat.mul_comm]
    exact h2
  have h4 : b' ≤ i / 32 ^ (k + 1) := by
    rw [Nat.le_div_iff_mul_le (pow32_pos _), Nat.mul_comm]
    exact h1
  omega

/-- The effect on layer `k` of changing the usage of `slot`: the one AND bin and the one used
count on the path of `slot` change, and the layer then describes the new usage. -/
theorem DescribesAt.step {N : Nat} {v : Nat → Nat → Bool} {fb cnt fb' cnt' : List Nat}
    (hD : DescribesAt N v fb cnt) (slot k : Nat) (x : Bool) (u : Nat → Bool)
    (hvk : v k = u) (hs : slot < N) (hk : k < numLayersFor N)
    (hlen1 : fb'.length = fb.length) (hlen2 : cnt'.length = cnt.length)
    (hA : ∀ k' b', k' < numLayersFor N → b' < numBinsInLayer N k' →
      (k' ≠ k ∨ b' ≠ slot / 32 ^ k / 32) → andWord N fb' k' b' = andWord N fb k' b')
    (hC : ∀ k' b', k' < numLayersFor N → b' < numBinsInLayer N k' →
      (k' ≠ k ∨ b' ≠ slot / 32 ^ k / 32) → cntAt N cnt' k' b' = cntAt N cnt k' b')
    (hbits : ∀ i, i ≠ slot / 32 ^ k % 32 →
      (andWord N fb' k (slot / 32 ^ k / 32)).testBit i
        = (andWord N fb k (slot / 32 ^ k / 32)).testBit i)
    (hbit : (andWord N fb' k (slot / 32 ^ k / 32)).testBit (slot / 32 ^ k % 32) = true
      ↔ blockFull N (Function.update u slot x) k (slot / 32 ^ k))
    (hbound : andWord N fb' k (slot / 32 ^ k / 32) < 2 ^ flagsInBin N k (slot / 32 ^ k / 32))
    (hcntb : cntAt N cnt' k (slot / 32 ^ k / 32)
        + usedBelow (Function.update u slot x) (32 ^ (k + 1) * (slot / 32 ^ k / 32))
      = usedBelow (Function.update u slot x) (32 ^ (k + 1) * (slot / 32 ^ k / 32 + 1))) :
    DescribesAt N (Function.update v k (Function.update u slot x)) fb' cnt' := by
  apply hD.update_layer k (slot / 32 ^ k / 32) (Function.update u slot x) hlen1 hlen2 hA hC
  · intro i hi
    have hne : i ≠ slot := by omega
    rw [Function.update_noteq hne, ← hvk]
    exact hD.outside k hk i hi
  · intro f hf
    by_cases hfe : f = slot / 32 ^ k
    · subst hfe
      exact hbit
    · have hold := hD.andFlag k hk f hf
      rw [hvk] at hold
      rw [blockFull_update_other N u slot k f x (fun e => hfe e.symm), ← hold]
      by_cases hbe : f / 32 = slot / 32 ^ k / 32
      · rw [hbe, hbits (f % 32) (by omega)]
      · rw [hA k (f / 32) hk (flag_bin_lt N k f hf) (Or.inr hbe)]
  · exact hbound
  · intro b' hb'
    by_cases hbe : b' = slot / 32 ^ k / 32
    · subst hbe
      exact hcntb
    · rw [hC k b' hk hb' (Or.inr hbe)]
      have hold := hD.numUsed k hk b' hb'
      rw [hvk] at hold
      have hcg := usedBelow_congr_block u (Function.update u slot x) (32 ^ (k + 1) * b')
        (32 ^ (k + 1) * (b' + 1)) (block_lo_le_hi k b') (by
          intro i h1 h2
          rw [Function.update_noteq (not_in_other_block slot k b' hbe i h1 h2)])
      omega

namespace SlotFinder

/-- The words of the AND bins after the two writes of one layer of a mutator: the OR write of
`x` at `(k, b)` and then the AND write of `w` at `(k, b)`. -/
theorem andWord_after_writes (N k b : Nat) (fb : List Nat) (x w : Nat)
    (hk : k < numLayersFor N) (hb : b < numBinsInLayer N k)
    (hlen : fb.length = layerEnd N (numLayersFor N - 1)) :
    andWord N ((fb.set (offsetToOR N k + b) x).set (offsetToAND N k + b) w) k b = w ∧
    (∀ k' b', k' < numLayersFor N → b' < numBinsInLayer N k' → (k' ≠ k ∨ b' ≠ b) →
      andWord N ((fb.set (offsetToOR N k + b) x).set (offsetToAND N k + b) w) k' b'
        = andWord N fb k' b') ∧
    (fb.set (offsetToOR N k + b) x).getD (offsetToAND N k + b) 0
      = if k = 0 then x else andWord N fb k b := by
  have h2 : offsetToAND N k + b < fb.length := by
    rw [hlen]; exact andAddr_lt N k _ hk hb
  have h1 : offsetToOR N k + b < fb.length := by
    rw [hlen]; exact orAddr_lt N k _ hk hb
  refine ⟨?_, ?_, ?_⟩
  · unfold andWord
    rw [getD_set_eq _ _ _ (by rw [List.length_set]; exact h2)]
  · intro k' b' hk' hb' hne
    unfold andWord
    rw [getD_set_ne _ _ _ _ (andAddr_ne N k b k' b' hb hb' hne)]
    by_cases h0 : k = 0
    · subst h0
      rw [offsetToOR_zero, getD_set_ne _ _ _ _ (andAddr_ne N 0 b k' b' hb hb' hne)]
    · rw [getD_set_ne _ _ _ _ (orAddr_ne_and N k b k' b' (by omega) hb hb')]
  · by_cases h0 : k = 0
    · subst h0
      rw [offsetToOR_zero, getD_set_eq _ _ _ h2]
      simp
    · rw [if_neg h0, getD_set_ne _ _ _ _ (orAddr_ne_and N k b k b (by omega) hb hb)]
      rfl

theorem cntAt_after_write (N k b : Nat) (cnt : List Nat) (c : Nat)
    (hk : k < numLayersFor N) (hb : b < numBinsInLayer N k)
    (hlen : cnt.length = offsetToNumUsedFlags N (numLayersFor N)) :
    cntAt N (cnt.set (offsetToNumUsedFlags N k + b) c) k b = c ∧
    (∀ k' b', k' < numLayersFor N → b' < numBinsInLayer N k' → (k' ≠ k ∨ b' ≠ b) →
      cntAt N (cnt.set (offsetToNumUsedFlags N k + b) c) k' b' = cntAt N cnt k' b') := by
  have h3 : offsetToNumUsedFlags N k + b < cnt.length := by
    rw [hlen]; exact cntAddr_lt N k _ hk hb
  refine ⟨?_, ?_⟩
  · unfold cntAt
    rw [getD_set_eq _ _ _ h3]
  · intro k' b' hk' hb' hne
    unfold cntAt
    rw [getD_set_ne _ _ _ _ (cntAddr_ne N k b k' b' hb hb' hne)]

/-- Whether a bin of layer `k` is full decides whether its block in layer `k + 1` is full. -/
theorem full_bin_iff {N : Nat} {v : Nat → Nat → Bool} {fb cnt : List Nat}
    (hD : DescribesAt N v fb cnt) (k b : Nat) (hk : k < numLayersFor N)
    (hb : b < numBinsInLayer N k) :
    popcnt (andWord N fb k b) = flagsInBin N k b ↔ blockFull N (v k) (k + 1) b := by
  rw [popcnt_eq_iff _ _ (hD.andBound k hk b hb) (flagsInBin_le N k b), ← blockFull_succ]
  have hle := flagsInBin_le N k b
  constructor
  · intro h i hi
    have hf := flag_of_bit_lt N k b i hi
    have := (hD.andFlag k hk (32 * b + i) hf).mp
    have e1 : (32 * b + i) / 32 = b := by omega
    have e2 : (32 * b + i) % 32 = i := by omega
    rw [e1, e2] at this
    exact this (h i hi)
  · intro h i hi
    have hf := flag_of_bit_lt N k b i hi
    have := (hD.andFlag k hk (32 * b + i) hf).mpr (h i hi)
    have e1 : (32 * b + i) / 32 = b := by omega
    have e2 : (32 * b + i) % 32 = i := by omega
    rw [e1, e2] at this
    exact this

theorem andWordSet_eq (N k f : Nat) (fb : List Nat) (setANDFlag : Bool)
    (hk : k < numLayersFor N) (hb : f / 32 < numBinsInLayer N k)
    (hlen : fb.length = layerEnd N (numLayersFor N - 1))
    (h0 : k = 0 → setANDFlag = false) :
    andWordSet N fb k f setANDFlag
      = if (decide (k = 0) || setANDFlag) = true then
          andWord N fb k (f / 32) ||| (1 <<< (f % 32))
        else andWord N fb k (f / 32) := by
  obtain ⟨-, -, hw3⟩ := andWord_after_writes N k (f / 32) fb
    (fb.getD (offsetToOR N k + f / 32) 0 ||| (1 <<< (f % 32))) 0 hk hb hlen
  unfold andWordSet orWritten
  rw [hw3]
  by_cases hk0 : k = 0
  · subst hk0
    rw [h0 rfl]
    simp [andWord, offsetToOR_zero]
  · cases setANDFlag <;> simp [hk0]

theorem setInUseLoop_step (N slot k numLeft : Nat) (v : Nat → Nat → Bool) (u : Nat → Bool)
    (fb cnt : List Nat) (setANDFlag : Bool)
    (hN : N < u32) (hs : slot < N) (hk : k < numLayersFor N)
    (hD : DescribesAt N v fb cnt) (hvk : v k = u) (hu : u slot = false)
    (h0 : k = 0 → setANDFlag = false)
    (h1 : 1 ≤ k →
      (setANDFlag = true ↔ blockFull N (Function.update u slot true) k (slot / 32 ^ k))) :
    ∃ fb' cnt' setANDFlag',
      setInUseLoop (numLeft + 1) k (withArrays N fb cnt) (slot / 32 ^ k) setANDFlag
        = setInUseLoop numLeft (k + 1) (withArrays N fb' cnt') (slot / 32 ^ (k + 1)) setANDFlag' ∧
      DescribesAt N (Function.update v k (Function.update u slot true)) fb' cnt' ∧
      (setANDFlag' = true
        ↔ blockFull N (Function.update u slot true) (k + 1) (slot / 32 ^ (k + 1))) := by
  have hb := path_bin_lt N slot k hs
  have hf := path_flag_lt N slot k hs
  have hun := setInUseLoop_unfold N k (slot / 32 ^ k) numLeft fb cnt setANDFlag hk hb
    hD.lenFlagBins hD.lenNumUsed
  obtain ⟨hw1, hw2, -⟩ := andWord_after_writes N k (slot / 32 ^ k / 32) fb
    (fb.getD (offsetToOR N k + slot / 32 ^ k / 32) 0 ||| (1 <<< (slot / 32 ^ k % 32)))
    (andWordSet N fb k (slot / 32 ^ k) setANDFlag) hk hb hD.lenFlagBins
  obtain ⟨hc1, hc2⟩ := cntAt_after_write N k (slot / 32 ^ k / 32) cnt
    ((cnt.getD (offsetToNumUsedFlags N k + slot / 32 ^ k / 32) 0 + 1) % u32) hk hb hD.lenNumUsed
  have hW := andWordSet_eq N k (slot / 32 ^ k) fb setANDFlag hk hb hD.lenFlagBins h0
  -- whether the flag on the path is set afterwards
  have hnew : (decide (k = 0) || setANDFlag) = true
      ↔ blockFull N (Function.update u slot true) k (slot / 32 ^ k) := by
    by_cases hk0 : k = 0
    · subst hk0
      have hfull : blockFull N (Function.update u slot true) 0 (slot / 32 ^ 0) := by
        intro i _ hi
        have : i = slot := by simpa using hi
        rw [this, Function.update_same]
      exact ⟨fun _ => hfull, fun _ => by simp⟩
    · have := h1 (by omega)
      simp [hk0, this]
  have hold := hD.andFlag k hk (slot / 32 ^ k) hf
  rw [hvk] at hold
  have holdF : (andWord N fb k (slot / 32 ^ k / 32)).testBit (slot / 32 ^ k % 32) = false := by
    cases hbv : (andWord N fb k (slot / 32 ^ k / 32)).testBit (slot / 32 ^ k % 32)
    · rfl
    · exact absurd (hold.mp hbv) (blockFull_path_false N u slot k hs hu)
  have hbnd := hD.andBound k hk _ hb
  have hcold := hD.numUsed k hk _ hb
  rw [hvk] at hcold
  have hout : ∀ i, N ≤ i → Function.update u slot true i = false := by
    intro i hi
    have hne : i ≠ slot := by omega
    rw [Function.update_noteq hne, ← hvk]
    exact hD.outside k hk i hi
  obtain ⟨hp1, hp2⟩ := path_in_block slot k
  have hU1 := usedBelow_set u slot (32 ^ (k + 1) * (slot / 32 ^ k / 32)) hu
  have hU2 := usedBelow_set u slot (32 ^ (k + 1) * (slot / 32 ^ k / 32 + 1)) hu
  rw [if_neg (by omega)] at hU1
  rw [if_pos hp2] at hU2
  have hUle := usedBelow_le_numSlots (Function.update u slot true) N
    (32 ^ (k + 1) * (slot / 32 ^ k / 32 + 1)) hout
  have hnowrap : (cnt.getD (offsetToNumUsedFlags N k + slot / 32 ^ k / 32) 0 + 1) % u32
      = cntAt N cnt k (slot / 32 ^ k / 32) + 1 := by
    apply Nat.mod_eq_of_lt
    unfold cntAt at hcold
    omega
  have hD' : DescribesAt N (Function.update v k (Function.update u slot true))
      (flagBinsSet N fb k (slot / 32 ^ k) setANDFlag) (numUsedInc N cnt k (slot / 32 ^ k)) := by
    apply hD.step slot k true u hvk hs hk _ _ hw2 hc2
    · intro i hi
      show (andWord N ((fb.set _ _).set _ _) k _).testBit i = _
      rw [hw1, hW]
      split
      · rw [testBit_set_bit]
        have : ¬ slot / 32 ^ k % 32 = i := fun e => hi e.symm
        simp [this]
      · rfl
    · show (andWord N ((fb.set _ _).set _ _) k _).testBit _ = true ↔ _
      rw [hw1, hW, ← hnew]
      cases hnf : (decide (k = 0) || setANDFlag)
      · simp [holdF]
      · simp [testBit_set_bit]
    · show andWord N ((fb.set _ _).set _ _) k _ < _
      rw [hw1, hW]
      split
      · exact set_bit_lt _ _ _ hbnd (flag_bit_lt N k _ hf)
      · exact hbnd
    · show cntAt N (cnt.set _ _) k _ + _ = _
      rw [hc1, hnowrap]
      omega
    · simp [flagBinsSet, orWritten, List.length_set]
    · simp [numUsedInc, List.length_set]
  refine ⟨_, _, popcnt (andWordSet N fb k (slot / 32 ^ k) setANDFlag)
    == min 32 (numFlagsInLayer N k - 32 * (slot / 32 ^ k / 32)), ?_, hD', ?_⟩
  · rw [hun, div_pow_succ]
  · have hfb := full_bin_iff hD' k (slot / 32 ^ k / 32) hk hb
    rw [Function.update_same] at hfb
    have hwe : andWord N (flagBinsSet N fb k (slot / 32 ^ k) setANDFlag) k (slot / 32 ^ k / 32)
        = andWordSet N fb k (slot / 32 ^ k) setANDFlag := hw1
    rw [div_pow_succ, ← hfb, hwe]
    simp [flagsInBin]

end SlotFinder

namespace SlotFinder

theorem andWordCleared_testBit (N k f : Nat) (fb : List Nat) (resetORFlag : Bool)
    (hk : k < numLayersFor N) (hb : f / 32 < numBinsInLayer N k)
    (hlen : fb.length = layerEnd N (numLayersFor N - 1))
    (hW : andWord N fb k (f / 32) < 2 ^ 32) (i : Nat) :
    (andWordCleared N fb k f resetORFlag).testBit i
      = ((andWord N fb k (f / 32)).testBit i && !decide (f % 32 = i)) := by
  obtain ⟨-, -, hw3⟩ := andWord_after_writes N k (f / 32) fb
    (orWordCleared N fb k f resetORFlag) 0 hk hb hlen
  unfold andWordCleared orCleared
  rw [hw3]
  by_cases hk0 : k = 0
  · subst hk0
    rw [if_pos rfl]
    unfold orWordCleared
    rw [offsetToOR_zero]
    unfold andWord at hW ⊢
    cases resetORFlag
    · simp only [Bool.false_eq_true, if_false]
      exact testBit_clear_bit _ _ _ hW
    · simp only [if_true]
      rw [testBit_clear_bit _ _ _ (lt_of_le_of_lt Nat.and_le_left hW),
        testBit_clear_bit _ _ _ hW]
      cases (fb.getD (offsetToAND N 0 + f / 32) 0).testBit i <;>
        cases decide (f % 32 = i) <;> rfl
  · rw [if_neg hk0]
    exact testBit_clear_bit _ _ _ hW

theorem andWordCleared_le (N k f : Nat) (fb : List Nat) (resetORFlag : Bool)
    (hk : k < numLayersFor N) (hb : f / 32 < numBinsInLayer N k)
    (hlen : fb.length = layerEnd N (numLayersFor N - 1)) :
    andWordCleared N fb k f resetORFlag ≤ andWord N fb k (f / 32) := by
  obtain ⟨-, -, hw3⟩ := andWord_after_writes N k (f / 32) fb
    (orWordCleared N fb k f resetORFlag) 0 hk hb hlen
  unfold andWordCleared orCleared
  rw [hw3]
  by_cases hk0 : k = 0
  · subst hk0
    rw [if_pos rfl]
    unfold orWordCleared
    rw [offsetToOR_zero]
    cases resetORFlag
    · simp only [Bool.false_eq_true, if_false]
      exact Nat.and_le_left
    · simp only [if_true]
      exact le_trans Nat.and_le_left Nat.and_le_left
  · rw [if_neg hk0]
    exact Nat.and_le_left

theorem setNotInUseLoop_step (N slot k numLeft : Nat) (v : Nat → Nat → Bool) (u : Nat → Bool)
    (fb cnt : List Nat) (resetORFlag : Bool)
    (hN : N < u32) (hs : slot < N) (hk : k < numLayersFor N)
    (hD : DescribesAt N v fb cnt) (hvk : v k = u) (hu : u slot = true) :
    ∃ fb' cnt' resetORFlag',
      setNotInUseLoop (numLeft + 1) k (withArrays N fb cnt) (slot / 32 ^ k) resetORFlag
        = setNotInUseLoop numLeft (k + 1) (withArrays N fb' cnt') (slot / 32 ^ (k + 1))
            resetORFlag' ∧
      DescribesAt N (Function.update v k (Function.update u slot false)) fb' cnt' := by
  have hb := path_bin_lt N slot k hs
  have hf := path_flag_lt N slot k hs
  have hun := setNotInUseLoop_unfold N k (slot / 32 ^ k) numLeft fb cnt resetORFlag hk hb
    hD.lenFlagBins hD.lenNumUsed
  obtain ⟨hw1, hw2, -⟩ := andWord_after_writes N k (slot / 32 ^ k / 32) fb
    (orWordCleared N fb k (slot / 32 ^ k) resetORFlag)
    (andWordCleared N fb k (slot / 32 ^ k) resetORFlag) hk hb hD.lenFlagBins
  obtain ⟨hc1, hc2⟩ := cntAt_after_write N k (slot / 32 ^ k / 32) cnt
    ((cnt.getD (offsetToNumUsedFlags N k + slot / 32 ^ k / 32) 0 + u32 - 1) % u32) hk hb
    hD.lenNumUsed
  have hbnd := hD.andBound k hk _ hb
  have hW32 : andWord N fb k (slot / 32 ^ k / 32) < 2 ^ 32 :=
    lt_of_lt_of_le hbnd (Nat.pow_le_pow_right (by decide) (flagsInBin_le N k _))
  have hbits := andWordCleared_testBit N k (slot / 32 ^ k) fb resetORFlag hk hb
    hD.lenFlagBins hW32
  have hcold := hD.numUsed k hk _ hb
  rw [hvk] at hcold
  have houtu : ∀ i, N ≤ i → u i = false := by
    intro i hi
    rw [← hvk]
    exact hD.outside k hk i hi
  obtain ⟨hp1, hp2⟩ := path_in_block slot k
  have hU1 := usedBelow_clear u slot (32 ^ (k + 1) * (slot / 32 ^ k / 32)) hu
  have hU2 := usedBelow_clear u slot (32 ^ (k + 1) * (slot / 32 ^ k / 32 + 1)) hu
  rw [if_neg (by omega)] at hU1
  rw [if_pos hp2] at hU2
  have hUle := usedBelow_le_numSlots u N (32 ^ (k + 1) * (slot / 32 ^ k / 32 + 1)) houtu
  have hmono := usedBelow_mono (Function.update u slot false)
    (block_lo_le_hi k (slot / 32 ^ k / 32))
  have hnowrap : (cnt.getD (offsetToNumUsedFlags N k + slot / 32 ^ k / 32) 0 + u32 - 1) % u32
      = cntAt N cnt k (slot / 32 ^ k / 32) - 1 := by
    have hpos : 1 ≤ cntAt N cnt k (slot / 32 ^ k / 32) := by omega
    have hlt : cntAt N cnt k (slot / 32 ^ k / 32) - 1 < u32 := by omega
    have e : cnt.getD (offsetToNumUsedFlags N k + slot / 32 ^ k / 32) 0 + u32 - 1
        = (cntAt N cnt k (slot / 32 ^ k / 32) - 1) + u32 := by
      unfold cntAt at hpos ⊢
      omega
    rw [e, Nat.add_mod_right, Nat.mod_eq_of_lt hlt]
  have hD' : DescribesAt N (Function.update v k (Function.update u slot false))
      (flagBinsCleared N fb k (slot / 32 ^ k) resetORFlag)
      (numUsedDec N cnt k (slot / 32 ^ k)) := by
    apply hD.step slot k false u hvk hs hk _ _ hw2 hc2
    · intro i hi
      show (andWord N ((fb.set _ _).set _ _) k _).testBit i = _
      rw [hw1, hbits]
      have : ¬ slot / 32 ^ k % 32 = i := fun e => hi e.symm
      simp [this]
    · show (andWord N ((fb.set _ _).set _ _) k _).testBit _ = true ↔ _
      rw [hw1, hbits]
      have hnf : ¬ blockFull N (Function.update u slot false) k (slot / 32 ^ k) :=
        blockFull_path_false N _ slot k hs (Function.update_same _ _ _)
      simp [hnf]
    · show andWord N ((fb.set _ _).set _ _) k _ < _
      rw [hw1]
      exact lt_of_le_of_lt
        (andWordCleared_le N k (slot / 32 ^ k) fb resetORFlag hk hb hD.lenFlagBins) hbnd
    · show cntAt N (cnt.set _ _) k _ + _ = _
      rw [hc1, hnowrap]
      omega
    · simp [flagBinsCleared, orCleared, List.length_set]
    · simp [numUsedDec, List.length_set]
  exact ⟨_, _, orWordCleared N fb k (slot / 32 ^ k) resetORFlag == 0,
    by rw [hun, div_pow_succ], hD'⟩

end SlotFinder

/-! ## The mutators keep the pyramid in step with the usage -/

theorem DescribesAt.congr {N : Nat} {v w : Nat → Nat → Bool} {fb cnt : List Nat}
    (hD : DescribesAt N v fb cnt) (h : ∀ k, k < numLayersFor N → v k = w k) :
    DescribesAt N w fb cnt where
  lenFlagBins := hD.lenFlagBins
  lenNumUsed := hD.lenNumUsed
  outside := by
    intro k hk i hi
    rw [← h k hk]
    exact hD.outside k hk i hi
  andFlag := by
    intro k hk f hf
    rw [← h k hk]
    exact hD.andFlag k hk f hf
  andBound := hD.andBound
  numUsed := by
    intro k hk b hb
    rw [← h k hk]
    exact hD.numUsed k hk b hb

theorem usedBelow_false (m : Nat) : usedBelow (fun _ => false) m = 0 := by
  unfold usedBelow
  simp

theorem getD_replicate_zero (n i : Nat) : (List.replicate n 0).getD i 0 = 0 := by
  rw [List.getD_eq_getElem?_getD, List.getElem?_replicate]
  split <;> rfl

namespace SlotFinder

theorem init_eq (N : Nat) :
    init N = withArrays N (List.replicate (layerEnd N (numLayersFor N - 1)) 0)
      (List.replicate (offsetToNumUsedFlags N (numLayersFor N)) 0) := rfl

/-- After `initialize(numSlots)` the pyramid describes the usage in which every slot is
free. -/
theorem init_describes (N : Nat) : Describes N (fun _ => false) (init N) := by
  refine ⟨_, _, init_eq N, ?_⟩
  constructor
  · simp
  · simp
  · intro _ _ _ _
    rfl
  · intro k hk f hf
    unfold andWord
    rw [getD_replicate_zero]
    simp only [Nat.zero_testBit, Bool.false_eq_true, false_iff]
    intro hfull
    have hN : 1 ≤ N := by
      by_contra h0
      have hz : N = 0 := by omega
      subst hz
      have hL : numLayersFor 0 = 1 := rfl
      rw [hL] at hk
      have hk0 : k = 0 := by omega
      subst hk0
      simp [numFlagsInLayer] at hf
    have hne := flag_block_nonempty N k f hN hf
    have := hfull (f * 32 ^ k) hne (Nat.mul_div_cancel f (pow32_pos k))
    exact Bool.noConfusion this
  · intro k _ b _
    unfold andWord
    rw [getD_replicate_zero]
    exact pow_pos (by decide) _
  · intro k _ b _
    unfold cntAt
    rw [getD_replicate_zero, usedBelow_false, usedBelow_false]

theorem setInUseLoop_run (N slot : Nat) (u : Nat → Bool) (hN : N < u32) (hs : slot < N)
    (hu : u slot = false) (numLeft : Nat) :
    ∀ (k : Nat) (v : Nat → Nat → Bool) (fb cnt : List Nat) (setANDFlag : Bool),
      k + numLeft = numLayersFor N → DescribesAt N v fb cnt →
      (∀ k', k ≤ k' → v k' = u) →
      (∀ k', k' < k → v k' = Function.update u slot true) →
      (k = 0 → setANDFlag = false) →
      (1 ≤ k →
        (setANDFlag = true ↔ blockFull N (Function.update u slot true) k (slot / 32 ^ k))) →
      ∃ fb' cnt',
        setInUseLoop numLeft k (withArrays N fb cnt) (slot / 32 ^ k) setANDFlag
          = some (withArrays N fb' cnt') ∧
        DescribesAt N (fun _ => Function.update u slot true) fb' cnt' := by
  induction numLeft with
  | zero =>
    intro k v fb cnt setANDFlag hkL hD _ hlow _ _
    refine ⟨fb, cnt, rfl, hD.congr ?_⟩
    intro k' hk'
    exact hlow k' (by omega)
  | succ numLeft ih =>
    intro k v fb cnt setANDFlag hkL hD hhigh hlow h0 h1
    obtain ⟨fb1, cnt1, flag1, hstep, hD1, hflag1⟩ := setInUseLoop_step N slot k numLeft v u fb
      cnt setANDFlag hN hs (by omega) hD (hhigh k (le_refl k)) hu h0 h1
    rw [hstep]
    apply ih (k + 1) _ fb1 cnt1 flag1 (by omega) hD1
    · intro k' hk'
      rw [Function.update_noteq (by omega)]
      exact hhigh k' (by omega)
    · intro k' hk'
      by_cases e : k' = k
      · subst e
        rw [Function.update_same]
      · rw [Function.update_noteq e]
        exact hlow k' (by omega)
    · intro hk0
      omega
    · intro _
      exact hflag1

theorem setNotInUseLoop_run (N slot : Nat) (u : Nat → Bool) (hN : N < u32) (hs : slot < N)
    (hu : u slot = true) (numLeft : Nat) :
    ∀ (k : Nat) (v : Nat → Nat → Bool) (fb cnt : List Nat) (resetORFlag : Bool),
      k + numLeft = numLayersFor N → DescribesAt N v fb cnt →
      (∀ k', k ≤ k' → v k' = u) →
      (∀ k', k' < k → v k' = Function.update u slot false) →
      ∃ fb' cnt',
        setNotInUseLoop numLeft k (withArrays N fb cnt) (slot / 32 ^ k) resetORFlag
          = some (withArrays N fb' cnt') ∧
        DescribesAt N (fun _ => Function.update u slot false) fb' cnt' := by
  induction numLeft with
  | zero =>
    intro k v fb cnt resetORFlag hkL hD _ hlow
    refine ⟨fb, cnt, rfl, hD.congr ?_⟩
    intro k' hk'
    exact hlow k' (by omega)
  | succ numLeft ih =>
    intro k v fb cnt resetORFlag hkL hD hhigh hlow
    obtain ⟨fb1, cnt1, flag1, hstep, hD1⟩ := setNotInUseLoop_step N slot k numLeft v u fb
      cnt resetORFlag hN hs (by omega) hD (hhigh k (le_refl k)) hu
    rw [hstep]
    apply ih (k + 1) _ fb1 cnt1 flag1 (by omega) hD1
    · intro k' hk'
      rw [Function.update_noteq (by omega)]
      exact hhigh k' (by omega)
    · intro k' hk'
      by_cases e : k' = k
      · subst e
        rw [Function.update_same]
      · rw [Function.update_noteq e]
        exact hlow k' (by omega)

/-- On a pyramid that describes the usage `u`, `getUsage(slot)` is `u slot`. -/
theorem getUsage_describes (N slot : Nat) (u : Nat → Bool) (s : SlotFinder)
    (hD : Describes N u s) (hs : slot < N) : s.getUsage slot = some (u slot) := by
  obtain ⟨fb, cnt, rfl, hD⟩ := hD
  have hL := numLayersFor_pos N
  have hb : slot / 32 < numBinsInLayer N 0 := by
    have := path_bin_lt N slot 0 hs
    simpa using this
  have hlt : slot / 32 < fb.length := by
    have := andAddr_lt N 0 (slot / 32) (by omega) hb
    rw [hD.lenFlagBins]
    simpa [offsetToAND] using this
  unfold getUsage
  simp only [withArrays_flagBins, readAt_some _ _ hlt, testBit_eq_shift_and]
  have hflag := hD.andFlag 0 (by omega) slot (by simpa [numFlagsInLayer] using hs)
  have hw : andWord N fb 0 (slot / 32) = fb.getD (slot / 32) 0 := by
    simp [andWord, offsetToAND]
  rw [hw] at hflag
  have hfull : blockFull N u 0 slot ↔ u slot = true := by
    constructor
    · intro h
      exact h slot hs (by simp)
    · intro h i _ hi
      have : i = slot := by simpa using hi
      rw [this]
      exact h
  rw [hfull] at hflag
  congr 1
  cases hu : u slot
  · cases hb' : (fb.getD (slot / 32) 0).testBit (slot % 32)
    · rfl
    · rw [hflag.mp hb'] at hu
      exact Bool.noConfusion hu
  · exact hflag.mpr hu

/-- The call `setInUse(slot)` on a pyramid that describes `u` returns the pyramid that describes `u`
with `slot` in use. -/
theorem setInUse_describes (N slot : Nat) (u : Nat → Bool) (s : SlotFinder) (hN : N < u32)
    (hs : slot < N) (hD : Describes N u s) :
    ∃ s', s.setInUse slot = some s' ∧ Describes N (Function.update u slot true) s' := by
  have hg := getUsage_describes N slot u s hD hs
  unfold setInUse
  simp only [hg, Option.bind_eq_bind, Option.some_bind]
  cases hu : u slot
  · obtain ⟨fb, cnt, rfl, hDA⟩ := hD
    obtain ⟨fb', cnt', hrun, hD'⟩ := setInUseLoop_run N slot u hN hs hu (numLayersFor N) 0
      (fun _ => u) fb cnt false (by omega) hDA (fun _ _ => rfl) (fun k' hk' => by omega)
      (fun _ => rfl) (fun h => by omega)
    refine ⟨withArrays N fb' cnt', ?_, fb', cnt', rfl, hD'⟩
    simpa [withArrays_numLayers] using hrun
  · refine ⟨s, by simp, ?_⟩
    have e : Function.update u slot true = u := by
      rw [← hu]
      exact Function.update_eq_self slot u
    rw [e]
    exact hD

/-- The call `setNotInUse(slot)` on a pyramid that describes `u` returns the pyramid that
describes `u` with `slot` free. -/
theorem setNotInUse_describes (N slot : Nat) (u : Nat → Bool) (s : SlotFinder) (hN : N < u32)
    (hs : slot < N) (hD : Describes N u s) :
    ∃ s', s.setNotInUse slot = some s' ∧ Describes N (Function.update u slot false) s' := by
  have hg := getUsage_describes N slot u s hD hs
  unfold setNotInUse
  simp only [hg, Option.bind_eq_bind, Option.some_bind]
  cases hu : u slot
  · refine ⟨s, by simp, ?_⟩
    have e : Function.update u slot false = u := by
      rw [← hu]
      exact Function.update_eq_self slot u
    rw [e]
    exact hD
  · obtain ⟨fb, cnt, rfl, hDA⟩ := hD
    obtain ⟨fb', cnt', hrun, hD'⟩ := setNotInUseLoop_run N slot u hN hs hu (numLayersFor N) 0
      (fun _ => u) fb cnt true (by omega) hDA (fun _ _ => rfl) (fun k' hk' => by omega)
    refine ⟨withArrays N fb' cnt', ?_, fb', cnt', rfl, hD'⟩
    simpa [withArrays_numLayers] using hrun

/-- On a pyramid that describes the usage `u`, `getNumUsed()` is the number of used slots. -/
theorem getNumUsed_describes (N : Nat) (u : Nat → Bool) (s : SlotFinder) (hN : N < u32)
    (hD : Describes N u s) : s.getNumUsed = some (usedBelow u N) := by
  obtain ⟨fb, cnt, rfl, hD⟩ := hD
  have hL := numLayersFor_pos N
  have hLle := numLayersFor_le N
  have hidx : (numLayersFor N + u32 - 1) % u32 = numLayersFor N - 1 := by
    have e : numLayersFor N + u32 - 1 = (numLayersFor N - 1) + u32 := by omega
    rw [e, Nat.add_mod_right]
    exact Nat.mod_eq_of_lt (by omega)
  have hk : numLayersFor N - 1 < numLayersFor N := by omega
  have hb : 0 < numBinsInLayer N (numLayersFor N - 1) := numBinsInLayer_pos N _
  have haddr := cntAddr_lt N (numLayersFor N - 1) 0 hk hb
  rw [← hD.lenNumUsed] at haddr
  unfold getNumUsed
  simp only [withArrays_numLayers, hidx, readAt_offsetsNumUsed N _ fb cnt hk,
    withArrays_numUsed]
  rw [Nat.add_zero] at haddr
  rw [readAt_some _ _ haddr]
  have hc := hD.numUsed (numLayersFor N - 1) hk 0 hb
  have e1 : numLayersFor N - 1 + 1 = numLayersFor N := by omega
  simp only [cntAt, Nat.add_zero, Nat.mul_zero, usedBelow_zero, Nat.zero_add, Nat.mul_one,
    e1] at hc
  rw [hc, usedBelow_outside u N _ (hD.outside 0 (by omega)) (numSlots_le_pow N)]

/-- The usage after one call. -/
theorem applyCall_describes (N : Nat) (u : Nat → Bool) (s : SlotFinder) (c : Call)
    (hN : N < u32) (hc : c.slotIdx < N) (hD : Describes N u s) :
    ∃ s', s.applyCall c = some s' ∧ Describes N (fun i => c.effect i (u i)) s' := by
  cases c with
  | setInUse j =>
    obtain ⟨s', h1, h2⟩ := setInUse_describes N j u s hN hc hD
    refine ⟨s', h1, ?_⟩
    have e : (fun i => (Call.setInUse j).effect i (u i)) = Function.update u j true := by
      funext i
      unfold Call.effect
      by_cases h : j = i
      · subst h
        simp
      · have h' : i ≠ j := fun e => h e.symm
        simp [h, Function.update_noteq h']
    rw [e]
    exact h2
  | setNotInUse j =>
    obtain ⟨s', h1, h2⟩ := setNotInUse_describes N j u s hN hc hD
    refine ⟨s', h1, ?_⟩
    have e : (fun i => (Call.setNotInUse j).effect i (u i)) = Function.update u j false := by
      funext i
      unfold Call.effect
      by_cases h : j = i
      · subst h
        simp
      · have h' : i ≠ j := fun e => h e.symm
        simp [h, Function.update_noteq h']
    rw [e]
    exact h2

/-- The usage after a sequence of calls. -/
theorem runCalls_describes (N : Nat) (hN : N < u32) (calls : List Call) :
    ∀ (u : Nat → Bool) (s : SlotFinder), (∀ c, c ∈ calls → c.slotIdx < N) → Describes N u s →
      ∃ s', s.runCalls calls = some s' ∧
        Describes N (fun i => calls.foldl (fun used c => c.effect i used) (u i)) s' := by
  induction calls with
  | nil =>
    intro u s _ hD
    exact ⟨s, rfl, hD⟩
  | cons c cs ih =>
    intro u s hc hD
    obtain ⟨s1, h1, hD1⟩ := applyCall_describes N u s c hN (hc c (List.mem_cons_self c cs)) hD
    obtain ⟨s2, h2, hD2⟩ := ih _ s1 (fun c' hc' => hc c' (List.mem_cons_of_mem c hc')) hD1
    refine ⟨s2, ?_, hD2⟩
    simp only [runCalls, h1, h2]

/-- Every state reached from `initialize(numSlots)` by calls on slots below `numSlots`
describes the net effect of the calls. -/
theorem reachable_describes (N : Nat) (hN : N < u32) (calls : List Call)
    (hc : ∀ c, c ∈ calls → c.slotIdx < N) :
    ∃ s, (init N).runCalls calls = some s ∧ Describes N (netUsage calls) s := by
  obtain ⟨s, h1, h2⟩ := runCalls_describes N hN calls (fun _ => false) (init N) hc
    (init_describes N)
  exact ⟨s, h1, h2⟩

end SlotFinder

namespace SlotFinder

theorem countP_getUsage_describes (N : Nat) (u : Nat → Bool) (s : SlotFinder)
    (hD : Describes N u s) (m : Nat) (hm : m ≤ N) :
    (List.range m).countP (fun i => decide (s.getUsage i = some true)) = usedBelow u m := by
  unfold usedBelow
  apply List.countP_congr
  intro i hi
  rw [List.mem_range] at hi
  rw [getUsage_describes N i u s hD (by omega)]
  simp

/-- C7: for every SlotFinder initialized with `numSlots` and every finite sequence of
`setInUse`/`setNotInUse` calls on indices below `numSlots`, the calls all return,
`getUsage(i)` is the net effect of the calls on slot `i`, and `getNumUsed()` is the number
of slots `i < numSlots` with `getUsage(i) = true`; in particular `setInUse` on a slot that is
already in use, and `setNotInUse` on a free slot, do not change `getNumUsed()`. -/
theorem usage_and_count_after_calls (numSlots : Nat) (calls : List Call)
    (hN : numSlots < u32) (hc : ∀ c, c ∈ calls → c.slotIdx < numSlots) :
    ∃ s, (init numSlots).runCalls calls = some s ∧
      (∀ i, i < numSlots → s.getUsage i = some (netUsage calls i)) ∧
      s.getNumUsed
        = some ((List.range numSlots).countP (fun i => decide (s.getUsage i = some true))) ∧
      (∀ j, j < numSlots → s.getUsage j = some true →
        ∃ s', s.setInUse j = some s' ∧ s'.getNumUsed = s.getNumUsed) ∧
      (∀ j, j < numSlots → s.getUsage j = some false →
        ∃ s', s.setNotInUse j = some s' ∧ s'.getNumUsed = s.getNumUsed) := by
  obtain ⟨s, hrun, hD⟩ := reachable_describes numSlots hN calls hc
  refine ⟨s, hrun, ?_, ?_, ?_, ?_⟩
  · intro i hi
    exact getUsage_describes numSlots i _ s hD hi
  · rw [getNumUsed_describes numSlots _ s hN hD,
      countP_getUsage_describes numSlots _ s hD numSlots (le_refl _)]
  · intro j hj hused
    obtain ⟨s', h1, hD'⟩ := setInUse_describes numSlots j _ s hN hj hD
    refine ⟨s', h1, ?_⟩
    rw [getNumUsed_describes numSlots _ s' hN hD', getNumUsed_describes numSlots _ s hN hD]
    have hu : netUsage calls j = true := by
      have := getUsage_describes numSlots j _ s hD hj
      rw [hused] at this
      exact (Option.some.inj this).symm
    have e : Function.update (netUsage calls) j true = netUsage calls := by
      rw [← hu]
      exact Function.update_eq_self j _
    rw [e]
  · intro j hj hfree
    obtain ⟨s', h1, hD'⟩ := setNotInUse_describes numSlots j _ s hN hj hD
    refine ⟨s', h1, ?_⟩
    rw [getNumUsed_describes numSlots _ s' hN hD', getNumUsed_describes numSlots _ s hN hD]
    have hu : netUsage calls j = false := by
      have := getUsage_describes numSlots j _ s hD hj
      rw [hfree] at this
      exact (Option.some.inj this).symm
    have e : Function.update (netUsage calls) j false = netUsage calls := by
      rw [← hu]
      exact Function.update_eq_self j _
    rw [e]

theorem usage_and_count_after_calls_witness :
    ∃ s, (init 40).runCalls sampleCalls = some s ∧
      (∀ i, i < 40 → s.getUsage i = some (netUsage sampleCalls i)) ∧
      s.getNumUsed = some ((List.range 40).countP (fun i => decide (s.getUsage i = some true))) ∧
      (∀ j, j < 40 → s.getUsage j = some true →
        ∃ s', s.setInUse j = some s' ∧ s'.getNumUsed = s.getNumUsed) ∧
      (∀ j, j < 40 → s.getUsage j = some false →
        ∃ s', s.setNotInUse j = some s' ∧ s'.getNumUsed = s.getNumUsed) :=
  usage_and_count_after_calls 40 sampleCalls (by decide) (by decide)

end SlotFinder

/-! ## `getFirstAvailableSlot` -/

namespace SlotFinder

theorem getFirstAvailableSlotLoop_unfold (N m b : Nat) (fb cnt : List Nat)
    (hm : m < numLayersFor N) (hb : b < numBinsInLayer N m)
    (hlen : fb.length = layerEnd N (numLayersFor N - 1)) :
    getFirstAvailableSlotLoop (m + 1) (withArrays N fb cnt) b
      = if popcnt (andWord N fb m b) ≠ flagsInBin N m b then
          getFirstAvailableSlotLoop m (withArrays N fb cnt)
            (tzcnt (andWord N fb m b ^^^ 0xFFFFFFFF) + 32 * b)
        else some InvalidSlotIndex := by
  have h2 : offsetToAND N m + b < fb.length := by
    rw [hlen]; exact andAddr_lt N m _ hm hb
  rw [getFirstAvailableSlotLoop]
  simp only [readAt_offsetsAND N m fb cnt hm, readAt_numFlags N m fb cnt hm,
    withArrays_flagBins, readAt_some _ _ h2, Option.bind_eq_bind, Option.some_bind]
  rfl

theorem getFirstAvailableSlotLoop_spec (N : Nat) (u : Nat → Bool) (fb cnt : List Nat)
    (hD : DescribesAt N (fun _ => u) fb cnt) (m : Nat) :
    ∀ b, m ≤ numLayersFor N → b < numFlagsInLayer N m →
      (∀ i, i < N → i / 32 ^ m < b → u i = true) →
      (m < numLayersFor N → ¬ blockFull N u m b) →
      ∃ r, getFirstAvailableSlotLoop m (withArrays N fb cnt) b = some r ∧
        ((r = InvalidSlotIndex ∧ ∀ i, i < N → u i = true) ∨
          (r < N ∧ u r = false ∧ ∀ i, i < r → u i = true)) := by
  induction m with
  | zero =>
    intro b _ hb hleft hfree
    refine ⟨b, rfl, Or.inr ?_⟩
    have hbN : b < N := by simpa [numFlagsInLayer] using hb
    have hnf := hfree (numLayersFor_pos N)
    refine ⟨hbN, ?_, ?_⟩
    · cases hub : u b
      · rfl
      · exfalso
        apply hnf
        intro i _ hi
        have : i = b := by simpa using hi
        rw [this]
        exact hub
    · intro i hi
      exact hleft i (by omega) (by simpa using hi)
  | succ m ih =>
    intro b hm hb hleft hfree
    have hmL : m < numLayersFor N := by omega
    have hbin : b < numBinsInLayer N m := hb
    rw [getFirstAvailableSlotLoop_unfold N m b fb cnt hmL hbin hD.lenFlagBins]
    have hbnd := hD.andBound m hmL b hbin
    have hc32 := flagsInBin_le N m b
    by_cases hne : popcnt (andWord N fb m b) ≠ flagsInBin N m b
    · rw [if_pos hne]
      obtain ⟨hj, hjclear, hjlow⟩ := tzcnt_flip_spec _ _ hbnd hc32 hne
      have hflag := flag_of_bit_lt N m b _ hj
      have e1 : (tzcnt (andWord N fb m b ^^^ 0xFFFFFFFF) + 32 * b) / 32 = b := by omega
      have e2 : (tzcnt (andWord N fb m b ^^^ 0xFFFFFFFF) + 32 * b) % 32
          = tzcnt (andWord N fb m b ^^^ 0xFFFFFFFF) := by omega
      apply ih (tzcnt (andWord N fb m b ^^^ 0xFFFFFFFF) + 32 * b) (by omega) (by omega)
      · intro i hi hlt
        by_cases hlow : i / 32 ^ (m + 1) < b
        · exact hleft i hi hlow
        · rw [div_pow_succ] at hlow
          have hg := div_lt_numFlagsInLayer N m i hi
          have hgb : i / 32 ^ m / 32 = b := by omega
          have hbit := hjlow (i / 32 ^ m % 32) (by omega)
          have hfl := (hD.andFlag m hmL (i / 32 ^ m) hg).mp (by rw [hgb]; exact hbit)
          exact hfl i hi rfl
      · intro _ hfull
        have hfl := (hD.andFlag m hmL _ (by omega : tzcnt (andWord N fb m b ^^^ 0xFFFFFFFF)
          + 32 * b < numFlagsInLayer N m)).mpr hfull
        rw [e1, e2, hjclear] at hfl
        exact Bool.noConfusion hfl
    · rw [if_neg hne]
      have heq : popcnt (andWord N fb m b) = flagsInBin N m b := by
        by_contra h
        exact hne h
      have hfull := (full_bin_iff hD m b hmL hbin).mp heq
      refine ⟨InvalidSlotIndex, rfl, Or.inl ⟨rfl, ?_⟩⟩
      by_cases hlast : m + 1 < numLayersFor N
      · exact absurd hfull (hfree hlast)
      · have hL : m + 1 = numLayersFor N := by omega
        have htop := numBinsInLayer_top N
        have e : numLayersFor N - 1 = m := by omega
        rw [e] at htop
        have hb0 : b = 0 := by omega
        subst hb0
        intro i hi
        apply hfull i hi
        rw [hL]
        exact Nat.div_eq_of_lt (lt_of_lt_of_le hi (numSlots_le_pow N))

/-- On a pyramid that describes the usage `u`, `getFirstAvailableSlot()` returns the sentinel
when every slot is in use, and the lowest free slot otherwise. -/
theorem getFirstAvailableSlot_describes (N : Nat) (u : Nat → Bool) (s : SlotFinder)
    (hD : Describes N u s) :
    ∃ r, s.getFirstAvailableSlot = some r ∧
      ((r = InvalidSlotIndex ∧ ∀ i, i < N → u i = true) ∨
        (r < N ∧ u r = false ∧ ∀ i, i < r → u i = true)) := by
  obtain ⟨fb, cnt, rfl, hDA⟩ := hD
  have hL := numLayersFor_pos N
  have htop := numBinsInLayer_top N
  have hnf : 0 < numFlagsInLayer N (numLayersFor N) := by
    have e : numLayersFor N = (numLayersFor N - 1) + 1 := by omega
    rw [e, numFlagsInLayer_succ, htop]
    exact Nat.one_pos
  exact getFirstAvailableSlotLoop_spec N u fb cnt hDA (numLayersFor N) 0 (le_refl _) hnf
    (fun i _ h => absurd h (Nat.not_lt_zero _)) (fun h => absurd h (lt_irrefl _))

theorem netUsage_append (cs ds : List Call) (i : Nat) :
    netUsage (cs ++ ds) i = ds.foldl (fun used c => c.effect i used) (netUsage cs i) := by
  unfold netUsage
  rw [List.foldl_append]

theorem netUsage_fill (n i : Nat) :
    netUsage ((List.range n).map Call.setInUse) i = decide (i < n) := by
  induction n with
  | zero => simp [netUsage]
  | succ n ih =>
    rw [List.range_succ, List.map_append, netUsage_append, ih]
    simp only [List.map_cons, List.map_nil, List.foldl_cons, List.foldl_nil, Call.effect]
    by_cases h : n = i
    · subst h
      simp
    · rw [if_neg h]
      have : (i < n) ↔ (i < n + 1) := by omega
      simp [this]

/-- C8: in every state reached from `initialize(numSlots)` by `setInUse`/`setNotInUse` calls,
`getFirstAvailableSlot()` returns `InvalidSlotIndex` exactly when all `numSlots` slots are in
use, and otherwise the lowest index `i < numSlots` with `getUsage(i) = false`; after filling
all slots it returns `InvalidSlotIndex`, and after then freeing one slot `k` it returns `k`. -/
theorem getFirstAvailableSlot_lowest_free (numSlots : Nat) (calls : List Call)
    (hN : numSlots < u32) (hc : ∀ c, c ∈ calls → c.slotIdx < numSlots) :
    (∃ s r, (init numSlots).runCalls calls = some s ∧ s.getFirstAvailableSlot = some r ∧
      (r = InvalidSlotIndex ↔ ∀ i, i < numSlots → s.getUsage i = some true) ∧
      (r ≠ InvalidSlotIndex →
        r < numSlots ∧ s.getUsage r = some false ∧ ∀ i, i < r → s.getUsage i = some true)) ∧
    (∃ s, (init numSlots).runCalls ((List.range numSlots).map Call.setInUse) = some s ∧
      s.getFirstAvailableSlot = some InvalidSlotIndex) ∧
    (∀ k, k < numSlots →
      ∃ s, (init numSlots).runCalls
          ((List.range numSlots).map Call.setInUse ++ [Call.setNotInUse k]) = some s ∧
        s.getFirstAvailableSlot = some k) := by
  have hinv : ∀ r, r < numSlots → r ≠ InvalidSlotIndex := by
    intro r hr
    unfold InvalidSlotIndex
    unfold u32 at hN
    omega
  have hfillc : ∀ c, c ∈ (List.range numSlots).map Call.setInUse → c.slotIdx < numSlots := by
    intro c hc'
    rw [List.mem_map] at hc'
    obtain ⟨j, hj, rfl⟩ := hc'
    exact List.mem_range.mp hj
  refine ⟨?_, ?_, ?_⟩
  · obtain ⟨s, hrun, hD⟩ := reachable_describes numSlots hN calls hc
    obtain ⟨r, hr, hcase⟩ := getFirstAvailableSlot_describes numSlots _ s hD
    refine ⟨s, r, hrun, hr, ?_, ?_⟩
    · constructor
      · intro hri i hi
        rcases hcase with ⟨-, hall⟩ | ⟨hlt, -, -⟩
        · rw [getUsage_describes numSlots i _ s hD hi, hall i hi]
        · exact absurd hri (hinv r hlt)
      · intro hall
        rcases hcase with ⟨hri, -⟩ | ⟨hlt, hfree, -⟩
        · exact hri
        · have := hall r hlt
          rw [getUsage_describes numSlots r _ s hD hlt, hfree] at this
          exact absurd (Option.some.inj this) (by decide)
    · intro hne
      rcases hcase with ⟨hri, -⟩ | ⟨hlt, hfree, hlow⟩
      · exact absurd hri hne
      · refine ⟨hlt, ?_, ?_⟩
        · rw [getUsage_describes numSlots r _ s hD hlt, hfree]
        · intro i hi
          rw [getUsage_describes numSlots i _ s hD (by omega), hlow i hi]
  · obtain ⟨s, hrun, hD⟩ := reachable_describes numSlots hN _ hfillc
    obtain ⟨r, hr, hcase⟩ := getFirstAvailableSlot_describes numSlots _ s hD
    refine ⟨s, hrun, ?_⟩
    rcases hcase with ⟨hri, -⟩ | ⟨hlt, hfree, -⟩
    · rw [hr, hri]
    · rw [netUsage_fill] at hfree
      simp [hlt] at hfree
  · intro k hk
    have hcs : ∀ c, c ∈ (List.range numSlots).map Call.setInUse ++ [Call.setNotInUse k] →
        c.slotIdx < numSlots := by
      intro c hc'
      rw [List.mem_append] at hc'
      rcases hc' with h | h
      · exact hfillc c h
      · rw [List.mem_singleton] at h
        subst h
        exact hk
    obtain ⟨s, hrun, hD⟩ := reachable_describes numSlots hN _ hcs
    obtain ⟨r, hr, hcase⟩ := getFirstAvailableSlot_describes numSlots _ s hD
    refine ⟨s, hrun, ?_⟩
    have hnet : ∀ i, netUsage ((List.range numSlots).map Call.setInUse
        ++ [Call.setNotInUse k]) i = (decide (i < numSlots) && !decide (k = i)) := by
      intro i
      rw [netUsage_append, netUsage_fill]
      simp only [List.foldl_cons, List.foldl_nil, Call.effect]
      by_cases h : k = i <;> simp [h]
    rcases hcase with ⟨-, hall⟩ | ⟨hlt, hfree, -⟩
    · have := hall k hk
      rw [hnet] at this
      simp at this
    · rw [hnet] at hfree
      have : k = r := by
        by_contra hkr
        simp [hlt, hkr] at hfree
      rw [hr, this]

theorem getFirstAvailableSlot_lowest_free_witness :
    (∃ s r, (init 40).runCalls sampleCalls = some s ∧ s.getFirstAvailableSlot = some r ∧
      (r = InvalidSlotIndex ↔ ∀ i, i < 40 → s.getUsage i = some true) ∧
      (r ≠ InvalidSlotIndex →
        r < 40 ∧ s.getUsage r = some false ∧ ∀ i, i < r → s.getUsage i = some true)) ∧
    (∃ s, (init 40).runCalls ((List.range 40).map Call.setInUse) = some s ∧
      s.getFirstAvailableSlot = some InvalidSlotIndex) ∧
    (∀ k, k < 40 →
      ∃ s, (init 40).runCalls
          ((List.range 40).map Call.setInUse ++ [Call.setNotInUse k]) = some s ∧
        s.getFirstAvailableSlot = some k) :=
  getFirstAvailableSlot_lowest_free 40 sampleCalls (by decide) (by decide)

end SlotFinder

/-! ## `find_nthUsedSlot` -/

namespace SlotFinder

/-- The leaf words hold the usage bit by bit. -/
theorem leaf_testBit {N : Nat} {u : Nat → Bool} {fb cnt : List Nat}
    (hD : DescribesAt N (fun _ => u) fb cnt) (b j : Nat) (hb : b < numBinsInLayer N 0)
    (hj : j < 32) : (andWord N fb 0 b).testBit j = u (32 * b + j) := by
  have hL := numLayersFor_pos N
  by_cases hin : 32 * b + j < N
  · have hflag := hD.andFlag 0 (by omega) (32 * b + j) (by simpa [numFlagsInLayer] using hin)
    have e1 : (32 * b + j) / 32 = b := by omega
    have e2 : (32 * b + j) % 32 = j := by omega
    rw [e1, e2] at hflag
    have hfull : blockFull N u 0 (32 * b + j) ↔ u (32 * b + j) = true := by
      constructor
      · intro h
        exact h _ hin (by simp)
      · intro h i _ hi
        have : i = 32 * b + j := by simpa using hi
        rw [this]
        exact h
    rw [hfull] at hflag
    cases hu : u (32 * b + j)
    · cases hw : (andWord N fb 0 b).testBit j
      · rfl
      · rw [hflag.mp hw] at hu
        exact Bool.noConfusion hu
    · exact hflag.mpr hu
  · rw [hD.outside 0 (by omega) _ (by omega)]
    apply testBit_of_lt _ _ _ (hD.andBound 0 (by omega) b hb)
    unfold flagsInBin
    simp only [numFlagsInLayer]
    omega

theorem popcnt_leaf {N : Nat} {u : Nat → Bool} {fb cnt : List Nat}
    (hD : DescribesAt N (fun _ => u) fb cnt) (b : Nat) (hb : b < numBinsInLayer N 0) :
    usedBelow u (32 * b) + popcnt (andWord N fb 0 b) = usedBelow u (32 * b + 32) := by
  have hL := numLayersFor_pos N
  have hbnd := hD.andBound 0 (by omega) b hb
  have hw32 : andWord N fb 0 b < 2 ^ 32 :=
    lt_of_lt_of_le hbnd (Nat.pow_le_pow_right (by decide) (flagsInBin_le N 0 b))
  rw [popcnt_eq_countP_of_lt _ 32 hw32 (le_refl _), usedBelow_add]
  congr 1
  apply List.countP_congr
  intro j hj
  rw [List.mem_range] at hj
  rw [leaf_testBit hD b j hb hj]

theorem block_top (N k b : Nat) (hb : numBinsInLayer N k ≤ b) : N ≤ 32 ^ (k + 1) * b := by
  by_contra hcon
  have hlt : 32 ^ (k + 1) * b < N := by omega
  have h1 := div_lt_numFlagsInLayer N (k + 1) (32 ^ (k + 1) * b) hlt
  rw [Nat.mul_div_cancel_left b (pow32_pos (k + 1)), numFlagsInLayer_succ] at h1
  omega

/-- The scan of one layer stops at the bin under which the used slot of rank `n` lies. -/
theorem scanBins_spec {N : Nat} {u : Nat → Bool} {fb cnt : List Nat}
    (hD : DescribesAt N (fun _ => u) fb cnt) (k n : Nat) (hk : k < numLayersFor N)
    (hn : n < usedBelow u N) (numLeft : Nat) :
    ∀ b0, numLeft = numBinsInLayer N k - b0 → usedBelow u (32 ^ (k + 1) * b0) ≤ n →
      ∃ b, scanBins (some cnt) (offsetToNumUsedFlags N k) n numLeft b0
            (usedBelow u (32 ^ (k + 1) * b0))
          = some (some b, usedBelow u (32 ^ (k + 1) * b)) ∧
        b < numBinsInLayer N k ∧ usedBelow u (32 ^ (k + 1) * b) ≤ n ∧
        n < usedBelow u (32 ^ (k + 1) * (b + 1)) := by
  induction numLeft with
  | zero =>
    intro b0 hleft hacc
    exfalso
    have htop := block_top N k b0 (by omega)
    rw [usedBelow_outside u N _ (hD.outside 0 (numLayersFor_pos N)) htop] at hacc
    omega
  | succ numLeft ih =>
    intro b0 hleft hacc
    have hb0 : b0 < numBinsInLayer N k := by omega
    have haddr := cntAddr_lt N k b0 hk hb0
    rw [← hD.lenNumUsed] at haddr
    have hc := hD.numUsed k hk b0 hb0
    unfold cntAt at hc
    rw [scanBins]
    simp only [readAt_some _ _ haddr, Option.bind_eq_bind, Option.some_bind]
    by_cases hgt : usedBelow u (32 ^ (k + 1) * b0)
        + cnt.getD (offsetToNumUsedFlags N k + b0) 0 > n
    · rw [if_pos hgt]
      refine ⟨b0, rfl, hb0, hacc, ?_⟩
      omega
    · rw [if_neg hgt]
      have e : usedBelow u (32 ^ (k + 1) * b0) + cnt.getD (offsetToNumUsedFlags N k + b0) 0
          = usedBelow u (32 ^ (k + 1) * (b0 + 1)) := by omega
      rw [e]
      exact ih (b0 + 1) (by omega) (by omega)

theorem find_nthUsedSlotLoop_spec {N : Nat} {u : Nat → Bool} {fb cnt : List Nat}
    (hN : N < u32) (hD : DescribesAt N (fun _ => u) fb cnt) (n : Nat)
    (hn : n < usedBelow u N) (m : Nat) :
    ∀ b0, 1 ≤ m → m ≤ numLayersFor N → usedBelow u (32 ^ m * b0) ≤ n →
      ∃ r, find_nthUsedSlotLoop m (withArrays N fb cnt) b0 (usedBelow u (32 ^ m * b0)) n
          = some r ∧ r < N ∧ u r = true ∧ usedBelow u r = n := by
  induction m with
  | zero =>
    intro b0 h1
    omega
  | succ m ih =>
    intro b0 _ hm hacc
    have hmL : m < numLayersFor N := by omega
    obtain ⟨b, hscan, hb, hlo, hhi⟩ := scanBins_spec hD m n hmL hn
      (numBinsInLayer N m - b0) b0 rfl hacc
    rw [find_nthUsedSlotLoop]
    simp only [readAt_offsetsNumUsed N m fb cnt hmL, readAt_numFlags N m fb cnt hmL,
      withArrays_numUsed, Option.bind_eq_bind, Option.some_bind]
    have hnb : numBinsFor (numFlagsInLayer N m) = numBinsInLayer N m := rfl
    rw [hnb, hscan]
    simp only [Option.some_bind]
    by_cases hm0 : m = 0
    · subst hm0
      rw [if_pos rfl]
      have haddr : offsetToOR N 0 + b < fb.length := by
        rw [hD.lenFlagBins]
        exact orAddr_lt N 0 b hmL hb
      simp only [readAt_offsetsOR N 0 fb cnt hmL, withArrays_flagBins, readAt_some _ _ haddr,
        Option.bind_eq_bind, Option.some_bind]
      have hw : fb.getD (offsetToOR N 0 + b) 0 = andWord N fb 0 b := rfl
      rw [hw]
      simp only [zero_add, pow_one] at hlo hhi ⊢
      have hpc := popcnt_leaf hD b hb
      have e32 : 32 * (b + 1) = 32 * b + 32 := by ring
      rw [e32] at hhi
      have hlt : n - usedBelow u (32 * b) < popcnt (andWord N fb 0 b) := by omega
      obtain ⟨hd32, hbit, hcnt'⟩ := nthSetBit_spec (andWord N fb 0 b)
        (n - usedBelow u (32 * b)) hlt
      rw [leaf_testBit hD b _ hb hd32] at hbit
      have hrN : 32 * b + nthSetBit (andWord N fb 0 b)
          ((n - usedBelow u (32 * b) : Nat) : Int) < N := by
        by_contra hge
        rw [hD.outside 0 hmL _ (by omega)] at hbit
        exact Bool.noConfusion hbit
      have hmod : (32 * b + nthSetBit (andWord N fb 0 b)
          ((n - usedBelow u (32 * b) : Nat) : Int)) % u32
          = 32 * b + nthSetBit (andWord N fb 0 b)
              ((n - usedBelow u (32 * b) : Nat) : Int) := Nat.mod_eq_of_lt (by omega)
      refine ⟨_, by simp only [pure]; rw [hmod], hrN, hbit, ?_⟩
      rw [usedBelow_add]
      have hcg : (List.range (nthSetBit (andWord N fb 0 b)
          ((n - usedBelow u (32 * b) : Nat) : Int))).countP (fun i => u (32 * b + i))
          = (List.range (nthSetBit (andWord N fb 0 b)
              ((n - usedBelow u (32 * b) : Nat) : Int))).countP
                (fun i => (andWord N fb 0 b).testBit i) := by
        apply List.countP_congr
        intro j hj
        rw [List.mem_range] at hj
        rw [leaf_testBit hD b j hb (by omega)]
      rw [hcg, hcnt']
      omega
    · rw [if_neg hm0]
      have e : 32 ^ (m + 1) * b = 32 ^ m * (32 * b) := by
        rw [pow_succ]
        ring
      rw [e] at hlo ⊢
      exact ih (32 * b) (by omega) (by omega) hlo

/-- On a pyramid that describes the usage `u`, `find_nthUsedSlot(n)` returns the used slot
below which exactly `n` slots are in use, and the sentinel when there is none. -/
theorem find_nthUsedSlot_describes (N : Nat) (u : Nat → Bool) (s : SlotFinder) (hN : N < u32)
    (hD : Describes N u s) (n : Nat) :
    (n < usedBelow u N →
      ∃ r, s.find_nthUsedSlot n = some r ∧ r < N ∧ u r = true ∧ usedBelow u r = n) ∧
    (usedBelow u N ≤ n → s.find_nthUsedSlot n = some InvalidSlotIndex) := by
  have hnum := getNumUsed_describes N u s hN hD
  obtain ⟨fb, cnt, rfl, hDA⟩ := hD
  constructor
  · intro hn
    obtain ⟨r, hr, h1, h2, h3⟩ := find_nthUsedSlotLoop_spec hN hDA n hn (numLayersFor N) 0
      (numLayersFor_pos N) (le_refl _) (by simp [usedBelow_zero])
    refine ⟨r, ?_, h1, h2, h3⟩
    unfold find_nthUsedSlot
    simp only [hnum, Option.bind_eq_bind, Option.some_bind]
    rw [if_neg (by omega)]
    simpa [usedBelow_zero, withArrays_numLayers] using hr
  · intro hn
    unfold find_nthUsedSlot
    simp only [hnum, Option.bind_eq_bind, Option.some_bind]
    rw [if_pos hn]
    rfl

/-- C9: in every state reached from `initialize(numSlots)` by `setInUse`/`setNotInUse` calls,
for every `n < getNumUsed()` the call `find_nthUsedSlot(n)` returns a slot that is in use and
has exactly `n` used slots below it (the `(n+1)`-th used slot in ascending order), so the
results are strictly increasing in `n`; and for every `n ≥ getNumUsed()` it returns
`InvalidSlotIndex`. -/
theorem find_nthUsedSlot_rank (numSlots : Nat) (calls : List Call)
    (hN : numSlots < u32) (hc : ∀ c, c ∈ calls → c.slotIdx < numSlots) :
    ∃ s numUsed, (init numSlots).runCalls calls = some s ∧ s.getNumUsed = some numUsed ∧
      (∀ n, n < numUsed →
        ∃ r, s.find_nthUsedSlot n = some r ∧ r < numSlots ∧ s.getUsage r = some true ∧
          (List.range r).countP (fun i => decide (s.getUsage i = some true)) = n) ∧
      (∀ n n' r r', n < n' → n' < numUsed → s.find_nthUsedSlot n = some r →
        s.find_nthUsedSlot n' = some r' → r < r') ∧
      (∀ n, numUsed ≤ n → s.find_nthUsedSlot n = some InvalidSlotIndex) := by
  obtain ⟨s, hrun, hD⟩ := reachable_describes numSlots hN calls hc
  have hnum := getNumUsed_describes numSlots _ s hN hD
  refine ⟨s, _, hrun, hnum, ?_, ?_, ?_⟩
  · intro n hn
    obtain ⟨r, hr, h1, h2, h3⟩ := (find_nthUsedSlot_describes numSlots _ s hN hD n).1 hn
    refine ⟨r, hr, h1, ?_, ?_⟩
    · rw [getUsage_describes numSlots r _ s hD h1, h2]
    · rw [countP_getUsage_describes numSlots _ s hD r (by omega), h3]
  · intro n n' r r' hlt hn' hr hr'
    obtain ⟨q, hq, -, -, h3⟩ := (find_nthUsedSlot_describes numSlots _ s hN hD n).1 (by omega)
    obtain ⟨q', hq', -, -, h3'⟩ := (find_nthUsedSlot_describes numSlots _ s hN hD n').1 hn'
    rw [hr] at hq
    rw [hr'] at hq'
    have e1 : r = q := Option.some.inj hq
    have e2 : r' = q' := Option.some.inj hq'
    subst e1 e2
    by_contra hge
    have := usedBelow_mono (netUsage calls) (show r' ≤ r by omega)
    omega
  · intro n hn
    exact (find_nthUsedSlot_describes numSlots _ s hN hD n).2 hn

theorem find_nthUsedSlot_rank_witness :
    ∃ s numUsed, (init 40).runCalls sampleCalls = some s ∧ s.getNumUsed = some numUsed ∧
      (∀ n, n < numUsed →
        ∃ r, s.find_nthUsedSlot n = some r ∧ r < 40 ∧ s.getUsage r = some true ∧
          (List.range r).countP (fun i => decide (s.getUsage i = some true)) = n) ∧
      (∀ n n' r r', n < n' → n' < numUsed → s.find_nthUsedSlot n = some r →
        s.find_nthUsedSlot n' = some r' → r < r') ∧
      (∀ n, numUsed ≤ n → s.find_nthUsedSlot n = some InvalidSlotIndex) :=
  find_nthUsedSlot_rank 40 sampleCalls (by decide) (by decide)

end SlotFinder

/-! ## `resize`: copying the leaf words -/

/-- The layers other than `k` are described as before when only words and counts of layer
`k` have changed, and layer `k` is described by the usage `u` once all its flags, bounds and
counts have been checked. -/
theorem DescribesAt.replace_layer {N : Nat} {v : Nat → Nat → Bool} {fb cnt fb' cnt' : List Nat}
    (hD : DescribesAt N v fb cnt) (k : Nat) (u : Nat → Bool)
    (hlen1 : fb'.length = fb.length) (hlen2 : cnt'.length = cnt.length)
    (hA : ∀ k' b', k' < numLayersFor N → b' < numBinsInLayer N k' → k' ≠ k →
      andWord N fb' k' b' = andWord N fb k' b')
    (hC : ∀ k' b', k' < numLayersFor N → b' < numBinsInLayer N k' → k' ≠ k →
      cntAt N cnt' k' b' = cntAt N cnt k' b')
    (hout : ∀ i, N ≤ i → u i = false)
    (hflags : ∀ f, f < numFlagsInLayer N k →
      ((andWord N fb' k (f / 32)).testBit (f % 32) = true ↔ blockFull N u k f))
    (hbound : ∀ b, b < numBinsInLayer N k → andWord N fb' k b < 2 ^ flagsInBin N k b)
    (hcnt : ∀ b, b < numBinsInLayer N k →
      cntAt N cnt' k b + usedBelow u (32 ^ (k + 1) * b) = usedBelow u (32 ^ (k + 1) * (b + 1))) :
    DescribesAt N (Function.update v k u) fb' cnt' where
  lenFlagBins := by rw [hlen1]; exact hD.lenFlagBins
  lenNumUsed := by rw [hlen2]; exact hD.lenNumUsed
  outside := by
    intro layer hl i hi
    by_cases e : layer = k
    · subst e
      rw [Function.update_same]
      exact hout i hi
    · rw [Function.update_noteq e]
      exact hD.outside layer hl i hi
  andFlag := by
    intro layer hl f hf
    by_cases e : layer = k
    · subst e
      rw [Function.update_same]
      exact hflags f hf
    · rw [Function.update_noteq e, hA layer (f / 32) hl (flag_bin_lt N layer f hf) e]
      exact hD.andFlag layer hl f hf
  andBound := by
    intro layer hl b hb
    by_cases e : layer = k
    · subst e
      exact hbound b hb
    · rw [hA layer b hl hb e]
      exact hD.andBound layer hl b hb
  numUsed := by
    intro layer hl b hb
    by_cases e : layer = k
    · subst e
      rw [Function.update_same]
      exact hcnt b hb
    · rw [Function.update_noteq e, hC layer b hl hb e]
      exact hD.numUsed layer hl b hb

theorem andWord_zero (N : Nat) (fb : List Nat) (b : Nat) : andWord N fb 0 b = fb.getD b 0 := by
  simp [andWord, offsetToAND]

theorem cntAt_zero (N : Nat) (cnt : List Nat) (b : Nat) : cntAt N cnt 0 b = cnt.getD b 0 := by
  simp [cntAt, offsetToNumUsedFlags]

theorem numBinsInLayer_zero_le_layerEnd (N k : Nat) : numBinsInLayer N 0 ≤ layerEnd N k :=
  layerEnd_mono N (Nat.zero_le k)

theorem upper_andAddr_ge (N k b : Nat) (hk : 1 ≤ k) :
    numBinsInLayer N 0 ≤ offsetToAND N k + b := by
  have h1 := layerEnd_le_offsetToOR N (show 0 < k by omega)
  have h2 := offsetToOR_le_AND N k
  have h3 : layerEnd N 0 = numBinsInLayer N 0 := rfl
  omega

theorem upper_cntAddr_ge (N k b : Nat) (hk : 1 ≤ k) :
    numBinsInLayer N 0 ≤ offsetToNumUsedFlags N k + b := by
  have h1 := offsetToNumUsedFlags_mono N (show 1 ≤ k by omega)
  have h2 : offsetToNumUsedFlags N 1 = numBinsInLayer N 0 := by
    simp [offsetToNumUsedFlags]
  omega

namespace SlotFinder

/-- The copy loop of `resize` on the leaf bins `b`, ..., `b + numLeft - 1`. -/
theorem copyLeafBins_spec (N newN : Nat) (fb cnt : List Nat) (numLeft : Nat) :
    ∀ (b : Nat) (fbn cntn : List Nat),
      b + numLeft ≤ fb.length → b + numLeft ≤ fbn.length → b + numLeft ≤ cntn.length →
      ∃ fbn' cntn',
        copyLeafBins (withArrays N fb cnt) newN numLeft b (withArrays newN fbn cntn)
          = some (withArrays newN fbn' cntn') ∧
        fbn'.length = fbn.length ∧ cntn'.length = cntn.length ∧
        (∀ a, b ≤ a → a < b + numLeft →
          fbn'.getD a 0 = fb.getD a 0 &&& ((1 <<< min 32 (newN - 32 * a)) - 1) ∧
          cntn'.getD a 0 = popcnt (fb.getD a 0 &&& ((1 <<< min 32 (newN - 32 * a)) - 1))) ∧
        (∀ a, (a < b ∨ b + numLeft ≤ a) →
          fbn'.getD a 0 = fbn.getD a 0 ∧ cntn'.getD a 0 = cntn.getD a 0) := by
  induction numLeft with
  | zero =>
    intro b fbn cntn _ _ _
    refine ⟨fbn, cntn, rfl, rfl, rfl, ?_, ?_⟩
    · intro a h1 h2
      omega
    · intro a _
      exact ⟨rfl, rfl⟩
  | succ numLeft ih =>
    intro b fbn cntn h1 h2 h3
    obtain ⟨fbn', cntn', hrun, hl1, hl2, hin, hout⟩ := ih (b + 1)
      (fbn.set b (fb.getD b 0 &&& ((1 <<< min 32 (newN - 32 * b)) - 1)))
      (cntn.set b (popcnt (fb.getD b 0 &&& ((1 <<< min 32 (newN - 32 * b)) - 1))))
      (by omega) (by rw [List.length_set]; omega) (by rw [List.length_set]; omega)
    refine ⟨fbn', cntn', ?_, ?_, ?_, ?_, ?_⟩
    · rw [copyLeafBins]
      simp only [withArrays_flagBins, withArrays_numUsed,
        readAt_some fb b (by omega), writeAt_some fbn b _ (by omega),
        writeAt_some cntn b _ (by omega), Option.bind_eq_bind, Option.some_bind,
        withArrays_update]
      exact hrun
    · rw [hl1, List.length_set]
    · rw [hl2, List.length_set]
    · intro a ha1 ha2
      by_cases hab : a = b
      · subst hab
        obtain ⟨e1, e2⟩ := hout a (Or.inl (by omega))
        rw [e1, e2, getD_set_eq _ _ _ (by omega), getD_set_eq _ _ _ (by omega)]
        exact ⟨rfl, rfl⟩
      · exact hin a (by omega) (by omega)
    · intro a ha
      obtain ⟨e1, e2⟩ := hout a (by omega)
      rw [e1, e2, getD_set_ne _ _ _ _ (by omega), getD_set_ne _ _ _ _ (by omega)]
      exact ⟨rfl, rfl⟩

theorem masked_testBit (w c i : Nat) :
    (w &&& ((1 <<< c) - 1)).testBit i = (decide (i < c) && w.testBit i) := by
  rw [Nat.one_shiftLeft, Nat.and_pow_two_sub_one_eq_mod, Nat.testBit_mod_two_pow]

theorem masked_lt (w c : Nat) : w &&& ((1 <<< c) - 1) < 2 ^ c := by
  rw [Nat.one_shiftLeft, Nat.and_pow_two_sub_one_eq_mod]
  exact Nat.mod_lt _ (pow_pos (by decide) c)

/-- After the copy loop of `resize`, the leaf layer of the new pyramid describes the old
usage cut off at the new size, and the higher layers are still as `initialize` left them. -/
theorem copyLeafBins_describes (N newN : Nat) (u : Nat → Bool) (fb cnt : List Nat)
    (hD : DescribesAt N (fun _ => u) fb cnt) :
    ∃ fbn cntn,
      copyLeafBins (withArrays N fb cnt) newN
          (min (numBinsInLayer N 0) (numBinsInLayer newN 0)) 0 (init newN)
        = some (withArrays newN fbn cntn) ∧
      DescribesAt newN
        (Function.update (fun _ _ => false) 0 (fun i => decide (i < newN) && u i))
        fbn cntn := by
  have hL := numLayersFor_pos N
  have hL' := numLayersFor_pos newN
  obtain ⟨zfb, zcnt, hinit, hDz⟩ := init_describes newN
  have hlenfb : numBinsInLayer N 0 ≤ fb.length := by
    rw [hD.lenFlagBins]
    exact numBinsInLayer_zero_le_layerEnd N _
  have hlenz : numBinsInLayer newN 0 ≤ zfb.length := by
    rw [hDz.lenFlagBins]
    exact numBinsInLayer_zero_le_layerEnd newN _
  have hlenzc : numBinsInLayer newN 0 ≤ zcnt.length := by
    rw [hDz.lenNumUsed]
    have h1 := offsetToNumUsedFlags_mono newN (show 1 ≤ numLayersFor newN by omega)
    have h2 : offsetToNumUsedFlags newN 1 = numBinsInLayer newN 0 := by
      simp [offsetToNumUsedFlags]
    omega
  obtain ⟨fbn, cntn, hrun, hl1, hl2, hin, hout⟩ := copyLeafBins_spec N newN fb cnt
    (min (numBinsInLayer N 0) (numBinsInLayer newN 0)) 0 zfb zcnt (by omega) (by omega)
    (by omega)
  rw [hinit]
  refine ⟨fbn, cntn, hrun, ?_⟩
  have hzw : ∀ b, b < numBinsInLayer newN 0 → zfb.getD b 0 = 0 ∧ zcnt.getD b 0 = 0 := by
    intro b hb
    have hf : ∀ i, (zfb.getD b 0).testBit i = false := by
      intro i
      by_cases hi : i < flagsInBin newN 0 b
      · have hflag := flag_of_bit_lt newN 0 b i hi
        have := hDz.andFlag 0 hL' (32 * b + i) hflag
        have e1 : (32 * b + i) / 32 = b := by
          have := flagsInBin_le newN 0 b
          omega
        have e2 : (32 * b + i) % 32 = i := by
          have := flagsInBin_le newN 0 b
          omega
        rw [e1, e2, andWord_zero] at this
        cases hw : (zfb.getD b 0).testBit i
        · rfl
        · have hfull := this.mp hw
          have hlt : 32 * b + i < newN := by simpa [numFlagsInLayer] using hflag
          have := hfull (32 * b + i) hlt (by simp)
          exact Bool.noConfusion this
      · have hb' := hDz.andBound 0 hL' b hb
        rw [andWord_zero] at hb'
        exact testBit_of_lt _ _ _ hb' (by omega)
    have hc := hDz.numUsed 0 hL' b hb
    rw [usedBelow_false, usedBelow_false, cntAt_zero] at hc
    exact ⟨Nat.eq_of_testBit_eq (by intro i; rw [hf i, Nat.zero_testBit]), by omega⟩
  have houtu : ∀ i, N ≤ i → u i = false := hD.outside 0 hL
  -- the bits of the new leaf words
  have hbits : ∀ b i, b < numBinsInLayer newN 0 → i < 32 →
      (fbn.getD b 0).testBit i = (decide (32 * b + i < newN) && u (32 * b + i)) := by
    intro b i hb hi
    by_cases hbM : b < min (numBinsInLayer N 0) (numBinsInLayer newN 0)
    · rw [(hin b (by omega) (by omega)).1, masked_testBit]
      have hold := leaf_testBit hD b i (by omega) hi
      rw [andWord_zero] at hold
      rw [hold]
      congr 1
      apply decide_eq_decide.mpr
      omega
    · rw [(hout b (Or.inr (by omega))).1, (hzw b hb).1, Nat.zero_testBit]
      have hge : numBinsInLayer N 0 ≤ b := by omega
      have := numBinsFor_mul (numFlagsInLayer N 0)
      have hN : N ≤ 32 * b + i := by
        simp only [numFlagsInLayer] at this
        unfold numBinsInLayer at hge
        simp only [numFlagsInLayer] at hge
        omega
      rw [houtu _ hN]
      simp
  have hbound : ∀ b, b < numBinsInLayer newN 0 →
      fbn.getD b 0 < 2 ^ flagsInBin newN 0 b := by
    intro b hb
    by_cases hbM : b < min (numBinsInLayer N 0) (numBinsInLayer newN 0)
    · rw [(hin b (by omega) (by omega)).1]
      exact masked_lt _ _
    · rw [(hout b (Or.inr (by omega))).1, (hzw b hb).1]
      exact pow_pos (by decide) _
  have hcntw : ∀ b, b < numBinsInLayer newN 0 → cntn.getD b 0 = popcnt (fbn.getD b 0) := by
    intro b hb
    by_cases hbM : b < min (numBinsInLayer N 0) (numBinsInLayer newN 0)
    · rw [(hin b (by omega) (by omega)).2, (hin b (by omega) (by omega)).1]
    · rw [(hout b (Or.inr (by omega))).2, (hout b (Or.inr (by omega))).1, (hzw b hb).2,
        (hzw b hb).1]
      rfl
  apply hDz.replace_layer 0 (fun i => decide (i < newN) && u i) hl1 hl2
  · intro k' b' _ _ hk'
    unfold andWord
    have := upper_andAddr_ge newN k' b' (by omega)
    rw [(hout _ (Or.inr (by omega))).1]
  · intro k' b' _ _ hk'
    unfold cntAt
    have := upper_cntAddr_ge newN k' b' (by omega)
    rw [(hout _ (Or.inr (by omega))).2]
  · intro i hi
    simp
    intro h
    omega
  · intro f hf
    have hfN : f < newN := by simpa [numFlagsInLayer] using hf
    rw [andWord_zero, hbits (f / 32) (f % 32) (flag_bin_lt newN 0 f hf) (Nat.mod_lt _ (by decide))]
    have e : 32 * (f / 32) + f % 32 = f := Nat.div_add_mod f 32
    rw [e]
    constructor
    · intro h i _ hi
      have : i = f := by simpa using hi
      rw [this]
      exact h
    · intro h
      exact h f hfN (by simp)
  · intro b hb
    rw [andWord_zero]
    exact hbound b hb
  · intro b hb
    have hw32 : fbn.getD b 0 < 2 ^ 32 :=
      lt_of_lt_of_le (hbound b hb) (Nat.pow_le_pow_right (by decide) (flagsInBin_le newN 0 b))
    rw [cntAt_zero, hcntw b hb, popcnt_eq_countP_of_lt _ 32 hw32 (le_refl _)]
    have e1 : 32 ^ (0 + 1) * (b + 1) = 32 * b + 32 := by ring
    have e2 : 32 ^ (0 + 1) * b = 32 * b := by ring
    rw [e1, e2, usedBelow_add]
    have hcg : (List.range 32).countP (fun i => (fbn.getD b 0).testBit i)
        = (List.range 32).countP (fun i => decide (32 * b + i < newN) && u (32 * b + i)) := by
      apply List.countP_congr
      intro i hi
      rw [List.mem_range] at hi
      rw [hbits b i hb hi]
    rw [hcg]
    omega

end SlotFinder

/-! ## `resize`: recomputing the aggregate layers -/

namespace SlotFinder

theorem aggregateBits_spec (N j b : Nat) (u : Nat → Bool) (fb cnt : List Nat)
    (hN : N < u32) (hj : j + 1 < numLayersFor N)
    (hlen1 : fb.length = layerEnd N (numLayersFor N - 1))
    (hlen2 : cnt.length = offsetToNumUsedFlags N (numLayersFor N))
    (hout : ∀ i, N ≤ i → u i = false)
    (hAnd : ∀ g, g < numBinsInLayer N j →
      (popcnt (andWord N fb j g) = flagsInBin N j g ↔ blockFull N u (j + 1) g))
    (hCnt : ∀ g, g < numBinsInLayer N j →
      cntAt N cnt j g + usedBelow u (32 ^ (j + 1) * g) = usedBelow u (32 ^ (j + 1) * (g + 1)))
    (numLeft : Nat) :
    ∀ bit o a c, bit + numLeft = flagsInBin N (j + 1) b → a < 2 ^ bit →
      (∀ i, i < bit → (a.testBit i = true ↔ blockFull N u (j + 1) (32 * b + i))) →
      c + usedBelow u (32 ^ (j + 1) * (32 * b)) = usedBelow u (32 ^ (j + 1) * (32 * b + bit)) →
      ∃ o' a' c',
        aggregateBits (some fb) (some cnt) (offsetToOR N j) (offsetToAND N j)
            (offsetToNumUsedFlags N j) (numFlagsInLayer N j) b numLeft bit o a c
          = some (o', a', c') ∧
        a' < 2 ^ flagsInBin N (j + 1) b ∧
        (∀ i, i < flagsInBin N (j + 1) b →
          (a'.testBit i = true ↔ blockFull N u (j + 1) (32 * b + i))) ∧
        c' + usedBelow u (32 ^ (j + 1) * (32 * b))
          = usedBelow u (32 ^ (j + 1) * (32 * b + flagsInBin N (j + 1) b)) := by
  induction numLeft with
  | zero =>
    intro bit o a c hbit ha hbits hc
    have e : bit = flagsInBin N (j + 1) b := by omega
    subst e
    exact ⟨o, a, c, rfl, ha, hbits, hc⟩
  | succ numLeft ih =>
    intro bit o a c hbit ha hbits hc
    have hjL : j < numLayersFor N := by omega
    have hbitlt : bit < flagsInBin N (j + 1) b := by omega
    have hg : 32 * b + bit < numBinsInLayer N j := flag_of_bit_lt N (j + 1) b bit hbitlt
    have h1 : offsetToOR N j + (32 * b + bit) < fb.length := by
      rw [hlen1]; exact orAddr_lt N j _ hjL hg
    have h2 : offsetToAND N j + (32 * b + bit) < fb.length := by
      rw [hlen1]; exact andAddr_lt N j _ hjL hg
    have h3 : offsetToNumUsedFlags N j + (32 * b + bit) < cnt.length := by
      rw [hlen2]; exact cntAddr_lt N j _ hjL hg
    have hcg := hCnt (32 * b + bit) hg
    have hUle := usedBelow_le_numSlots u N (32 ^ (j + 1) * (32 * b + bit + 1)) hout
    have hnowrap : (c + cnt.getD (offsetToNumUsedFlags N j + (32 * b + bit)) 0) % u32
        = c + cntAt N cnt j (32 * b + bit) := by
      apply Nat.mod_eq_of_lt
      unfold cntAt at hcg
      omega
    rw [aggregateBits]
    simp only [readAt_some _ _ h1, readAt_some _ _ h2, readAt_some _ _ h3,
      Option.bind_eq_bind, Option.some_bind, hnowrap]
    have habit : a.testBit bit = false := testBit_of_lt a bit bit ha (le_refl _)
    have ha' : a < 2 ^ (bit + 1) :=
      lt_of_lt_of_le ha (Nat.pow_le_pow_right (by decide) (Nat.le_succ bit))
    apply ih (bit + 1) _ _ _ (by omega)
    · split
      · exact set_bit_lt a bit (bit + 1) ha' (Nat.lt_succ_self bit)
      · exact ha'
    · intro i hi
      have hfull := hAnd (32 * b + bit) hg
      have hw : fb.getD (offsetToAND N j + (32 * b + bit)) 0 = andWord N fb j (32 * b + bit) :=
        rfl
      have hfl : min 32 (numFlagsInLayer N j - 32 * (32 * b + bit))
          = flagsInBin N j (32 * b + bit) := rfl
      rw [hw, hfl]
      by_cases hib : i = bit
      · subst hib
        by_cases hp : popcnt (andWord N fb j (32 * b + i)) = flagsInBin N j (32 * b + i)
        · rw [if_pos hp, testBit_set_bit]
          simp [hfull.mp hp]
        · rw [if_neg hp, habit]
          have : ¬ blockFull N u (j + 1) (32 * b + i) := fun h => hp (hfull.mpr h)
          simp [this]
      · have hlt : i < bit := by omega
        have hkeep : (if popcnt (andWord N fb j (32 * b + bit)) = flagsInBin N j (32 * b + bit)
            then a ||| (1 <<< bit) else a).testBit i = a.testBit i := by
          split
          · rw [testBit_set_bit]
            have : ¬ bit = i := fun e => hib e.symm
            simp [this]
          · rfl
        rw [hkeep]
        exact hbits i hlt
    · have e : 32 * b + (bit + 1) = 32 * b + bit + 1 := by omega
      rw [e]
      omega

theorem aggregateBins_spec (N j : Nat) (u : Nat → Bool) (fb0 cnt0 : List Nat)
    (hN : N < u32) (hj : j + 1 < numLayersFor N)
    (hlen1 : fb0.length = layerEnd N (numLayersFor N - 1))
    (hlen2 : cnt0.length = offsetToNumUsedFlags N (numLayersFor N))
    (hout : ∀ i, N ≤ i → u i = false)
    (hAnd : ∀ g, g < numBinsInLayer N j →
      (popcnt (andWord N fb0 j g) = flagsInBin N j g ↔ blockFull N u (j + 1) g))
    (hCnt : ∀ g, g < numBinsInLayer N j →
      cntAt N cnt0 j g + usedBelow u (32 ^ (j + 1) * g) = usedBelow u (32 ^ (j + 1) * (g + 1)))
    (numLeft : Nat) :
    ∀ b fb cnt, b + numLeft = numBinsInLayer N (j + 1) →
      fb.length = fb0.length → cnt.length = cnt0.length →
      (∀ k' b', k' < numLayersFor N → b' < numBinsInLayer N k' → k' ≠ j + 1 →
        andWord N fb k' b' = andWord N fb0 k' b' ∧ cntAt N cnt k' b' = cntAt N cnt0 k' b') →
      (∀ b', b' < b → BinDescribes N u fb cnt (j + 1) b') →
      ∃ fb' cnt',
        aggregateBins (j + 1) numLeft b (withArrays N fb cnt) = some (withArrays N fb' cnt') ∧
        fb'.length = fb0.length ∧ cnt'.length = cnt0.length ∧
        (∀ k' b', k' < numLayersFor N → b' < numBinsInLayer N k' → k' ≠ j + 1 →
          andWord N fb' k' b' = andWord N fb0 k' b' ∧
          cntAt N cnt' k' b' = cntAt N cnt0 k' b') ∧
        (∀ b', b' < numBinsInLayer N (j + 1) → BinDescribes N u fb' cnt' (j + 1) b') := by
  induction numLeft with
  | zero =>
    intro b fb cnt hb hl1 hl2 hsame hdone
    refine ⟨fb, cnt, rfl, hl1, hl2, hsame, ?_⟩
    intro b' hb'
    exact hdone b' (by omega)
  | succ numLeft ih =>
    intro b fb cnt hb hl1 hl2 hsame hdone
    have hjL : j < numLayersFor N := by omega
    have hbin : b < numBinsInLayer N (j + 1) := by omega
    have hlfb : fb.length = layerEnd N (numLayersFor N - 1) := by rw [hl1, hlen1]
    have hlcnt : cnt.length = offsetToNumUsedFlags N (numLayersFor N) := by rw [hl2, hlen2]
    obtain ⟨o', a', c', hbits, ha', hbit', hc'⟩ := aggregateBits_spec N j b u fb cnt hN hj
      hlfb hlcnt hout
      (by
        intro g hg
        rw [(hsame j g hjL hg (by omega)).1]
        exact hAnd g hg)
      (by
        intro g hg
        rw [(hsame j g hjL hg (by omega)).2]
        exact hCnt g hg)
      (flagsInBin N (j + 1) b) 0 0 0 0 (by omega) (by simp)
      (by intro i hi; omega) (by simp)
    obtain ⟨hw1, hw2, -⟩ := andWord_after_writes N (j + 1) b fb o' a' hj hbin hlfb
    obtain ⟨hc1, hc2⟩ := cntAt_after_write N (j + 1) b cnt c' hj hbin hlcnt
    have h1 : offsetToOR N (j + 1) + b < fb.length := by
      rw [hlfb]; exact orAddr_lt N (j + 1) _ hj hbin
    have h2 : offsetToAND N (j + 1) + b < (fb.set (offsetToOR N (j + 1) + b) o').length := by
      rw [List.length_set, hlfb]; exact andAddr_lt N (j + 1) _ hj hbin
    have h3 : offsetToNumUsedFlags N (j + 1) + b < cnt.length := by
      rw [hlcnt]; exact cntAddr_lt N (j + 1) _ hj hbin
    obtain ⟨fb', cnt', hrun, hl1', hl2', hsame', hall⟩ := ih (b + 1)
      ((fb.set (offsetToOR N (j + 1) + b) o').set (offsetToAND N (j + 1) + b) a')
      (cnt.set (offsetToNumUsedFlags N (j + 1) + b) c') (by omega)
      (by simp [List.length_set, hl1]) (by simp [List.length_set, hl2])
      (by
        intro k' b' hk' hb' hne
        rw [hw2 k' b' hk' hb' (Or.inl hne), hc2 k' b' hk' hb' (Or.inl hne)]
        exact hsame k' b' hk' hb' hne)
      (by
        intro b' hb'
        by_cases hbb : b' = b
        · subst hbb
          unfold BinDescribes
          rw [hw1, hc1]
          refine ⟨ha', hbit', ?_⟩
          have e1 : 32 ^ (j + 1 + 1) * b' = 32 ^ (j + 1) * (32 * b') := by
            rw [pow_succ]; ring
          rw [e1, hc']
          by_cases hfull : flagsInBin N (j + 1) b' = 32
          · rw [hfull]
            congr 1
            rw [pow_succ (32 : Nat) (j + 1)]
            ring
          · have hcut : 32 * b' + flagsInBin N (j + 1) b' = numBinsInLayer N j := by
              have hx1 : 1 ≤ numFlagsInLayer N (j + 1) := numBinsInLayer_pos N j
              have hpred := numBinsFor_pred (numFlagsInLayer N (j + 1)) hx1
              have hb'' : b' < numBinsFor (numFlagsInLayer N (j + 1)) := hbin
              have hnfe : numFlagsInLayer N (j + 1) = numBinsInLayer N j := rfl
              unfold flagsInBin at hfull ⊢
              omega
            have htop := block_top N j (numBinsInLayer N j) (le_refl _)
            rw [hcut, usedBelow_outside u N _ hout htop]
            symm
            apply usedBelow_outside u N _ hout
            have hle : 32 ^ (j + 1) * numBinsInLayer N j ≤ 32 ^ (j + 1 + 1) * (b' + 1) := by
              rw [pow_succ (32 : Nat) (j + 1), ← hcut, Nat.mul_assoc]
              apply Nat.mul_le_mul_left
              have := flagsInBin_le N (j + 1) b'
              omega
            omega
        · have hlt : b' < b := by omega
          have hold := hdone b' hlt
          unfold BinDescribes at hold ⊢
          have hb'n : b' < numBinsInLayer N (j + 1) := by omega
          rw [hw2 (j + 1) b' hj hb'n (Or.inr hbb), hc2 (j + 1) b' hj hb'n (Or.inr hbb)]
          exact hold)
    refine ⟨fb', cnt', ?_, hl1', hl2', hsame', hall⟩
    rw [aggregateBins]
    simp only [readAt_offsetsOR N (j + 1) fb cnt hj, readAt_offsetsAND N (j + 1) fb cnt hj,
      readAt_offsetsNumUsed N (j + 1) fb cnt hj, readAt_numFlags N (j + 1) fb cnt hj,
      Nat.add_sub_cancel, readAt_offsetsOR N j fb cnt hjL, readAt_offsetsAND N j fb cnt hjL,
      readAt_offsetsNumUsed N j fb cnt hjL, readAt_numFlags N j fb cnt hjL,
      withArrays_flagBins, withArrays_numUsed, Option.bind_eq_bind, Option.some_bind]
    have hfl : min 32 (numFlagsInLayer N (j + 1) - 32 * b) = flagsInBin N (j + 1) b := rfl
    rw [hfl, hbits]
    simp only [Option.some_bind, writeAt_some _ _ _ h1, writeAt_some _ _ _ h2,
      writeAt_some _ _ _ h3, withArrays_update]
    exact hrun

theorem aggregateLayers_spec (N : Nat) (u : Nat → Bool) (hN : N < u32)
    (hout : ∀ i, N ≤ i → u i = false) (numLeft : Nat) :
    ∀ k (v : Nat → Nat → Bool) fb cnt, 1 ≤ k → k + numLeft = numLayersFor N →
      DescribesAt N v fb cnt → (∀ k', k' < k → v k' = u) →
      ∃ fb' cnt',
        aggregateLayers numLeft k (withArrays N fb cnt) = some (withArrays N fb' cnt') ∧
        DescribesAt N (fun _ => u) fb' cnt' := by
  induction numLeft with
  | zero =>
    intro k v fb cnt _ hkL hD hlow
    refine ⟨fb, cnt, rfl, hD.congr ?_⟩
    intro k' hk'
    exact hlow k' (by omega)
  | succ numLeft ih =>
    intro k v fb cnt hk1 hkL hD hlow
    obtain ⟨j, rfl⟩ : ∃ j, k = j + 1 := ⟨k - 1, by omega⟩
    have hj : j + 1 < numLayersFor N := by omega
    have hjL : j < numLayersFor N := by omega
    have hvj : v j = u := hlow j (by omega)
    obtain ⟨fb', cnt', hrun, hl1, hl2, hsame, hall⟩ := aggregateBins_spec N j u fb cnt hN hj
      hD.lenFlagBins hD.lenNumUsed hout
      (by
        intro g hg
        have := full_bin_iff hD j g hjL hg
        rw [hvj] at this
        exact this)
      (by
        intro g hg
        have := hD.numUsed j hjL g hg
        rw [hvj] at this
        exact this)
      (numBinsInLayer N (j + 1)) 0 fb cnt (by omega) rfl rfl
      (by intro _ _ _ _ _; exact ⟨rfl, rfl⟩) (by intro b' hb'; omega)
    have hD' : DescribesAt N (Function.update v (j + 1) u) fb' cnt' := by
      apply hD.replace_layer (j + 1) u hl1 hl2
      · intro k' b' hk' hb' hne
        exact (hsame k' b' hk' hb' hne).1
      · intro k' b' hk' hb' hne
        exact (hsame k' b' hk' hb' hne).2
      · exact hout
      · intro f hf
        obtain ⟨-, hbits, -⟩ := hall (f / 32) (flag_bin_lt N (j + 1) f hf)
        have := hbits (f % 32) (flag_bit_lt N (j + 1) f hf)
        rw [Nat.div_add_mod f 32] at this
        exact this
      · intro b hb
        exact (hall b hb).1
      · intro b hb
        exact (hall b hb).2.2
    obtain ⟨fb'', cnt'', hrun', hD''⟩ := ih (j + 1 + 1) _ fb' cnt' (by omega) (by omega) hD'
      (by
        intro k' hk'
        by_cases e : k' = j + 1
        · subst e
          rw [Function.update_same]
        · rw [Function.update_noteq e]
          exact hlow k' (by omega))
    refine ⟨fb'', cnt'', ?_, hD''⟩
    rw [aggregateLayers]
    simp only [readAt_numFlags N (j + 1) fb cnt hj, Option.bind_eq_bind, Option.some_bind]
    have hnb : numBinsFor (numFlagsInLayer N (j + 1)) = numBinsInLayer N (j + 1) := rfl
    rw [hnb, hrun]
    simp only [Option.some_bind]
    exact hrun'

end SlotFinder

/-! ## `resize` -/

namespace SlotFinder

theorem getNumSlots_describes (N : Nat) (u : Nat → Bool) (s : SlotFinder)
    (hD : Describes N u s) : s.getNumSlots = some N := by
  obtain ⟨fb, cnt, rfl, -⟩ := hD
  unfold getNumSlots
  rw [readAt_numFlags N 0 fb cnt (numLayersFor_pos N)]
  rfl

theorem usedBelow_cut (u : Nat → Bool) (newN m : Nat) (hm : m ≤ newN) :
    usedBelow (fun i => decide (i < newN) && u i) m = usedBelow u m := by
  unfold usedBelow
  apply List.countP_congr
  intro i hi
  rw [List.mem_range] at hi
  have : i < newN := by omega
  simp [this]

/-- The call `resize(newN)` on a pyramid that describes `u` returns a pyramid for `newN` slots that
describes `u` cut off at `newN`. -/
theorem resize_describes (N newN : Nat) (u : Nat → Bool) (s : SlotFinder) (hN' : newN < u32)
    (hD : Describes N u s) :
    ∃ s', s.resize newN = some s' ∧ Describes newN (fun i => decide (i < newN) && u i) s' := by
  have hslots := getNumSlots_describes N u s hD
  unfold resize
  simp only [hslots, Option.bind_eq_bind, Option.some_bind]
  by_cases he : newN = N
  · subst he
    rw [if_pos rfl]
    refine ⟨s, rfl, ?_⟩
    obtain ⟨fb, cnt, hs, hDA⟩ := hD
    have e : (fun i => decide (i < newN) && u i) = u := by
      funext i
      by_cases hi : i < newN
      · simp [hi]
      · rw [hDA.outside 0 (numLayersFor_pos newN) i (by omega)]
        simp
    rw [e]
    exact ⟨fb, cnt, hs, hDA⟩
  · rw [if_neg he]
    obtain ⟨fb, cnt, rfl, hDA⟩ := hD
    obtain ⟨fbn, cntn, hcopy, hDn⟩ := copyLeafBins_describes N newN u fb cnt hDA
    have hlow : (withArrays N fb cnt).m_numLowestFlagBins = numBinsInLayer N 0 := rfl
    have hlow' : (init newN).m_numLowestFlagBins = numBinsInLayer newN 0 := rfl
    rw [hlow, hlow', hcopy]
    simp only [Option.some_bind]
    have hL' := numLayersFor_pos newN
    obtain ⟨fb', cnt', hagg, hD'⟩ := aggregateLayers_spec newN
      (fun i => decide (i < newN) && u i) hN'
      (by
        intro i hi
        have : ¬ i < newN := by omega
        simp [this])
      (numLayersFor newN - 1) 1 _ fbn cntn (le_refl 1) (by omega) hDn
      (by
        intro k' hk'
        have : k' = 0 := by omega
        subst this
        rw [Function.update_same])
    refine ⟨withArrays newN fb' cnt', ?_, fb', cnt', rfl, hD'⟩
    unfold aggregate
    rw [withArrays_numLayers]
    exact hagg

/-- C10: `resize(newNumSlots)`, in every state reached from `initialize(numSlots)` by
`setInUse`/`setNotInUse` calls, returns and preserves `getUsage(i)` for every slot index `i`
below both the old and the new capacity; when growing, `getNumUsed()` is unchanged and every
new slot is free; when shrinking, `getNumUsed()` afterwards is the number of used slots among
the surviving indices `i < newNumSlots`. -/
theorem resize_preserves_usage (numSlots newNumSlots : Nat) (calls : List Call)
    (hN : numSlots < u32) (hN' : newNumSlots < u32)
    (hc : ∀ c, c ∈ calls → c.slotIdx < numSlots) :
    ∃ s s', (init numSlots).runCalls calls = some s ∧ s.resize newNumSlots = some s' ∧
      s'.getNumSlots = some newNumSlots ∧
      (∀ i, i < numSlots → i < newNumSlots → s'.getUsage i = s.getUsage i) ∧
      (numSlots ≤ newNumSlots →
        s'.getNumUsed = s.getNumUsed ∧
        ∀ i, numSlots ≤ i → i < newNumSlots → s'.getUsage i = some false) ∧
      (newNumSlots ≤ numSlots →
        s'.getNumUsed = some ((List.range newNumSlots).countP
          (fun i => decide (s.getUsage i = some true)))) := by
  obtain ⟨s, hrun, hD⟩ := reachable_describes numSlots hN calls hc
  obtain ⟨s', hres, hD'⟩ := resize_describes numSlots newNumSlots _ s hN' hD
  have hout : ∀ i, numSlots ≤ i → netUsage calls i = false := by
    obtain ⟨fb, cnt, -, hDA⟩ := hD
    exact hDA.outside 0 (numLayersFor_pos numSlots)
  refine ⟨s, s', hrun, hres, getNumSlots_describes newNumSlots _ s' hD', ?_, ?_, ?_⟩
  · intro i hi hi'
    rw [getUsage_describes newNumSlots i _ s' hD' hi', getUsage_describes numSlots i _ s hD hi]
    simp [hi']
  · intro hle
    constructor
    · rw [getNumUsed_describes newNumSlots _ s' hN' hD', getNumUsed_describes numSlots _ s hN hD,
        usedBelow_cut _ newNumSlots newNumSlots (le_refl _),
        usedBelow_outside _ numSlots newNumSlots hout hle]
    · intro i hi hi'
      rw [getUsage_describes newNumSlots i _ s' hD' hi', hout i hi]
      simp
  · intro hle
    rw [getNumUsed_describes newNumSlots _ s' hN' hD',
      usedBelow_cut _ newNumSlots newNumSlots (le_refl _),
      countP_getUsage_describes numSlots _ s hD newNumSlots hle]

theorem resize_preserves_usage_witness :
    ∃ s s', (init 40).runCalls sampleCalls = some s ∧ s.resize 33 = some s' ∧
      s'.getNumSlots = some 33 ∧
      (∀ i, i < 40 → i < 33 → s'.getUsage i = s.getUsage i) ∧
      (40 ≤ 33 →
        s'.getNumUsed = s.getNumUsed ∧
        ∀ i, 40 ≤ i → i < 33 → s'.getUsage i = some false) ∧
      (33 ≤ 40 →
        s'.getNumUsed = some ((List.range 33).countP
          (fun i => decide (s.getUsage i = some true)))) :=
  resize_preserves_usage 40 33 sampleCalls (by decide) (by decide) (by decide)

end SlotFinder

/-! ## The modelled pyramid has the storage that `reset` relies on -/

theorem countLayers_lower (f x k : Nat) (h : k + 1 < countLayers f x) :
    1 < numBinsInLayer x k := by
  induction f generalizing x k with
  | zero => simp [countLayers] at h
  | succ f ih =>
    simp only [countLayers] at h
    split at h
    · rename_i hgt
      cases k with
      | zero => exact hgt
      | succ k =>
        unfold numBinsInLayer
        rw [numFlagsInLayer_shift]
        exact ih (numBinsFor x) k (by omega)
    · omega

theorem numBinsInLayer_succ_le (N k : Nat) (h : 1 < numBinsInLayer N k) :
    2 * numBinsInLayer N (k + 1) ≤ numBinsInLayer N k := by
  have e : numBinsInLayer N (k + 1) = numBinsFor (numBinsInLayer N k) := rfl
  rw [e]
  unfold numBinsFor
  omega

theorem layerEnd_add (N k : Nat) :
    layerEnd N k + numBinsInLayer N 0 = 2 * offsetToNumUsedFlags N (k + 1) := by
  induction k with
  | zero => simp [layerEnd, offsetToNumUsedFlags]; omega
  | succ k ih =>
    simp only [layerEnd]
    rw [offsetToNumUsedFlags_succ N (k + 1)]
    omega

theorem offsetToNumUsedFlags_bound (N k : Nat) (hk : k < numLayersFor N) :
    offsetToNumUsedFlags N (k + 1) + numBinsInLayer N k ≤ 2 * numBinsInLayer N 0 := by
  induction k with
  | zero => simp [offsetToNumUsedFlags]; omega
  | succ k ih =>
    have h1 := ih (by omega)
    have h2 := numBinsInLayer_succ_le N k (countLayers_lower N N k hk)
    rw [offsetToNumUsedFlags_succ N (k + 1)]
    omega

namespace SlotFinder

/-- Every pyramid that describes a usage has the storage that `reset()` relies on, and the
count offset of its top layer lies inside the count array. -/
theorem describes_allocated (N : Nat) (u : Nat → Bool) (s : SlotFinder) (hN : N < u32)
    (hD : Describes N u s) :
    s.Allocated ∧
      ∃ off, readAt s.m_offsetsToNumUsedFlags ((s.m_numLayers + u32 - 1) % u32) = some off ∧
        off < s.m_numLowestFlagBins + s.m_numTotalCompiledFlagBins / 2 := by
  obtain ⟨fb, cnt, rfl, hDA⟩ := hD
  have hL := numLayersFor_pos N
  have hLle := numLayersFor_le N
  have hk : numLayersFor N - 1 < numLayersFor N := by omega
  have hadd := layerEnd_add N (numLayersFor N - 1)
  have hbound := offsetToNumUsedFlags_bound N (numLayersFor N - 1) hk
  have e1 : numLayersFor N - 1 + 1 = numLayersFor N := by omega
  rw [e1] at hadd hbound
  have hsucc := offsetToNumUsedFlags_succ N (numLayersFor N - 1)
  rw [e1] at hsucc
  have hpos := numBinsInLayer_pos N (numLayersFor N - 1)
  have hnb0 : numBinsInLayer N 0 ≤ N / 32 + 1 := by
    show numBinsFor N ≤ N / 32 + 1
    unfold numBinsFor
    omega
  have hmono := offsetToNumUsedFlags_mono N (show 1 ≤ numLayersFor N by omega)
  have h1 : offsetToNumUsedFlags N 1 = numBinsInLayer N 0 := by simp [offsetToNumUsedFlags]
  have hlow : (withArrays N fb cnt).m_numLowestFlagBins = numBinsInLayer N 0 := rfl
  have htot : (withArrays N fb cnt).m_numTotalCompiledFlagBins
      = layerEnd N (numLayersFor N - 1) - numBinsInLayer N 0 := rfl
  have hu32 : u32 = 4294967296 := by decide
  refine ⟨⟨?_, ?_, ?_⟩, offsetToNumUsedFlags N (numLayersFor N - 1), ?_, ?_⟩
  · rw [withArrays_flagBins, hlow, htot]
    simp only [Option.map_some', Option.some.injEq]
    rw [hDA.lenFlagBins]
    omega
  · rw [withArrays_numUsed, hlow, htot]
    simp only [Option.map_some', Option.some.injEq]
    rw [hDA.lenNumUsed]
    omega
  · rw [hlow, htot]
    omega
  · have hidx : (numLayersFor N + u32 - 1) % u32 = numLayersFor N - 1 := by
      have e : numLayersFor N + u32 - 1 = (numLayersFor N - 1) + u32 := by omega
      rw [e, Nat.add_mod_right]
      exact Nat.mod_eq_of_lt (by omega)
    rw [withArrays_numLayers, hidx]
    exact readAt_offsetsNumUsed N _ fb cnt hk
  · rw [hlow, htot]
    omega

end SlotFinder

/-! ## Perlin noise: the permutation table, the hash and the gradient -/

theorem tableAt_ofNat (i : Nat) (h : i < 76) :
    tableAt (i : Int) = some (PermutationTable.getD i 0) ∧ PermutationTable.getD i 0 < 19 := by
  have key : ∀ j < 76, PermutationTable[j]? = some (PermutationTable.getD j 0) ∧
      PermutationTable.getD j 0 < 19 := by
    set_option maxRecDepth 100000 in decide
  have hk := key i h
  refine ⟨?_, hk.2⟩
  unfold tableAt
  rw [if_pos (Int.ofNat_nonneg i), Int.toNat_ofNat]
  exact hk.1

theorem tableAt_neg (i : Int) (h : i < 0) : tableAt i = none := by
  unfold tableAt
  rw [if_neg (by omega)]

theorem evaluateWrapped_of_cell (rep : Nat) (x y z : ℚ) (xi yi zi xi1 yi1 zi1 : Int)
    (hx : floorToInt32 x = some xi) (hy : floorToInt32 y = some yi)
    (hz : floorToInt32 z = some zi) (hx1 : inc rep xi = some xi1)
    (hy1 : inc rep yi = some yi1) (hz1 : inc rep zi = some zi1) :
    PerlinNoise3D.evaluateWrapped rep x y z =
      (PerlinNoise3D.hash xi yi zi).bind fun lll =>
      (PerlinNoise3D.hash xi1 yi zi).bind fun ull =>
      (PerlinNoise3D.hash xi yi1 zi).bind fun lul =>
      (PerlinNoise3D.hash xi1 yi1 zi).bind fun uul =>
      (PerlinNoise3D.hash xi yi zi1).bind fun llu =>
      (PerlinNoise3D.hash xi1 yi zi1).bind fun ulu =>
      (PerlinNoise3D.hash xi yi1 zi1).bind fun luu =>
      (PerlinNoise3D.hash xi1 yi1 zi1).bind fun uuu =>
      some (PerlinNoise3D.blend lll ull lul uul llu ulu luu uuu (x - xi) (y - yi) (z - zi)
        (fade (x - xi)) (fade (y - yi)) (fade (z - zi))) := by
  simp only [PerlinNoise3D.evaluateWrapped, hx, hy, hz, hx1, hy1, hz1, Option.bind_eq_bind,
    Option.some_bind, Option.pure_def]

theorem evaluate_eq_wrapped (g : PerlinNoise3D) (p : float3) (frequency : ℚ) (rep : Nat)
    (h : toUInt32 (g.m_repeat * frequency) = some rep) :
    g.evaluate p frequency =
      PerlinNoise3D.evaluateWrapped rep (wrapCoord rep (frequency * p.x))
        (wrapCoord rep (frequency * p.y)) (wrapCoord rep (frequency * p.z)) := by
  simp only [PerlinNoise3D.evaluate, h, Option.bind_eq_bind, Option.some_bind]

/-- C12: the table has 76 entries, which are five sub-tables of lengths 11, 13, 16, 17 and 19
at the offsets 0, 11, 24, 40 and 57; each sub-table is a permutation of the numbers below its
length, so every entry is below 19. -/
theorem PermutationTable_subtables :
    PermutationTable.length = 76 ∧
    PermutationTable.length = 11 + 13 + 16 + 17 + 19 ∧
    (0 + 11 = 11 ∧ 11 + 13 = 24 ∧ 24 + 16 = 40 ∧ 40 + 17 = 57 ∧ 57 + 19 = 76) ∧
    ((PermutationTable.drop 0).take 11).Perm (List.range 11) ∧
    ((PermutationTable.drop 11).take 13).Perm (List.range 13) ∧
    ((PermutationTable.drop 24).take 16).Perm (List.range 16) ∧
    ((PermutationTable.drop 40).take 17).Perm (List.range 17) ∧
    ((PermutationTable.drop 57).take 19).Perm (List.range 19) ∧
    (∀ e ∈ PermutationTable, e < 19) := by
  decide

/-- C11: the hash of a negative coordinate reads outside the table: `-1 % 11` is `-1` in C++,
so `hash(-1, 0, 0)` starts with the read `PermutationTable[-1]` and has no result; the call is
reached from `evaluate` with period 0 at the point `(-1/2, 0, 0)`, whose lattice index is
`-1`. -/
theorem hash_negative_reads_outside :
    (0 : Int) + Int.tmod (-1) 11 = -1 ∧
    tableAt (0 + Int.tmod (-1) 11) = none ∧
    hashTerm 0 11 (-1) 0 0 = none ∧
    PerlinNoise3D.hash (-1) 0 0 = none ∧
    toUInt32 ((0 : Int) * (1 : ℚ)) = some 0 ∧
    wrapCoord 0 (1 * (-1 / 2)) = -1 / 2 ∧
    floorToInt32 (-1 / 2) = some (-1) ∧
    PerlinNoise3D.evaluate { m_repeat := 0 } { x := -1 / 2, y := 0, z := 0 } 1 = none := by
  have h1 : (0 : Int) + Int.tmod (-1) 11 = -1 := by decide
  have h2 : tableAt (0 + Int.tmod (-1) 11) = none := by rw [h1]; exact tableAt_neg _ (by decide)
  have h3 : hashTerm 0 11 (-1) 0 0 = none := by
    unfold hashTerm
    rw [h2]; rfl
  have h4 : PerlinNoise3D.hash (-1) 0 0 = none := by
    unfold PerlinNoise3D.hash
    rw [h3]; rfl
  have h5 : toUInt32 ((0 : Int) * (1 : ℚ)) = some 0 := by
    simp [toUInt32, truncQ]
  have h6 : wrapCoord 0 (1 * (-1 / 2)) = -1 / 2 := by
    simp [wrapCoord]
  have hfl : ⌊(-1 / 2 : ℚ)⌋ = -1 := by
    rw [Int.floor_eq_iff]; norm_num
  have h7 : floorToInt32 (-1 / 2) = some (-1) := by
    unfold floorToInt32
    rw [hfl]; decide
  refine ⟨h1, h2, h3, h4, h5, h6, h7, ?_⟩
  have h8 : floorToInt32 0 = some 0 := by
    unfold floorToInt32; simp
  have h9 : inc 0 (-1) = some 0 := by decide
  have h10 : inc 0 0 = some 1 := by decide
  have hw : PerlinNoise3D.evaluateWrapped 0 (-1 / 2) 0 0 = none := by
    rw [evaluateWrapped_of_cell 0 (-1 / 2) 0 0 (-1) 0 0 0 1 1 h7 h8 h8 h9 h10 h10, h4]
    rfl
  have h11 : wrapCoord 0 (1 * 0) = 0 := by simp [wrapCoord]
  rw [evaluate_eq_wrapped _ _ _ 0 h5]
  show PerlinNoise3D.evaluateWrapped 0 (wrapCoord 0 (1 * (-1 / 2))) (wrapCoord 0 (1 * 0))
    (wrapCoord 0 (1 * 0)) = none
  rw [h6, h11]
  exact hw

/-- C19: the gradient depends only on its hash modulo 16 and is the dot product of the offset
with one of sixteen fixed directions, the cases 12 to 15 repeating the cases 0, 9, 1 and 11;
the selector `hash & 0xF` is below 16, so the default branch is never taken. -/
theorem gradient_dot_direction (h : Nat) (xu yu zu : ℚ) :
    h &&& 0xF = h % 16 ∧ h &&& 0xF < 16 ∧
    gradientDirections.length = 16 ∧
    PerlinNoise3D.gradient h xu yu zu = PerlinNoise3D.gradient (h % 16) xu yu zu ∧
    PerlinNoise3D.gradient h xu yu zu =
      dot3 (gradientDirections.getD (h % 16) (0, 0, 0)) xu yu zu ∧
    gradientDirections.getD 12 (0, 0, 0) = gradientDirections.getD 0 (0, 0, 0) ∧
    gradientDirections.getD 13 (0, 0, 0) = gradientDirections.getD 9 (0, 0, 0) ∧
    gradientDirections.getD 14 (0, 0, 0) = gradientDirections.getD 1 (0, 0, 0) ∧
    gradientDirections.getD 15 (0, 0, 0) = gradientDirections.getD 11 (0, 0, 0) ∧
    (gradientDirections.take 12).Nodup := by
  have hand : ∀ n : Nat, n &&& 0xF = n % 16 := fun n =>
    Nat.and_pow_two_sub_one_eq_mod n 4
  have hlt : h % 16 < 16 := Nat.mod_lt _ (by decide)
  have hdot : ∀ k, k < 16 → PerlinNoise3D.gradient k xu yu zu =
      dot3 (gradientDirections.getD k (0, 0, 0)) xu yu zu := by
    intro k hk
    interval_cases k <;> simp [PerlinNoise3D.gradient, gradientDirections, dot3] <;> ring
  have hmod : PerlinNoise3D.gradient h xu yu zu = PerlinNoise3D.gradient (h % 16) xu yu zu := by
    unfold PerlinNoise3D.gradient
    rw [hand h, hand (h % 16), Nat.mod_mod]
  refine ⟨hand h, by rw [hand h]; exact hlt, rfl, hmod, ?_, rfl, rfl, rfl, rfl, ?_⟩
  · rw [hmod]; exact hdot _ hlt
  · norm_num [gradientDirections, Prod.ext_iff]

theorem addInt_ofNat (a y : Nat) (h : a + y < 2147483648) :
    addInt (a : Int) (y : Int) = some ((a + y : Nat) : Int) := by
  unfold addInt
  rw [if_pos (by omega)]
  push_cast
  rfl

theorem tmod_ofNat_add (offset x len : Nat) :
    (offset : Int) + Int.tmod (x : Int) (len : Int) = ((offset + x % len : Nat) : Int) := by
  rw [← Int.ofNat_tmod]
  push_cast
  rfl

theorem hashTerm_eq (offset len x y z : Int) :
    hashTerm offset len x y z =
      (tableAt (offset + Int.tmod x len)).bind fun a =>
      (addInt (a : Int) y).bind fun ay =>
      (tableAt (offset + Int.tmod ay len)).bind fun b =>
      (addInt (b : Int) z).bind fun bz => tableAt (offset + Int.tmod bz len) := rfl

theorem hashTermNat_lt (offset len x y z : Nat) (hlen : 0 < len) (hoff : offset + len ≤ 76) :
    hashTermNat offset len x y z < 19 := by
  unfold hashTermNat
  refine (tableAt_ofNat _ ?_).2
  have := Nat.mod_lt (PermutationTable.getD
      (offset + (PermutationTable.getD (offset + x % len) 0 + y) % len) 0 + z) hlen
  omega

theorem hashTerm_ofNat (offset len x y z : Nat) (hlen : 0 < len) (hoff : offset + len ≤ 76)
    (hy : y ≤ 2147483629) (hz : z ≤ 2147483629) :
    hashTerm (offset : Int) (len : Int) (x : Int) (y : Int) (z : Int) =
      some (hashTermNat offset len x y z) := by
  have h1 := Nat.mod_lt x hlen
  have ha := tableAt_ofNat (offset + x % len) (by omega)
  have h2 := Nat.mod_lt (PermutationTable.getD (offset + x % len) 0 + y) hlen
  have hb := tableAt_ofNat
    (offset + (PermutationTable.getD (offset + x % len) 0 + y) % len) (by omega)
  have h3 := Nat.mod_lt (PermutationTable.getD
      (offset + (PermutationTable.getD (offset + x % len) 0 + y) % len) 0 + z) hlen
  have hc := tableAt_ofNat (offset + (PermutationTable.getD
      (offset + (PermutationTable.getD (offset + x % len) 0 + y) % len) 0 + z) % len) (by omega)
  unfold hashTermNat
  rw [hashTerm_eq, tmod_ofNat_add, ha.1, Option.some_bind,
    addInt_ofNat _ _ (by have := ha.2; omega), Option.some_bind, tmod_ofNat_add, hb.1,
    Option.some_bind, addInt_ofNat _ _ (by have := hb.2; omega), Option.some_bind,
    tmod_ofNat_add, hc.1]

theorem hash_eq (x y z : Int) :
    PerlinNoise3D.hash x y z =
      (hashTerm 0 11 x y z).bind fun t0 =>
      (hashTerm 11 13 x y z).bind fun t1 =>
      (hashTerm 24 16 x y z).bind fun t2 =>
      (hashTerm 40 17 x y z).bind fun t3 =>
      (hashTerm 57 19 x y z).bind fun t4 =>
      some ((((((0 + t0) % u32 + t1) % u32 + t2) % u32 + t3) % u32 + t4) % u32 % 16 % 256) :=
  rfl

theorem hashNat_lt (x y z : Nat) : hashNat x y z < 16 := Nat.mod_lt _ (by decide)

theorem hash_ofNat (x y z : Nat) (hy : y ≤ 2147483629) (hz : z ≤ 2147483629) :
    PerlinNoise3D.hash (x : Int) (y : Int) (z : Int) = some (hashNat x y z) := by
  have e0 := hashTerm_ofNat 0 11 x y z (by decide) (by decide) hy hz
  have e1 := hashTerm_ofNat 11 13 x y z (by decide) (by decide) hy hz
  have e2 := hashTerm_ofNat 24 16 x y z (by decide) (by decide) hy hz
  have e3 := hashTerm_ofNat 40 17 x y z (by decide) (by decide) hy hz
  have e4 := hashTerm_ofNat 57 19 x y z (by decide) (by decide) hy hz
  have l0 := hashTermNat_lt 0 11 x y z (by decide) (by decide)
  have l1 := hashTermNat_lt 11 13 x y z (by decide) (by decide)
  have l2 := hashTermNat_lt 24 16 x y z (by decide) (by decide)
  have l3 := hashTermNat_lt 40 17 x y z (by decide) (by decide)
  have l4 := hashTermNat_lt 57 19 x y z (by decide) (by decide)
  simp only [Nat.cast_ofNat, Nat.cast_zero] at e0 e1 e2 e3 e4
  rw [hash_eq, e0, Option.some_bind, e1, Option.some_bind, e2, Option.some_bind, e3,
    Option.some_bind, e4, Option.some_bind, Option.some.injEq]
  unfold hashNat u32
  omega

/-- The hash is defined, with a value below 16, on non-negative `int32_t` coordinates whose
last two are at most `2^31 - 19`. -/
theorem hash_defined (x y z : Int) (hx : 0 ≤ x) (hy : 0 ≤ y) (hz : 0 ≤ z)
    (hy' : y ≤ 2 ^ 31 - 19) (hz' : z ≤ 2 ^ 31 - 19) :
    ∃ h, h < 16 ∧ PerlinNoise3D.hash x y z = some h := by
  obtain ⟨a, rfl⟩ := Int.eq_ofNat_of_zero_le hx
  obtain ⟨b, rfl⟩ := Int.eq_ofNat_of_zero_le hy
  obtain ⟨c, rfl⟩ := Int.eq_ofNat_of_zero_le hz
  exact ⟨hashNat a b c, hashNat_lt a b c, hash_ofNat a b c (by omega) (by omega)⟩

theorem hashTermNat_period (offset len x y z : Nat) (hdvd : len ∣ 739024) :
    hashTermNat offset len (x + 739024) y z = hashTermNat offset len x y z ∧
    hashTermNat offset len x (y + 739024) z = hashTermNat offset len x y z ∧
    hashTermNat offset len x y (z + 739024) = hashTermNat offset len x y z := by
  obtain ⟨k, hk⟩ := hdvd
  have key : ∀ a : Nat, (a + 739024) % len = a % len := by
    intro a
    rw [hk, Nat.add_mul_mod_self_left]
  unfold hashTermNat
  refine ⟨?_, ?_, ?_⟩
  · rw [key]
  · rw [← Nat.add_assoc, key]
  · rw [← Nat.add_assoc, key]

theorem hashNat_period (x y z : Nat) :
    hashNat (x + 739024) y z = hashNat x y z ∧
    hashNat x (y + 739024) z = hashNat x y z ∧
    hashNat x y (z + 739024) = hashNat x y z := by
  have p0 := hashTermNat_period 0 11 x y z (by decide)
  have p1 := hashTermNat_period 11 13 x y z (by decide)
  have p2 := hashTermNat_period 24 16 x y z (by decide)
  have p3 := hashTermNat_period 40 17 x y z (by decide)
  have p4 := hashTermNat_period 57 19 x y z (by decide)
  unfold hashNat
  refine ⟨?_, ?_, ?_⟩
  · rw [p0.1, p1.1, p2.1, p3.1, p4.1]
  · rw [p0.2.1, p1.2.1, p2.2.1, p3.2.1, p4.2.1]
  · rw [p0.2.2, p1.2.2, p2.2.2, p3.2.2, p4.2.2]

/-- C20: on non-negative coordinates small enough that no `int32_t` addition overflows, the
hash is defined and has the period 739024 = lcm(11, 13, 16, 17, 19) in each of its three
arguments. -/
theorem hash_period (x y z : Int) (hx : 0 ≤ x) (hy : 0 ≤ y) (hz : 0 ≤ z)
    (hx' : x + 739024 < 2 ^ 31) (hy' : y + 739024 ≤ 2 ^ 31 - 19)
    (hz' : z + 739024 ≤ 2 ^ 31 - 19) :
    Nat.lcm 11 (Nat.lcm 13 (Nat.lcm 16 (Nat.lcm 17 19))) = 739024 ∧
    (∃ h, h < 16 ∧ PerlinNoise3D.hash x y z = some h) ∧
    PerlinNoise3D.hash (x + 739024) y z = PerlinNoise3D.hash x y z ∧
    PerlinNoise3D.hash x (y + 739024) z = PerlinNoise3D.hash x y z ∧
    PerlinNoise3D.hash x y (z + 739024) = PerlinNoise3D.hash x y z := by
  obtain ⟨a, rfl⟩ := Int.eq_ofNat_of_zero_le hx
  obtain ⟨b, rfl⟩ := Int.eq_ofNat_of_zero_le hy
  obtain ⟨c, rfl⟩ := Int.eq_ofNat_of_zero_le hz
  have hp := hashNat_period a b c
  have e := hash_ofNat a b c (by omega) (by omega)
  have ca : ((a : Int) + 739024) = ((a + 739024 : Nat) : Int) := by push_cast; rfl
  have cb : ((b : Int) + 739024) = ((b + 739024 : Nat) : Int) := by push_cast; rfl
  have cc : ((c : Int) + 739024) = ((c + 739024 : Nat) : Int) := by push_cast; rfl
  refine ⟨by decide, ⟨hashNat a b c, hashNat_lt a b c, e⟩, ?_, ?_, ?_⟩
  · rw [ca, hash_ofNat (a + 739024) b c (by omega) (by omega), e, hp.1]
  · rw [cb, hash_ofNat a (b + 739024) c (by omega) (by omega), e, hp.2.1]
  · rw [cc, hash_ofNat a b (c + 739024) (by omega) (by omega), e, hp.2.2]

theorem hash_period_witness :
    Nat.lcm 11 (Nat.lcm 13 (Nat.lcm 16 (Nat.lcm 17 19))) = 739024 ∧
    (∃ h, h < 16 ∧ PerlinNoise3D.hash 14 89 43 = some h) ∧
    PerlinNoise3D.hash (14 + 739024) 89 43 = PerlinNoise3D.hash 14 89 43 ∧
    PerlinNoise3D.hash 14 (89 + 739024) 43 = PerlinNoise3D.hash 14 89 43 ∧
    PerlinNoise3D.hash 14 89 (43 + 739024) = PerlinNoise3D.hash 14 89 43 :=
  hash_period 14 89 43 (by decide) (by decide) (by decide) (by decide) (by decide) (by decide)

/-! ## Perlin noise: the wrapping of coordinates and lattice indices -/

theorem floor_of_wrap (k : Int) (w x r : ℚ) (hr : 0 < r) (hw : w = x - k * r) (h0 : 0 ≤ w)
    (h1 : w < r) : ⌊x / r⌋ = k := by
  have hx : x / r = w / r + k := by
    rw [hw]; field_simp
  rw [Int.floor_eq_iff, hx]
  have h2 : 0 ≤ w / r := div_nonneg h0 hr.le
  have h3 : w / r < 1 := (div_lt_one hr).2 h1
  constructor <;> linarith

/-- The wrapped coordinate is the remainder of the floored division by the period. -/
theorem wrapCoord_eq_floor (rep : Nat) (hrep : 0 < rep) (x : ℚ) :
    wrapCoord rep x = x - ⌊x / rep⌋ * rep := by
  have hr : (0 : ℚ) < rep := by exact_mod_cast hrep
  have hmul : x / rep * rep = x := div_mul_cancel₀ x hr.ne'
  unfold wrapCoord fmodf truncQ
  rw [if_pos hrep]
  by_cases hq : 0 ≤ x / rep
  · rw [if_pos hq]
    have h2 : (⌊x / rep⌋ : ℚ) * rep ≤ x := by
      have := mul_le_mul_of_nonneg_right (Int.floor_le (x / rep)) hr.le
      linarith
    rw [if_neg (by linarith)]
  · rw [if_neg hq]
    have h2 : x ≤ (⌈x / rep⌉ : ℚ) * rep := by
      have := mul_le_mul_of_nonneg_right (Int.le_ceil (x / rep)) hr.le
      linarith
    have h3 : (⌈x / rep⌉ : ℚ) * rep < x + rep := by
      have := mul_lt_mul_of_pos_right (Int.ceil_lt_add_one (x / rep)) hr
      linarith
    by_cases hm : x - ⌈x / rep⌉ * rep < 0
    · rw [if_pos hm]
      have hk := floor_of_wrap (⌈x / rep⌉ - 1) (x - ⌈x / rep⌉ * rep + rep) x rep hr
        (by push_cast; ring) (by linarith) (by linarith)
      rw [hk]; push_cast; ring
    · rw [if_neg hm]
      have hk := floor_of_wrap ⌈x / rep⌉ (x - ⌈x / rep⌉ * rep) x rep hr rfl (by linarith)
        (by linarith)
      rw [hk]

theorem wrapCoord_nonneg (rep : Nat) (hrep : 0 < rep) (x : ℚ) : 0 ≤ wrapCoord rep x := by
  have hr : (0 : ℚ) < rep := by exact_mod_cast hrep
  have hmul : x / rep * rep = x := div_mul_cancel₀ x hr.ne'
  rw [wrapCoord_eq_floor rep hrep]
  have := mul_le_mul_of_nonneg_right (Int.floor_le (x / rep)) hr.le
  linarith

theorem wrapCoord_lt (rep : Nat) (hrep : 0 < rep) (x : ℚ) : wrapCoord rep x < rep := by
  have hr : (0 : ℚ) < rep := by exact_mod_cast hrep
  have hmul : x / rep * rep = x := div_mul_cancel₀ x hr.ne'
  rw [wrapCoord_eq_floor rep hrep]
  have := mul_lt_mul_of_pos_right (Int.lt_floor_add_one (x / rep)) hr
  linarith

theorem wrapCoord_add_period (rep : Nat) (hrep : 0 < rep) (x : ℚ) :
    wrapCoord rep (x + rep) = wrapCoord rep x := by
  have hr : (0 : ℚ) < rep := by exact_mod_cast hrep
  rw [wrapCoord_eq_floor rep hrep, wrapCoord_eq_floor rep hrep]
  have : (x + rep) / rep = x / rep + 1 := by field_simp
  rw [this, Int.floor_add_one]
  push_cast; ring

theorem floorToInt32_range (x : ℚ) (xi : Int) (h : floorToInt32 x = some xi) :
    xi = ⌊x⌋ ∧ -2 ^ 31 ≤ xi ∧ xi < 2 ^ 31 := by
  unfold floorToInt32 at h
  split at h
  · rename_i hc
    cases h
    exact ⟨rfl, hc.1, hc.2⟩
  · cases h

theorem floorToInt32_of_bounds (x : ℚ) (b : Int) (h0 : 0 ≤ x) (h1 : x < b) (hb : b ≤ 2 ^ 31) :
    floorToInt32 x = some ⌊x⌋ ∧ 0 ≤ ⌊x⌋ ∧ ⌊x⌋ ≤ b - 1 := by
  have f0 : 0 ≤ ⌊x⌋ := Int.floor_nonneg.2 h0
  have f1 : ⌊x⌋ < b := Int.floor_lt.2 h1
  refine ⟨?_, f0, by omega⟩
  unfold floorToInt32
  rw [if_pos ⟨by omega, by omega⟩]

theorem inc_eq (rep : Nat) (num : Int) :
    inc rep num = (addInt num 1).bind fun n =>
      if rep > 0 then
        some (if (n % 2 ^ 32) % (rep : Int) < 2 ^ 31 then (n % 2 ^ 32) % (rep : Int)
          else (n % 2 ^ 32) % (rep : Int) - 2 ^ 32)
      else some n := rfl

theorem addInt_some (a b r : Int) (h : addInt a b = some r) :
    r = a + b ∧ -2 ^ 31 ≤ a + b ∧ a + b < 2 ^ 31 := by
  unfold addInt at h
  split at h
  · rename_i hc
    cases h
    exact ⟨rfl, hc.1, hc.2⟩
  · cases h

theorem addInt_of_bounds (a b : Int) (h0 : -2 ^ 31 ≤ a + b) (h1 : a + b < 2 ^ 31) :
    addInt a b = some (a + b) := by
  unfold addInt
  rw [if_pos ⟨h0, h1⟩]

/-- Whenever the increment of a non-negative index under a positive period is defined, it is
the successor modulo the period. -/
theorem inc_some_of_pos (rep : Nat) (hrep : 0 < rep) (num r : Int) (h0 : 0 ≤ num)
    (h : inc rep num = some r) : r = (num + 1) % rep ∧ num + 1 < 2 ^ 31 := by
  rw [inc_eq] at h
  cases hadd : addInt num 1 with
  | none => rw [hadd] at h; cases h
  | some n =>
    obtain ⟨hn, -, hlt⟩ := addInt_some _ _ _ hadd
    rw [hadd, Option.some_bind, if_pos hrep] at h
    have hmod : n % 2 ^ 32 = n := Int.emod_eq_of_lt (by omega) (by omega)
    have hr1 : n % (rep : Int) ≤ n := by
      by_cases hc : n < rep
      · rw [Int.emod_eq_of_lt (by omega) hc]
      · have := Int.emod_lt_of_pos n (show (0 : Int) < rep by omega)
        omega
    rw [hmod, if_pos (by omega)] at h
    cases h
    exact ⟨by rw [hn], by omega⟩

theorem inc_of_pos (rep : Nat) (hrep : 0 < rep) (num : Int) (h0 : 0 ≤ num)
    (h1 : num + 1 < 2 ^ 31) :
    inc rep num = some ((num + 1) % rep) ∧ 0 ≤ (num + 1) % (rep : Int) ∧
      (num + 1) % (rep : Int) ≤ rep - 1 := by
  have hr0 : 0 ≤ (num + 1) % (rep : Int) := Int.emod_nonneg _ (by omega)
  have hr2 := Int.emod_lt_of_pos (num + 1) (show (0 : Int) < rep by omega)
  refine ⟨?_, hr0, by omega⟩
  have hmod : (num + 1) % 2 ^ 32 = num + 1 := Int.emod_eq_of_lt (by omega) (by omega)
  have hr1 : (num + 1) % (rep : Int) ≤ num + 1 := by
    by_cases hc : num + 1 < rep
    · rw [Int.emod_eq_of_lt (by omega) hc]
    · omega
  rw [inc_eq, addInt_of_bounds _ _ (by omega) h1, Option.some_bind, if_pos hrep, hmod,
    if_pos (by omega)]

/-- The noise of a cell is defined when its lattice indices and their increments are
non-negative and at most `2^31 - 19`. -/
theorem evaluateWrapped_defined (rep : Nat) (x y z : ℚ) (xi yi zi xi1 yi1 zi1 : Int)
    (hx : floorToInt32 x = some xi) (hy : floorToInt32 y = some yi)
    (hz : floorToInt32 z = some zi) (hx1 : inc rep xi = some xi1)
    (hy1 : inc rep yi = some yi1) (hz1 : inc rep zi = some zi1)
    (bx : 0 ≤ xi) (by0 : 0 ≤ yi ∧ yi ≤ 2 ^ 31 - 19) (bz : 0 ≤ zi ∧ zi ≤ 2 ^ 31 - 19)
    (bx1 : 0 ≤ xi1) (by1 : 0 ≤ yi1 ∧ yi1 ≤ 2 ^ 31 - 19) (bz1 : 0 ≤ zi1 ∧ zi1 ≤ 2 ^ 31 - 19) :
    ∃ v, PerlinNoise3D.evaluateWrapped rep x y z = some v := by
  obtain ⟨lll, -, e1⟩ := hash_defined xi yi zi bx by0.1 bz.1 by0.2 bz.2
  obtain ⟨ull, -, e2⟩ := hash_defined xi1 yi zi bx1 by0.1 bz.1 by0.2 bz.2
  obtain ⟨lul, -, e3⟩ := hash_defined xi yi1 zi bx by1.1 bz.1 by1.2 bz.2
  obtain ⟨uul, -, e4⟩ := hash_defined xi1 yi1 zi bx1 by1.1 bz.1 by1.2 bz.2
  obtain ⟨llu, -, e5⟩ := hash_defined xi yi zi1 bx by0.1 bz1.1 by0.2 bz1.2
  obtain ⟨ulu, -, e6⟩ := hash_defined xi1 yi zi1 bx1 by0.1 bz1.1 by0.2 bz1.2
  obtain ⟨luu, -, e7⟩ := hash_defined xi yi1 zi1 bx by1.1 bz1.1 by1.2 bz1.2
  obtain ⟨uuu, -, e8⟩ := hash_defined xi1 yi1 zi1 bx1 by1.1 bz1.1 by1.2 bz1.2
  rw [evaluateWrapped_of_cell rep x y z xi yi zi xi1 yi1 zi1 hx hy hz hx1 hy1 hz1, e1, e2, e3,
    e4, e5, e6, e7, e8]
  exact ⟨_, rfl⟩

/-- With a positive period of at most `2^31 - 18` the noise of every wrapped point is
defined. -/
theorem evaluateWrapped_defined_of_pos (rep : Nat) (hrep : 0 < rep)
    (hle : (rep : Int) ≤ 2 ^ 31 - 18) (x y z : ℚ) :
    ∃ v, PerlinNoise3D.evaluateWrapped rep (wrapCoord rep x) (wrapCoord rep y)
      (wrapCoord rep z) = some v := by
  have key : ∀ t : ℚ, ∃ ti ti1 : Int, floorToInt32 (wrapCoord rep t) = some ti ∧
      inc rep ti = some ti1 ∧ 0 ≤ ti ∧ ti ≤ 2 ^ 31 - 19 ∧ 0 ≤ ti1 ∧ ti1 ≤ 2 ^ 31 - 19 := by
    intro t
    have hf := floorToInt32_of_bounds (wrapCoord rep t) rep (wrapCoord_nonneg rep hrep t)
      (by exact_mod_cast wrapCoord_lt rep hrep t) (by omega)
    have hi := inc_of_pos rep hrep ⌊wrapCoord rep t⌋ hf.2.1 (by omega)
    exact ⟨_, _, hf.1, hi.1, hf.2.1, by omega, hi.2.1, by omega⟩
  obtain ⟨xi, xi1, hx, hx1, a1, a2, a3, a4⟩ := key x
  obtain ⟨yi, yi1, hy, hy1, b1, b2, b3, b4⟩ := key y
  obtain ⟨zi, zi1, hz, hz1, c1, c2, c3, c4⟩ := key z
  exact evaluateWrapped_defined rep _ _ _ xi yi zi xi1 yi1 zi1 hx hy hz hx1 hy1 hz1 a1
    ⟨b1, b2⟩ ⟨c1, c2⟩ a3 ⟨b3, b4⟩ ⟨c3, c4⟩

theorem evaluateWrapped_eq (rep : Nat) (x y z : ℚ) :
    PerlinNoise3D.evaluateWrapped rep x y z =
      (floorToInt32 x).bind fun xi =>
      (floorToInt32 y).bind fun yi =>
      (floorToInt32 z).bind fun zi =>
      (inc rep xi).bind fun xi1 =>
      (inc rep yi).bind fun yi1 =>
      (inc rep zi).bind fun zi1 =>
      (PerlinNoise3D.hash xi yi zi).bind fun lll =>
      (PerlinNoise3D.hash xi1 yi zi).bind fun ull =>
      (PerlinNoise3D.hash xi yi1 zi).bind fun lul =>
      (PerlinNoise3D.hash xi1 yi1 zi).bind fun uul =>
      (PerlinNoise3D.hash xi yi zi1).bind fun llu =>
      (PerlinNoise3D.hash xi1 yi zi1).bind fun ulu =>
      (PerlinNoise3D.hash xi yi1 zi1).bind fun luu =>
      (PerlinNoise3D.hash xi1 yi1 zi1).bind fun uuu =>
      some (PerlinNoise3D.blend lll ull lul uul llu ulu luu uuu (x - xi) (y - yi) (z - zi)
        (fade (x - xi)) (fade (y - yi)) (fade (z - zi))) := rfl

/-- Every value of the noise of a cell is a blend of eight corner hashes at the offsets of
the point from its floor. -/
theorem evaluateWrapped_some_blend (rep : Nat) (x y z v : ℚ)
    (h : PerlinNoise3D.evaluateWrapped rep x y z = some v) :
    ∃ lll ull lul uul llu ulu luu uuu : Nat,
      v = PerlinNoise3D.blend lll ull lul uul llu ulu luu uuu (x - ⌊x⌋) (y - ⌊y⌋) (z - ⌊z⌋)
        (fade (x - ⌊x⌋)) (fade (y - ⌊y⌋)) (fade (z - ⌊z⌋)) := by
  rw [evaluateWrapped_eq] at h
  obtain ⟨xi, hx, h⟩ := Option.bind_eq_some.1 h
  obtain ⟨yi, hy, h⟩ := Option.bind_eq_some.1 h
  obtain ⟨zi, hz, h⟩ := Option.bind_eq_some.1 h
  obtain ⟨xi1, -, h⟩ := Option.bind_eq_some.1 h
  obtain ⟨yi1, -, h⟩ := Option.bind_eq_some.1 h
  obtain ⟨zi1, -, h⟩ := Option.bind_eq_some.1 h
  obtain ⟨lll, -, h⟩ := Option.bind_eq_some.1 h
  obtain ⟨ull, -, h⟩ := Option.bind_eq_some.1 h
  obtain ⟨lul, -, h⟩ := Option.bind_eq_some.1 h
  obtain ⟨uul, -, h⟩ := Option.bind_eq_some.1 h
  obtain ⟨llu, -, h⟩ := Option.bind_eq_some.1 h
  obtain ⟨ulu, -, h⟩ := Option.bind_eq_some.1 h
  obtain ⟨luu, -, h⟩ := Option.bind_eq_some.1 h
  obtain ⟨uuu, -, h⟩ := Option.bind_eq_some.1 h
  rw [(floorToInt32_range _ _ hx).1, (floorToInt32_range _ _ hy).1,
    (floorToInt32_range _ _ hz).1] at h
  exact ⟨lll, ull, lul, uul, llu, ulu, luu, uuu, (Option.some.inj h).symm⟩

theorem evaluate_eq (g : PerlinNoise3D) (p : float3) (frequency : ℚ) :
    g.evaluate p frequency =
      (toUInt32 (g.m_repeat * frequency)).bind fun rep =>
        PerlinNoise3D.evaluateWrapped rep (wrapCoord rep (frequency * p.x))
          (wrapCoord rep (frequency * p.y)) (wrapCoord rep (frequency * p.z)) := rfl

theorem truncQ_intCast (R : Int) : truncQ (R : ℚ) = R := by
  unfold truncQ
  split
  · exact Int.floor_intCast R
  · exact Int.ceil_intCast R

/-- A positive result of the conversion to `uint32_t` is the floor of the converted value. -/
theorem toUInt32_pos (q : ℚ) (P : Nat) (h : toUInt32 q = some P) (hP : 0 < P) :
    (P : Int) = ⌊q⌋ ∧ (P : Int) < 2 ^ 32 := by
  unfold toUInt32 at h
  split at h
  · rename_i hc
    have hP' : P = (truncQ q).toNat := (Option.some.inj h).symm
    have hcast : (P : Int) = truncQ q := by rw [hP']; exact Int.toNat_of_nonneg hc.1
    refine ⟨?_, by omega⟩
    rw [hcast]
    unfold truncQ
    split
    · rfl
    · rename_i hq
      exfalso
      have hq' : q ≤ 0 := le_of_lt (not_le.1 hq)
      have h1 : ⌈q⌉ ≤ 0 := Int.ceil_le.2 (by exact_mod_cast hq')
      have h2 : truncQ q = ⌈q⌉ := by unfold truncQ; rw [if_neg hq]
      omega
  · cases h

theorem toUInt32_intCast (R : Int) (h0 : 0 ≤ R) (h1 : R < 2 ^ 32) :
    toUInt32 ((R : ℚ) * 1) = some R.toNat := by
  unfold toUInt32
  rw [mul_one, truncQ_intCast, if_pos ⟨h0, h1⟩]

/-- In exact arithmetic the noise is periodic: with a period `R > 0` and frequency 1 the
value at `(x + R, y, z)` equals the value at `(x, y, z)` for every point, negative coordinates
included; and it is defined at every point when `R` is at most `2^31 - 18`.  The binary32
arithmetic of the source does not keep this property (`evaluateF32`). -/
theorem evaluate_periodic_exact (R : Int) (hR : 0 < R) (x y z : ℚ) :
    PerlinNoise3D.evaluate { m_repeat := R } { x := x + R, y := y, z := z } 1 =
      PerlinNoise3D.evaluate { m_repeat := R } { x := x, y := y, z := z } 1 ∧
    (R ≤ 2 ^ 31 - 18 →
      ∃ v, PerlinNoise3D.evaluate { m_repeat := R } { x := x, y := y, z := z } 1 = some v) := by
  have hcast : ((R.toNat : Nat) : ℚ) = (R : ℚ) := by
    have : ((R.toNat : Nat) : Int) = R := Int.toNat_of_nonneg hR.le
    exact_mod_cast this
  have hpos : 0 < R.toNat := by omega
  constructor
  · by_cases hlt : R < 2 ^ 32
    · have hu := toUInt32_intCast R hR.le hlt
      rw [evaluate_eq_wrapped { m_repeat := R } _ 1 _ hu,
        evaluate_eq_wrapped { m_repeat := R } _ 1 _ hu]
      simp only [one_mul]
      rw [← hcast, wrapCoord_add_period _ hpos]
    · have hnone : toUInt32 ((R : ℚ) * 1) = none := by
        unfold toUInt32
        rw [mul_one, truncQ_intCast, if_neg (fun hc => hlt hc.2)]
      rw [evaluate_eq, evaluate_eq]
      simp only [hnone, Option.none_bind]
  · intro hle
    have hu := toUInt32_intCast R hR.le (by omega)
    rw [evaluate_eq_wrapped { m_repeat := R } _ 1 _ hu]
    exact evaluateWrapped_defined_of_pos _ hpos (by omega) _ _ _

/-- In exact arithmetic the wrapping keeps the lattice indices inside the period: when the
conversion `P` of the exact product `repeat * frequency` to `uint32_t` is positive, it is the
floor of the product; every wrapped coordinate lies in `[0, P)`; a lattice index computed
from it lies in `0..P-1`; the increment of an index in `0..P-1` lies in `0..P-1` again, and
the increment of `P-1` is 0.  The binary32 arithmetic of the source does not keep the first
two properties (`wrapCoordF32`, `periodF32`). -/
theorem wrapped_indices_exact (g : PerlinNoise3D) (frequency : ℚ) (P : Nat)
    (hP : toUInt32 (g.m_repeat * frequency) = some P) (hpos : 0 < P) (x : ℚ) :
    (P : Int) = ⌊(g.m_repeat : ℚ) * frequency⌋ ∧
    (0 ≤ wrapCoord P x ∧ wrapCoord P x < P) ∧
    (∀ xi, floorToInt32 (wrapCoord P x) = some xi → 0 ≤ xi ∧ xi ≤ P - 1) ∧
    (∀ num r : Int, 0 ≤ num → num ≤ P - 1 → inc P num = some r → 0 ≤ r ∧ r ≤ P - 1) ∧
    (∀ r : Int, inc P (P - 1) = some r → r = 0) ∧
    ((P : Int) < 2 ^ 31 →
      floorToInt32 (wrapCoord P x) = some ⌊wrapCoord P x⌋ ∧
      (∀ num : Int, 0 ≤ num → num ≤ P - 1 → inc P num = some ((num + 1) % P)) ∧
      inc P (P - 1) = some 0) ∧
    ((P : Int) ≤ 2 ^ 31 - 18 → ∀ p : float3, ∃ v, g.evaluate p frequency = some v) := by
  have h0 := wrapCoord_nonneg P hpos x
  have h1 := wrapCoord_lt P hpos x
  have hPpos : (0 : Int) < P := by omega
  have hself : ((P : Int) - 1 + 1) % (P : Int) = 0 := by
    rw [Int.sub_add_cancel, Int.emod_self]
  refine ⟨(toUInt32_pos _ P hP hpos).1, ⟨h0, h1⟩, ?_, ?_, ?_, ?_, ?_⟩
  · intro xi hxi
    obtain ⟨rfl, -, -⟩ := floorToInt32_range _ _ hxi
    have f0 : 0 ≤ ⌊wrapCoord P x⌋ := Int.floor_nonneg.2 h0
    have f1 : ⌊wrapCoord P x⌋ < (P : Int) := Int.floor_lt.2 (by exact_mod_cast h1)
    exact ⟨f0, by omega⟩
  · intro num r hn0 _ hr
    obtain ⟨rfl, -⟩ := inc_some_of_pos P hpos num r hn0 hr
    have := Int.emod_nonneg (num + 1) (show (P : Int) ≠ 0 by omega)
    have := Int.emod_lt_of_pos (num + 1) hPpos
    exact ⟨by omega, by omega⟩
  · intro r hr
    obtain ⟨rfl, -⟩ := inc_some_of_pos P hpos _ r (by omega) hr
    exact hself
  · intro hlt
    refine ⟨(floorToInt32_of_bounds _ P h0 (by exact_mod_cast h1) (by omega)).1, ?_, ?_⟩
    · intro num hn0 hn1
      exact (inc_of_pos P hpos num hn0 (by omega)).1
    · have := (inc_of_pos P hpos (P - 1) (by omega) (by omega)).1
      rw [hself] at this
      exact this
  · intro hle p
    rw [evaluate_eq_wrapped g p frequency P hP]
    exact evaluateWrapped_defined_of_pos P hpos hle _ _ _

/-! ## Perlin noise: a point where the noise exceeds 1 -/

theorem toUInt32_zero_mul (frequency : ℚ) : toUInt32 (((0 : Int) : ℚ) * frequency) = some 0 := by
  rw [Int.cast_zero, zero_mul]
  unfold toUInt32 truncQ
  rw [if_pos le_rfl, Int.floor_zero]
  rfl

theorem wrapCoord_zero (x : ℚ) : wrapCoord 0 x = x := by
  unfold wrapCoord
  rw [if_neg (lt_irrefl 0)]

/-- With period 0 the noise is the noise of the cell of the scaled point. -/
theorem evaluate_zero_repeat (p : float3) (frequency : ℚ) :
    PerlinNoise3D.evaluate { m_repeat := 0 } p frequency =
      PerlinNoise3D.evaluateWrapped 0 (frequency * p.x) (frequency * p.y) (frequency * p.z) := by
  rw [evaluate_eq_wrapped { m_repeat := 0 } p frequency 0 (toUInt32_zero_mul frequency),
    wrapCoord_zero, wrapCoord_zero, wrapCoord_zero]

theorem floorToInt32_of_floor (x : ℚ) (n : Int) (h : ⌊x⌋ = n) (h0 : -2 ^ 31 ≤ n)
    (h1 : n < 2 ^ 31) : floorToInt32 x = some n := by
  unfold floorToInt32
  rw [h, if_pos ⟨h0, h1⟩]

/-- The noise at `highPoint`, frequency 1 and period 0, is 135581/131072. -/
theorem evaluate_highPoint :
    PerlinNoise3D.evaluate { m_repeat := 0 } highPoint 1 = some (135581 / 131072) := by
  have fx : floorToInt32 (117 / 8) = some 14 :=
    floorToInt32_of_floor _ _ (by rw [Int.floor_eq_iff]; norm_num) (by decide) (by decide)
  have fy : floorToInt32 (179 / 2) = some 89 :=
    floorToInt32_of_floor _ _ (by rw [Int.floor_eq_iff]; norm_num) (by decide) (by decide)
  have fz : floorToInt32 (87 / 2) = some 43 :=
    floorToInt32_of_floor _ _ (by rw [Int.floor_eq_iff]; norm_num) (by decide) (by decide)
  have ix : inc 0 14 = some 15 := by decide
  have iy : inc 0 89 = some 90 := by decide
  have iz : inc 0 43 = some 44 := by decide
  have h1 : PerlinNoise3D.hash 14 89 43 = some 4 := by decide
  have h2 : PerlinNoise3D.hash 15 89 43 = some 8 := by decide
  have h3 : PerlinNoise3D.hash 14 90 43 = some 4 := by decide
  have h4 : PerlinNoise3D.hash 15 90 43 = some 9 := by decide
  have h5 : PerlinNoise3D.hash 14 89 44 = some 6 := by decide
  have h6 : PerlinNoise3D.hash 15 89 44 = some 10 := by decide
  have h7 : PerlinNoise3D.hash 14 90 44 = some 2 := by decide
  have h8 : PerlinNoise3D.hash 15 90 44 = some 11 := by decide
  have g4 : ∀ a b c : ℚ, PerlinNoise3D.gradient 4 a b c = a + c := fun _ _ _ => rfl
  have g8 : ∀ a b c : ℚ, PerlinNoise3D.gradient 8 a b c = b + c := fun _ _ _ => rfl
  have g9 : ∀ a b c : ℚ, PerlinNoise3D.gradient 9 a b c = -b + c := fun _ _ _ => rfl
  have g6 : ∀ a b c : ℚ, PerlinNoise3D.gradient 6 a b c = a - c := fun _ _ _ => rfl
  have g10 : ∀ a b c : ℚ, PerlinNoise3D.gradient 10 a b c = b - c := fun _ _ _ => rfl
  have g2 : ∀ a b c : ℚ, PerlinNoise3D.gradient 2 a b c = a - b := fun _ _ _ => rfl
  have g11 : ∀ a b c : ℚ, PerlinNoise3D.gradient 11 a b c = -b - c := fun _ _ _ => rfl
  rw [evaluate_zero_repeat]
  show PerlinNoise3D.evaluateWrapped 0 (1 * (117 / 8)) (1 * (179 / 2)) (1 * (87 / 2)) = _
  rw [one_mul, one_mul, one_mul,
    evaluateWrapped_of_cell 0 _ _ _ 14 89 43 15 90 44 fx fy fz ix iy iz, h1, h2, h3, h4, h5, h6,
    h7, h8]
  simp only [Option.some_bind, Option.some.injEq, PerlinNoise3D.blend, g4, g8, g9, g6, g10, g2,
    g11, lerp, fade]
  norm_num

/-! ## Multi-octave Perlin noise -/

theorem sumAmplitudes_eq (persistence : ℚ) (n : Nat) (sum amplitude : ℚ) :
    sumAmplitudes persistence n sum amplitude =
      sum + ∑ i in Finset.range n, amplitude * persistence ^ i := by
  induction n generalizing sum amplitude with
  | zero => simp [sumAmplitudes]
  | succ n ih =>
    rw [sumAmplitudes, ih, Finset.sum_range_succ', pow_zero, mul_one]
    have : ∀ i, amplitude * persistence * persistence ^ i = amplitude * persistence ^ (i + 1) :=
      fun i => by rw [pow_succ]; ring
    simp only [this]
    ring

theorem evaluateLoop_eq (m : MultiOctavePerlinNoise3D) (p : float3) (n : Nat)
    (total frequency amplitude : ℚ) (vals : Nat → ℚ)
    (h : ∀ i, i < n → m.m_primaryNoiseGen.evaluate p (frequency * m.m_frequencyMultiplier ^ i) =
      some (vals i)) :
    MultiOctavePerlinNoise3D.evaluateLoop m p n total frequency amplitude =
      some (total + ∑ i in Finset.range n, vals i * (amplitude * m.m_persistence ^ i)) := by
  induction n generalizing total frequency amplitude vals with
  | zero => simp [MultiOctavePerlinNoise3D.evaluateLoop]
  | succ n ih =>
    have h0 := h 0 (Nat.succ_pos n)
    rw [pow_zero, mul_one] at h0
    have hstep : ∀ i, i < n → m.m_primaryNoiseGen.evaluate p
        (frequency * m.m_frequencyMultiplier * m.m_frequencyMultiplier ^ i) =
        some (vals (i + 1)) := by
      intro i hi
      have := h (i + 1) (Nat.succ_lt_succ hi)
      rw [pow_succ] at this
      rw [← this]
      congr 1
      ring
    unfold MultiOctavePerlinNoise3D.evaluateLoop
    rw [h0]
    show MultiOctavePerlinNoise3D.evaluateLoop m p n _ _ _ = _
    rw [ih _ _ _ (fun i => vals (i + 1)) hstep, Finset.sum_range_succ' _ n, pow_zero, mul_one]
    have : ∀ i, vals (i + 1) * (amplitude * m.m_persistence * m.m_persistence ^ i) =
        vals (i + 1) * (amplitude * m.m_persistence ^ (i + 1)) :=
      fun i => by rw [pow_succ]; ring
    simp only [this]
    congr 1
    ring

theorem evaluateLoop_some (m : MultiOctavePerlinNoise3D) (p : float3) (n : Nat)
    (total frequency amplitude t : ℚ)
    (h : MultiOctavePerlinNoise3D.evaluateLoop m p n total frequency amplitude = some t) :
    ∃ vals : Nat → ℚ, ∀ i, i < n →
      m.m_primaryNoiseGen.evaluate p (frequency * m.m_frequencyMultiplier ^ i) =
        some (vals i) := by
  induction n generalizing total frequency amplitude with
  | zero => exact ⟨fun _ => 0, fun i hi => absurd hi (Nat.not_lt_zero i)⟩
  | succ n ih =>
    unfold MultiOctavePerlinNoise3D.evaluateLoop at h
    cases h0 : m.m_primaryNoiseGen.evaluate p frequency with
    | none => rw [h0] at h; cases h
    | some value =>
      rw [h0] at h
      obtain ⟨vals, hv⟩ := ih _ _ _ h
      refine ⟨fun i => if i = 0 then value else vals (i - 1), ?_⟩
      intro i hi
      cases i with
      | zero => rw [pow_zero, mul_one, h0]; rfl
      | succ j =>
        have := hv j (Nat.lt_of_succ_lt_succ hi)
        rw [pow_succ]
        rw [show frequency * (m.m_frequencyMultiplier ^ j * m.m_frequencyMultiplier) =
          frequency * m.m_frequencyMultiplier * m.m_frequencyMultiplier ^ j by ring, this]
        rfl

theorem multi_evaluate_eq_loop (m : MultiOctavePerlinNoise3D) (p : float3)
    (hn : m.m_numOctaves < 2 ^ 31) :
    m.evaluate p = MultiOctavePerlinNoise3D.evaluateLoop m p m.m_numOctaves 0
      m.m_initialFrequency m.m_initialAmplitude := by
  unfold MultiOctavePerlinNoise3D.evaluate
  rw [if_pos hn]

/-- C14: for a number of octaves below `2^31`, the multi-octave noise at `p` is the sum over
the octaves `i < numOctaves` of the noise at frequency
`initialFrequency * frequencyMultiplier^i` times the amplitude
`initialAmplitude * persistence^i`: it is that sum whenever the octave noises are defined,
every result it has is such a sum, and it is 0 when there is no octave. -/
theorem multi_evaluate_sum (m : MultiOctavePerlinNoise3D) (p : float3)
    (hn : m.m_numOctaves < 2 ^ 31) :
    (∀ vals : Nat → ℚ,
      (∀ i, i < m.m_numOctaves → m.m_primaryNoiseGen.evaluate p
        (m.m_initialFrequency * m.m_frequencyMultiplier ^ i) = some (vals i)) →
      m.evaluate p = some (∑ i in Finset.range m.m_numOctaves,
        vals i * (m.m_initialAmplitude * m.m_persistence ^ i))) ∧
    (∀ t, m.evaluate p = some t →
      ∃ vals : Nat → ℚ,
        (∀ i, i < m.m_numOctaves → m.m_primaryNoiseGen.evaluate p
          (m.m_initialFrequency * m.m_frequencyMultiplier ^ i) = some (vals i)) ∧
        t = ∑ i in Finset.range m.m_numOctaves,
          vals i * (m.m_initialAmplitude * m.m_persistence ^ i)) ∧
    (m.m_numOctaves = 0 → m.evaluate p = some 0) := by
  have hsum : ∀ vals : Nat → ℚ,
      (∀ i, i < m.m_numOctaves → m.m_primaryNoiseGen.evaluate p
        (m.m_initialFrequency * m.m_frequencyMultiplier ^ i) = some (vals i)) →
      m.evaluate p = some (∑ i in Finset.range m.m_numOctaves,
        vals i * (m.m_initialAmplitude * m.m_persistence ^ i)) := by
    intro vals h
    rw [multi_evaluate_eq_loop m p hn, evaluateLoop_eq m p _ 0 _ _ vals h, zero_add]
  refine ⟨hsum, ?_, ?_⟩
  · intro t ht
    rw [multi_evaluate_eq_loop m p hn] at ht
    obtain ⟨vals, hv⟩ := evaluateLoop_some m p _ _ _ _ t ht
    refine ⟨vals, hv, ?_⟩
    have := evaluateLoop_eq m p _ 0 _ m.m_initialAmplitude vals hv
    rw [ht, zero_add] at this
    exact Option.some.inj this
  · intro h0
    have := hsum (fun _ => 0) (fun i hi => by rw [h0] at hi; exact absurd hi (Nat.not_lt_zero i))
    rw [this, h0]
    rfl

theorem multi_evaluate_sum_witness :
    (∀ i, i < 1 → PerlinNoise3D.evaluate { m_repeat := 0 } highPoint (1 * (2 : ℚ) ^ i) =
      some ((fun _ => (135581 / 131072 : ℚ)) i)) ∧
    MultiOctavePerlinNoise3D.evaluate
      { m_primaryNoiseGen := { m_repeat := 0 }, m_numOctaves := 1, m_initialFrequency := 1,
        m_initialAmplitude := 3, m_frequencyMultiplier := 2, m_persistence := 1 / 2,
        m_supValue := 3 } highPoint =
      some (∑ i in Finset.range 1, (fun _ => (135581 / 131072 : ℚ)) i * (3 * (1 / 2 : ℚ) ^ i)) := by
  have h : ∀ i, i < 1 → PerlinNoise3D.evaluate { m_repeat := 0 } highPoint (1 * (2 : ℚ) ^ i) =
      some ((fun _ => (135581 / 131072 : ℚ)) i) := by
    intro i hi
    have hi0 : i = 0 := by omega
    rw [hi0, pow_zero, mul_one]
    exact evaluate_highPoint
  exact ⟨h, (multi_evaluate_sum
    { m_primaryNoiseGen := { m_repeat := 0 }, m_numOctaves := 1, m_initialFrequency := 1,
      m_initialAmplitude := 3, m_frequencyMultiplier := 2, m_persistence := 1 / 2,
      m_supValue := 3 } highPoint (by decide)).1 _ h⟩

theorem ctor_sup_eq (n : Nat) (f0 S mult pers : ℚ) (rep : Nat) (hn : n < 2 ^ 31) :
    MultiOctavePerlinNoise3D.ctor n f0 S true mult pers rep =
      if ∑ i in Finset.range n, pers ^ i = 0 then none
      else some
        { m_primaryNoiseGen :=
            { m_repeat := if (rep : Int) < 2 ^ 31 then (rep : Int) else (rep : Int) - 2 ^ 32 }
          m_numOctaves := n
          m_initialFrequency := f0
          m_initialAmplitude := S / ∑ i in Finset.range n, pers ^ i
          m_frequencyMultiplier := mult
          m_persistence := pers
          m_supValue := S } := by
  have h : sumAmplitudes pers n 0 1 = ∑ i in Finset.range n, pers ^ i := by
    rw [sumAmplitudes_eq, zero_add]
    simp only [one_mul]
  unfold MultiOctavePerlinNoise3D.ctor
  simp only [if_true, h, hn]

theorem ctor_amplitude_eq (n : Nat) (f0 A mult pers : ℚ) (rep : Nat) (hn : n < 2 ^ 31) :
    MultiOctavePerlinNoise3D.ctor n f0 A false mult pers rep =
      some
        { m_primaryNoiseGen :=
            { m_repeat := if (rep : Int) < 2 ^ 31 then (rep : Int) else (rep : Int) - 2 ^ 32 }
          m_numOctaves := n
          m_initialFrequency := f0
          m_initialAmplitude := A
          m_frequencyMultiplier := mult
          m_persistence := pers
          m_supValue := ∑ i in Finset.range n, A * pers ^ i } := by
  have h : sumAmplitudes pers n 0 A = ∑ i in Finset.range n, A * pers ^ i := by
    rw [sumAmplitudes_eq, zero_add]
  unfold MultiOctavePerlinNoise3D.ctor
  simp only [h, hn, Bool.false_eq_true, if_false, if_true]

/-- C15: with `supSpecified = true`, a target `S`, a number `n` of octaves below `2^31` and a
nonzero sum of `persistence^i` over the `n` octaves (which needs `n >= 1`), the constructor
stores the supremum `S` and the octave-0 amplitude `S` divided by that sum, so the `n` octave
amplitudes `initialAmplitude * persistence^i` that `evaluate` uses add up to exactly `S`. -/
theorem ctor_sup_specified (n : Nat) (f0 S mult pers : ℚ) (rep : Nat) (hn : n < 2 ^ 31)
    (hsum : ∑ i in Finset.range n, pers ^ i ≠ 0) :
    1 ≤ n ∧
    ∃ m, MultiOctavePerlinNoise3D.ctor n f0 S true mult pers rep = some m ∧
      m.m_numOctaves = n ∧ m.m_persistence = pers ∧ m.m_initialFrequency = f0 ∧
      m.m_frequencyMultiplier = mult ∧
      m.m_supValue = S ∧
      m.m_initialAmplitude = S / ∑ i in Finset.range n, pers ^ i ∧
      ∑ i in Finset.range m.m_numOctaves, m.m_initialAmplitude * m.m_persistence ^ i = S := by
  constructor
  · rcases Nat.eq_zero_or_pos n with h0 | h0
    · exfalso
      apply hsum
      rw [h0, Finset.sum_range_zero]
    · exact h0
  · rw [ctor_sup_eq n f0 S mult pers rep hn, if_neg hsum]
    refine ⟨_, rfl, rfl, rfl, rfl, rfl, rfl, rfl, ?_⟩
    show ∑ i in Finset.range n, S / (∑ i in Finset.range n, pers ^ i) * pers ^ i = S
    rw [← Finset.mul_sum, div_mul_cancel₀ S hsum]

theorem ctor_sup_specified_witness :
    (3 < 2 ^ 31 ∧ ∑ i in Finset.range 3, (1 / 2 : ℚ) ^ i ≠ 0) ∧
    (1 ≤ 3 ∧
    ∃ m, MultiOctavePerlinNoise3D.ctor 3 1 5 true 2 (1 / 2) 0 = some m ∧
      m.m_numOctaves = 3 ∧ m.m_persistence = 1 / 2 ∧ m.m_initialFrequency = 1 ∧
      m.m_frequencyMultiplier = 2 ∧
      m.m_supValue = 5 ∧
      m.m_initialAmplitude = 5 / ∑ i in Finset.range 3, (1 / 2 : ℚ) ^ i ∧
      ∑ i in Finset.range m.m_numOctaves, m.m_initialAmplitude * m.m_persistence ^ i = 5) := by
  have h : ∑ i in Finset.range 3, (1 / 2 : ℚ) ^ i ≠ 0 := by
    norm_num [Finset.sum_range_succ]
  exact ⟨⟨by decide, h⟩, ctor_sup_specified 3 1 5 2 (1 / 2) 0 (by decide) h⟩

/-- C16: with `supSpecified = false`, an amplitude `A` and a number `n` of octaves below `2^31`
the constructor succeeds, the octave-0 amplitude is `A` and the stored supremum is the finite
sum of `A * persistence^i` over `i < n`: it is 0 for no octave, and for two octaves, `A = 1`
and persistence 1/2 it is 3/2, not the value 2 of `A / (1 - persistence)`.  The path with
`supSpecified = true` divides by the sum of `persistence^i` over the same `i < n`. -/
theorem ctor_amplitude_specified (n : Nat) (f0 A S mult pers : ℚ) (rep : Nat)
    (hn : n < 2 ^ 31) :
    (∃ m, MultiOctavePerlinNoise3D.ctor n f0 A false mult pers rep = some m ∧
      m.m_numOctaves = n ∧ m.m_persistence = pers ∧ m.m_initialFrequency = f0 ∧
      m.m_frequencyMultiplier = mult ∧
      m.m_initialAmplitude = A ∧
      m.m_supValue = ∑ i in Finset.range n, A * pers ^ i) ∧
    (MultiOctavePerlinNoise3D.ctor 0 f0 A false mult pers rep).map (fun m => m.m_supValue) =
      some 0 ∧
    ((MultiOctavePerlinNoise3D.ctor 2 f0 1 false mult (1 / 2) rep).map (fun m => m.m_supValue) =
      some (3 / 2) ∧ (3 / 2 : ℚ) ≠ 1 / (1 - 1 / 2)) ∧
    (MultiOctavePerlinNoise3D.ctor n f0 S true mult pers rep).map
        (fun m => (m.m_numOctaves, m.m_initialAmplitude, m.m_supValue)) =
      if ∑ i in Finset.range n, pers ^ i = 0 then none
      else some (n, S / ∑ i in Finset.range n, pers ^ i, S) := by
  refine ⟨?_, ?_, ⟨?_, by norm_num⟩, ?_⟩
  · rw [ctor_amplitude_eq n f0 A mult pers rep hn]
    exact ⟨_, rfl, rfl, rfl, rfl, rfl, rfl, rfl⟩
  · rw [ctor_amplitude_eq 0 f0 A mult pers rep (by decide)]
    simp
  · rw [ctor_amplitude_eq 2 f0 1 mult (1 / 2) rep (by decide)]
    norm_num [Finset.sum_range_succ]
  · rw [ctor_sup_eq n f0 S mult pers rep hn]
    split <;> rfl

theorem ctor_amplitude_specified_witness :
    3 < 2 ^ 31 ∧
    ((∃ m, MultiOctavePerlinNoise3D.ctor 3 1 4 false 2 (1 / 2) 0 = some m ∧
      m.m_numOctaves = 3 ∧ m.m_persistence = 1 / 2 ∧ m.m_initialFrequency = 1 ∧
      m.m_frequencyMultiplier = 2 ∧
      m.m_initialAmplitude = 4 ∧
      m.m_supValue = ∑ i in Finset.range 3, 4 * (1 / 2 : ℚ) ^ i) ∧
    (MultiOctavePerlinNoise3D.ctor 0 1 4 false 2 (1 / 2) 0).map (fun m => m.m_supValue) =
      some 0 ∧
    ((MultiOctavePerlinNoise3D.ctor 2 1 1 false 2 (1 / 2) 0).map (fun m => m.m_supValue) =
      some (3 / 2) ∧ (3 / 2 : ℚ) ≠ 1 / (1 - 1 / 2)) ∧
    (MultiOctavePerlinNoise3D.ctor 3 1 7 true 2 (1 / 2) 0).map
        (fun m => (m.m_numOctaves, m.m_initialAmplitude, m.m_supValue)) =
      if ∑ i in Finset.range 3, (1 / 2 : ℚ) ^ i = 0 then none
      else some (3, 7 / ∑ i in Finset.range 3, (1 / 2 : ℚ) ^ i, 7)) :=
  ⟨by decide, ctor_amplitude_specified 3 1 4 7 2 (1 / 2) 0 (by decide)⟩

/-! ## The range of the noise -/

theorem fade_mem (t : ℚ) (h0 : 0 ≤ t) (h1 : t ≤ 1) : 0 ≤ fade t ∧ fade t ≤ 1 := by
  have hq : 0 ≤ t * (t * 6 - 15) + 10 := by nlinarith [sq_nonneg (t - 5 / 4)]
  have ht3 : 0 ≤ t * t * t := mul_nonneg (mul_nonneg h0 h0) h0
  have hs : 0 ≤ 1 - t := by linarith
  have hs3 : 0 ≤ (1 - t) * (1 - t) * (1 - t) := mul_nonneg (mul_nonneg hs hs) hs
  have hr : 0 ≤ 6 * t * t + 3 * t + 1 := by nlinarith [mul_nonneg h0 h0]
  have hid : 1 - fade t = (1 - t) * (1 - t) * (1 - t) * (6 * t * t + 3 * t + 1) := by
    unfold fade; ring
  have hpos := mul_nonneg hs3 hr
  unfold fade at hid ⊢
  exact ⟨mul_nonneg ht3 hq, by linarith⟩

theorem lerp_abs_le (v0 v1 t B : ℚ) (h0 : |v0| ≤ B) (h1 : |v1| ≤ B) (ht0 : 0 ≤ t)
    (ht1 : t ≤ 1) : |lerp v0 v1 t| ≤ B := by
  have hs : 0 ≤ 1 - t := by linarith
  rw [abs_le] at h0 h1 ⊢
  unfold lerp
  have a1 := mul_le_mul_of_nonneg_right h0.1 hs
  have a2 := mul_le_mul_of_nonneg_right h0.2 hs
  have b1 := mul_le_mul_of_nonneg_right h1.1 ht0
  have b2 := mul_le_mul_of_nonneg_right h1.2 ht0
  constructor <;> nlinarith

theorem gradient_abs_le (h : Nat) (a b c : ℚ) (ha : |a| ≤ 1) (hb : |b| ≤ 1) (hc : |c| ≤ 1) :
    |PerlinNoise3D.gradient h a b c| ≤ 2 := by
  have hand : h &&& 0xF = h % 16 := Nat.and_pow_two_sub_one_eq_mod h 4
  have hlt : h % 16 < 16 := Nat.mod_lt _ (by decide)
  rw [abs_le] at ha hb hc ⊢
  unfold PerlinNoise3D.gradient
  rw [hand]
  generalize h % 16 = k at hlt
  interval_cases k <;> simp only [] <;> constructor <;> linarith [ha.1, ha.2, hb.1, hb.2, hc.1, hc.2]

theorem blend_abs_le (lll ull lul uul llu ulu luu uuu : Nat) (xu yu zu u v w : ℚ)
    (hx : 0 ≤ xu ∧ xu ≤ 1) (hy : 0 ≤ yu ∧ yu ≤ 1) (hz : 0 ≤ zu ∧ zu ≤ 1)
    (hu : 0 ≤ u ∧ u ≤ 1) (hv : 0 ≤ v ∧ v ≤ 1) (hw : 0 ≤ w ∧ w ≤ 1) :
    |PerlinNoise3D.blend lll ull lul uul llu ulu luu uuu xu yu zu u v w| ≤ 2 := by
  have ax : |xu| ≤ 1 := abs_le.2 ⟨by linarith [hx.1], hx.2⟩
  have ay : |yu| ≤ 1 := abs_le.2 ⟨by linarith [hy.1], hy.2⟩
  have az : |zu| ≤ 1 := abs_le.2 ⟨by linarith [hz.1], hz.2⟩
  have bx : |xu - 1| ≤ 1 := abs_le.2 ⟨by linarith [hx.1], by linarith [hx.2]⟩
  have by1 : |yu - 1| ≤ 1 := abs_le.2 ⟨by linarith [hy.1], by linarith [hy.2]⟩
  have bz : |zu - 1| ≤ 1 := abs_le.2 ⟨by linarith [hz.1], by linarith [hz.2]⟩
  unfold PerlinNoise3D.blend
  exact lerp_abs_le _ _ _ _
    (lerp_abs_le _ _ _ _
      (lerp_abs_le _ _ _ _ (gradient_abs_le _ _ _ _ ax ay az) (gradient_abs_le _ _ _ _ bx ay az)
        hu.1 hu.2)
      (lerp_abs_le _ _ _ _ (gradient_abs_le _ _ _ _ ax by1 az)
        (gradient_abs_le _ _ _ _ bx by1 az) hu.1 hu.2) hv.1 hv.2)
    (lerp_abs_le _ _ _ _
      (lerp_abs_le _ _ _ _ (gradient_abs_le _ _ _ _ ax ay bz) (gradient_abs_le _ _ _ _ bx ay bz)
        hu.1 hu.2)
      (lerp_abs_le _ _ _ _ (gradient_abs_le _ _ _ _ ax by1 bz)
        (gradient_abs_le _ _ _ _ bx by1 bz) hu.1 hu.2) hv.1 hv.2)
    hw.1 hw.2

theorem offset_mem (x : ℚ) : 0 ≤ x - ⌊x⌋ ∧ x - ⌊x⌋ ≤ 1 :=
  ⟨by linarith [Int.floor_le x], by linarith [Int.lt_floor_add_one x]⟩

/-- Every value of the noise is at most 2 in absolute value. -/
theorem evaluate_abs_le_two (g : PerlinNoise3D) (p : float3) (frequency v : ℚ)
    (h : g.evaluate p frequency = some v) : |v| ≤ 2 := by
  rw [evaluate_eq] at h
  obtain ⟨rep, -, h⟩ := Option.bind_eq_some.1 h
  obtain ⟨lll, ull, lul, uul, llu, ulu, luu, uuu, rfl⟩ := evaluateWrapped_some_blend _ _ _ _ _ h
  exact blend_abs_le _ _ _ _ _ _ _ _ _ _ _ _ _ _ (offset_mem _) (offset_mem _) (offset_mem _)
    (fade_mem _ (offset_mem _).1 (offset_mem _).2) (fade_mem _ (offset_mem _).1 (offset_mem _).2)
    (fade_mem _ (offset_mem _).1 (offset_mem _).2)

theorem one_le_sum_pow (n : Nat) (pers : ℚ) (hn : 1 ≤ n) (hp : 0 ≤ pers) :
    1 ≤ ∑ i in Finset.range n, pers ^ i := by
  obtain ⟨k, rfl⟩ : ∃ k, n = k + 1 := ⟨n - 1, by omega⟩
  rw [Finset.sum_range_succ', pow_zero]
  have : 0 ≤ ∑ i in Finset.range k, pers ^ (i + 1) :=
    Finset.sum_nonneg (fun i _ => pow_nonneg hp _)
  linarith

/-- A sum of octave values bounded by `B`, with non-negative amplitudes, is bounded by `B`
times the sum of the amplitudes. -/
theorem weighted_sum_bound (n : Nat) (vals amp : Nat → ℚ) (B : ℚ)
    (hamp : ∀ i, i < n → 0 ≤ amp i) (hval : ∀ i, i < n → |vals i| ≤ B) :
    |∑ i in Finset.range n, vals i * amp i| ≤ B * ∑ i in Finset.range n, amp i := by
  refine le_trans (Finset.abs_sum_le_sum_abs _ _) ?_
  rw [Finset.mul_sum]
  apply Finset.sum_le_sum
  intro i hi
  have hi' := Finset.mem_range.1 hi
  rw [abs_mul, abs_of_nonneg (hamp i hi')]
  exact mul_le_mul_of_nonneg_right (hval i hi') (hamp i hi')

/-- The absolute value of a multi-octave value is at most `B` times the sum of the octave
amplitudes, when these are non-negative and `B` bounds the octave noises. -/
theorem multi_evaluate_abs_le (m : MultiOctavePerlinNoise3D) (p : float3) (v B : ℚ)
    (hn : m.m_numOctaves < 2 ^ 31) (hv : m.evaluate p = some v) (ha : 0 ≤ m.m_initialAmplitude) (hp : 0 ≤ m.m_persistence)
    (hB : ∀ i, i < m.m_numOctaves → ∀ w, m.m_primaryNoiseGen.evaluate p
      (m.m_initialFrequency * m.m_frequencyMultiplier ^ i) = some w → |w| ≤ B) :
    |v| ≤ B * ∑ i in Finset.range m.m_numOctaves, m.m_initialAmplitude * m.m_persistence ^ i := by
  rw [multi_evaluate_eq_loop m p hn] at hv
  obtain ⟨vals, hvals⟩ := evaluateLoop_some m p _ _ _ _ v hv
  have hv' := evaluateLoop_eq m p _ 0 _ m.m_initialAmplitude vals hvals
  have hveq : v = ∑ i in Finset.range m.m_numOctaves,
      vals i * (m.m_initialAmplitude * m.m_persistence ^ i) := by
    have h2 := hv.symm.trans hv'
    rw [zero_add] at h2
    exact Option.some.inj h2
  rw [hveq]
  exact weighted_sum_bound m.m_numOctaves vals
    (fun i => m.m_initialAmplitude * m.m_persistence ^ i) B
    (fun i _ => mul_nonneg ha (pow_nonneg hp i)) (fun i hi => hB i hi _ (hvals i hi))

/-- C17, refuted as worded: the multi-octave noise built with one octave and the target
supremum 1 has the value 135581/131072 at `highPoint`, which is outside `[-1, 1]`. -/
theorem multi_evaluate_exceeds_sup :
    ∃ m v, MultiOctavePerlinNoise3D.ctor 1 1 1 true 2 (1 / 2) 0 = some m ∧
      m.evaluate highPoint = some v ∧ v = 135581 / 131072 ∧ ¬ (-1 ≤ v ∧ v ≤ 1) := by
  have hs : ∑ i in Finset.range 1, (1 / 2 : ℚ) ^ i = 1 := by
    rw [Finset.sum_range_one, pow_zero]
  have hc : MultiOctavePerlinNoise3D.ctor 1 1 1 true 2 (1 / 2) 0 =
      some { m_primaryNoiseGen := { m_repeat := 0 }, m_numOctaves := 1, m_initialFrequency := 1,
             m_initialAmplitude := 1, m_frequencyMultiplier := 2, m_persistence := 1 / 2,
             m_supValue := 1 } := by
    rw [ctor_sup_eq 1 1 1 2 (1 / 2) 0 (by decide), hs, if_neg one_ne_zero, div_one]
    rfl
  refine ⟨_, 135581 / 131072, hc, ?_, rfl, fun hle => absurd hle.2 (by norm_num)⟩
  rw [multi_evaluate_eq_loop _ _ (by decide)]
  show MultiOctavePerlinNoise3D.evaluateLoop _ highPoint 1 0 1 1 = some (135581 / 131072)
  unfold MultiOctavePerlinNoise3D.evaluateLoop
  show (PerlinNoise3D.evaluate { m_repeat := 0 } highPoint 1).bind _ = _
  rw [evaluate_highPoint, Option.some_bind]
  unfold MultiOctavePerlinNoise3D.evaluateLoop
  norm_num

/-- C17, amended: with `supSpecified = true`, at least one octave and fewer than `2^31`, a
target `S >= 0` and a persistence `>= 0` the constructor succeeds, and every value of `evaluate(p)` lies in
`[-B*S, B*S]` for every bound `B` of the absolute value of the octave noises at `p`; the
bound `B = 2` always holds, so the value lies in `[-2*S, 2*S]`. -/
theorem multi_evaluate_bounded (n : Nat) (f0 S mult pers : ℚ) (rep : Nat) (hn : 1 ≤ n)
    (hn' : n < 2 ^ 31) (hS : 0 ≤ S) (hp : 0 ≤ pers) :
    ∃ m, MultiOctavePerlinNoise3D.ctor n f0 S true mult pers rep = some m ∧
      ∀ p v, m.evaluate p = some v →
        (-(2 * S) ≤ v ∧ v ≤ 2 * S) ∧
        ∀ B : ℚ,
          (∀ i, i < n → ∀ w, m.m_primaryNoiseGen.evaluate p (f0 * mult ^ i) = some w →
            |w| ≤ B) →
          -(B * S) ≤ v ∧ v ≤ B * S := by
  have hsum1 := one_le_sum_pow n pers hn hp
  have hsum : ∑ i in Finset.range n, pers ^ i ≠ 0 := by linarith
  rw [ctor_sup_eq n f0 S mult pers rep hn', if_neg hsum]
  refine ⟨_, rfl, ?_⟩
  intro p v hv
  have ha0 : 0 ≤ S / ∑ i in Finset.range n, pers ^ i := div_nonneg hS (by linarith)
  have hamps : ∑ i in Finset.range n, S / (∑ i in Finset.range n, pers ^ i) * pers ^ i = S := by
    rw [← Finset.mul_sum, div_mul_cancel₀ S hsum]
  have key : ∀ B : ℚ,
      (∀ i, i < n → ∀ w, PerlinNoise3D.evaluate
        { m_repeat := if (rep : Int) < 2 ^ 31 then (rep : Int) else (rep : Int) - 2 ^ 32 } p
        (f0 * mult ^ i) = some w → |w| ≤ B) → -(B * S) ≤ v ∧ v ≤ B * S := by
    intro B hB
    have := multi_evaluate_abs_le _ p v B hn' hv ha0 hp hB
    rw [hamps] at this
    exact abs_le.1 this
  exact ⟨key 2 (fun i _ w hw => evaluate_abs_le_two _ p _ w hw), fun B hB => key B hB⟩

theorem multi_evaluate_bounded_witness :
    ∃ m, MultiOctavePerlinNoise3D.ctor 2 1 3 true 2 (1 / 2) 0 = some m ∧
      ∀ p v, m.evaluate p = some v →
        (-(2 * 3) ≤ v ∧ v ≤ 2 * 3) ∧
        ∀ B : ℚ,
          (∀ i, i < 2 → ∀ w, m.m_primaryNoiseGen.evaluate p (1 * 2 ^ i) = some w →
            |w| ≤ B) →
          -(B * 3) ≤ v ∧ v ≤ B * 3 :=
  multi_evaluate_bounded 2 1 3 2 (1 / 2) 0 (by decide) (by decide) (by norm_num) (by norm_num)

/-! ## Further properties of the noise, the bit helpers and the move assignment -/

/-- C21: the fade function `t*t*t*(t*(t*6 - 15) + 10)` is the quintic
`6t^5 - 15t^4 + 10t^3` for every `t`, with `fade(0) = 0` and `fade(1) = 1`. -/
theorem fade_quintic (t : ℚ) :
    fade t = 6 * t ^ 5 - 15 * t ^ 4 + 10 * t ^ 3 ∧ fade 0 = 0 ∧ fade 1 = 1 := by
  refine ⟨?_, ?_, ?_⟩
  · unfold fade; ring
  · unfold fade; norm_num
  · unfold fade; norm_num

theorem nthSetBitLoop_negative (widths : List Nat) (value : Nat) (n : Int) (idx : Nat)
    (hn : n < 0) (hv : value ≠ 0) (hw : widths ≠ []) :
    nthSetBitLoop widths value n idx = idx := by
  induction widths with
  | nil => exact absurd rfl hw
  | cons width rest ih =>
    have hcount : ¬ (n ≥ ((popcnt (value &&& ((1 <<< width) - 1)) : Nat) : Int)) := by
      have : (0 : Int) ≤ ((popcnt (value &&& ((1 <<< width) - 1)) : Nat) : Int) :=
        Int.ofNat_nonneg _
      omega
    unfold nthSetBitLoop
    rw [if_neg hv]
    simp only [hcount, if_false]
    cases rest with
    | nil => rfl
    | cons w r => exact ih (List.cons_ne_nil w r)

/-- C23: for every negative `n` the function `nthSetBit(value, n)` returns 0 when `value` is
nonzero, whether or not bit 0 of `value` is set, and `0xFFFFFFFF` when `value` is 0; for
example `nthSetBit(2, -1) = 0` although bit 0 of 2 is clear. -/
theorem nthSetBit_negative (value : Nat) (n : Int) (hn : n < 0) :
    (value ≠ 0 → nthSetBit value n = 0) ∧
    nthSetBit 0 n = 0xFFFFFFFF ∧
    nthSetBit 2 (-1) = 0 ∧ Nat.testBit 2 0 = false ∧ Nat.testBit 2 (nthSetBit 2 (-1)) = false := by
  have hpop : ∀ v : Nat, ¬ (n ≥ ((popcnt v : Nat) : Int)) := by
    intro v
    have : (0 : Int) ≤ ((popcnt v : Nat) : Int) := Int.ofNat_nonneg _
    omega
  refine ⟨?_, ?_, by decide, by decide, by decide⟩
  · intro hv
    unfold nthSetBit
    rw [if_neg (hpop value)]
    exact nthSetBitLoop_negative _ value n 0 hn hv (by decide)
  · unfold nthSetBit
    rw [if_neg (hpop 0)]
    rfl

theorem nthSetBit_negative_witness :
    ((-3 : Int) < 0 ∧ (6 : Nat) ≠ 0) ∧
    nthSetBit 6 (-3) = 0 ∧ Nat.testBit 6 0 = false ∧
    nthSetBit 0 (-3) = 0xFFFFFFFF ∧
    nthSetBit 2 (-1) = 0 ∧ Nat.testBit 2 0 = false :=
  ⟨⟨by decide, by decide⟩, (nthSetBit_negative 6 (-3) (by decide)).1 (by decide), by decide,
    (nthSetBit_negative 6 (-3) (by decide)).2.1, (nthSetBit_negative 6 (-3) (by decide)).2.2.1,
    by decide⟩

/-- C24: the divisor `tempSupValue` of the `supSpecified = true` path is the finite sum of
`persistence^i` over `i < numOctaves`; it is at least 1 when `numOctaves >= 1` and
`persistence >= 0`, and then the constructor succeeds for a count below `2^31`; it is exactly
0 when `numOctaves = 0`, and then the division has no result. -/
theorem tempSupValue_sum (n : Nat) (f0 S mult pers : ℚ) (rep : Nat) :
    sumAmplitudes pers n 0 1 = ∑ i in Finset.range n, pers ^ i ∧
    (1 ≤ n → 0 ≤ pers → 1 ≤ sumAmplitudes pers n 0 1 ∧ sumAmplitudes pers n 0 1 ≠ 0) ∧
    (1 ≤ n → n < 2 ^ 31 → 0 ≤ pers →
      ∃ m, MultiOctavePerlinNoise3D.ctor n f0 S true mult pers rep = some m) ∧
    sumAmplitudes pers 0 0 1 = 0 ∧
    MultiOctavePerlinNoise3D.ctor 0 f0 S true mult pers rep = none := by
  have h : ∀ k, sumAmplitudes pers k 0 1 = ∑ i in Finset.range k, pers ^ i := by
    intro k
    rw [sumAmplitudes_eq, zero_add]
    simp only [one_mul]
  refine ⟨h n, ?_, ?_, rfl, ?_⟩
  · intro hn hp
    have := one_le_sum_pow n pers hn hp
    rw [h n]
    exact ⟨this, by linarith⟩
  · intro hn hn' hp
    have := one_le_sum_pow n pers hn hp
    rw [ctor_sup_eq n f0 S mult pers rep hn', if_neg (by linarith)]
    exact ⟨_, rfl⟩
  · rw [ctor_sup_eq 0 f0 S mult pers rep (by decide), Finset.sum_range_zero, if_pos rfl]

theorem tempSupValue_sum_witness :
    (1 ≤ 3 ∧ 3 < 2 ^ 31 ∧ (0 : ℚ) ≤ 1 / 2) ∧
    sumAmplitudes (1 / 2) 3 0 1 = ∑ i in Finset.range 3, (1 / 2 : ℚ) ^ i ∧
    (1 ≤ sumAmplitudes (1 / 2) 3 0 1 ∧ sumAmplitudes (1 / 2) 3 0 1 ≠ 0) ∧
    (∃ m, MultiOctavePerlinNoise3D.ctor 3 1 5 true 2 (1 / 2) 0 = some m) ∧
    sumAmplitudes (1 / 2) 0 0 1 = 0 ∧
    MultiOctavePerlinNoise3D.ctor 0 1 5 true 2 (1 / 2) 0 = none := by
  have h := tempSupValue_sum 3 1 5 2 (1 / 2) 0
  have hp : (0 : ℚ) ≤ 1 / 2 := by norm_num
  exact ⟨⟨by decide, by decide, hp⟩, h.1, h.2.1 (by decide) hp,
    h.2.2.1 (by decide) (by decide) hp, h.2.2.2.1, h.2.2.2.2⟩

namespace SlotFinder

/-- C25: the move assignment nulls only the five array pointers of its source: the three
counts of the source keep their values.  So a moved-from finder with at least one leaf bin
(as every initialized finder has) is not equal to a default-constructed one, whose counts are
0, and `reset()` on it has no result: it fills a nonzero number of words through a null
array. -/
theorem moveAssign_source_counts (finalize : SlotFinder → SlotFinder) (self inst : SlotFinder)
    (hlow : 0 < inst.m_numLowestFlagBins) (hlow' : inst.m_numLowestFlagBins < u32)
    (htot : inst.m_numTotalCompiledFlagBins < u32) :
    ((moveAssign finalize self inst).2.m_numLayers = inst.m_numLayers ∧
      (moveAssign finalize self inst).2.m_numLowestFlagBins = inst.m_numLowestFlagBins ∧
      (moveAssign finalize self inst).2.m_numTotalCompiledFlagBins =
        inst.m_numTotalCompiledFlagBins) ∧
    ((moveAssign finalize self inst).2.m_flagBins = none ∧
      (moveAssign finalize self inst).2.m_offsetsToOR_AND = none ∧
      (moveAssign finalize self inst).2.m_numUsedFlagsUnderBinList = none ∧
      (moveAssign finalize self inst).2.m_offsetsToNumUsedFlags = none ∧
      (moveAssign finalize self inst).2.m_numFlagsInLayerList = none) ∧
    (ctor.m_numLayers = 0 ∧ ctor.m_numLowestFlagBins = 0 ∧
      ctor.m_numTotalCompiledFlagBins = 0) ∧
    (moveAssign finalize self inst).2 ≠ ctor ∧
    ((inst.m_numLowestFlagBins + inst.m_numTotalCompiledFlagBins) % u32 ≠ 0 ∨
      (inst.m_numLowestFlagBins + inst.m_numTotalCompiledFlagBins / 2) % u32 ≠ 0) ∧
    (moveAssign finalize self inst).2.reset = none := by
  have hfill : (inst.m_numLowestFlagBins + inst.m_numTotalCompiledFlagBins) % u32 ≠ 0 ∨
      (inst.m_numLowestFlagBins + inst.m_numTotalCompiledFlagBins / 2) % u32 ≠ 0 := by
    unfold u32 at *
    omega
  refine ⟨⟨rfl, rfl, rfl⟩, ⟨rfl, rfl, rfl, rfl, rfl⟩, ⟨rfl, rfl, rfl⟩, ?_, hfill, ?_⟩
  · intro h
    have h2 : (moveAssign finalize self inst).2.m_numLowestFlagBins = ctor.m_numLowestFlagBins := by
      rw [h]
    have h3 : inst.m_numLowestFlagBins = 0 := h2
    omega
  · have e1 : (moveAssign finalize self inst).2.m_flagBins = none := rfl
    have e2 : (moveAssign finalize self inst).2.m_numUsedFlagsUnderBinList = none := rfl
    have e3 : (moveAssign finalize self inst).2.m_numLowestFlagBins =
        inst.m_numLowestFlagBins := rfl
    have e4 : (moveAssign finalize self inst).2.m_numTotalCompiledFlagBins =
        inst.m_numTotalCompiledFlagBins := rfl
    unfold reset
    rw [e1, e2, e3, e4]
    unfold fillZero
    by_cases h1 : (inst.m_numLowestFlagBins + inst.m_numTotalCompiledFlagBins) % u32 = 0
    · have h2 : (inst.m_numLowestFlagBins + inst.m_numTotalCompiledFlagBins / 2) % u32 ≠ 0 := by
        rcases hfill with h | h
        · exact absurd h1 h
        · exact h
      simp only [h1, h2, if_true, if_false]
    · simp only [h1, if_false]

theorem moveAssign_source_counts_witness :
    0 < sampleFinder.m_numLowestFlagBins ∧
    (moveAssign id ctor sampleFinder).2.m_numLowestFlagBins = sampleFinder.m_numLowestFlagBins ∧
    (moveAssign id ctor sampleFinder).2 ≠ ctor ∧
    (moveAssign id ctor sampleFinder).2.reset = none := by
  have h := moveAssign_source_counts id ctor sampleFinder (by decide) (by decide) (by decide)
  exact ⟨by decide, h.1.2.1, h.2.2.2.1, h.2.2.2.2.2⟩

end SlotFinder

theorem hashTermIndices_eq (offset len x y z : Int) :
    hashTermIndices offset len x y z =
      (tableAt (offset + Int.tmod x len)).bind fun a =>
      (addInt (a : Int) y).bind fun ay =>
      (tableAt (offset + Int.tmod ay len)).bind fun b =>
      (addInt (b : Int) z).bind fun bz =>
        some (offset + Int.tmod x len, offset + Int.tmod ay len, offset + Int.tmod bz len) :=
  rfl

/-- On non-negative arguments without overflow the three reads of one line of the hash are
inside the sub-table of the line, and the line returns the entry at the last index. -/
theorem hashTermIndices_bounds (offset len x y z : Nat) (hlen : 0 < len)
    (hoff : offset + len ≤ 76) (hy : y ≤ 2147483629) (hz : z ≤ 2147483629) :
    ∃ i0 i1 i2 : Int,
      hashTermIndices (offset : Int) (len : Int) (x : Int) (y : Int) (z : Int) =
        some (i0, i1, i2) ∧
      ((offset : Int) ≤ i0 ∧ i0 ≤ offset + len - 1) ∧
      ((offset : Int) ≤ i1 ∧ i1 ≤ offset + len - 1) ∧
      ((offset : Int) ≤ i2 ∧ i2 ≤ offset + len - 1) ∧
      (∃ a b c, tableAt i0 = some a ∧ tableAt i1 = some b ∧ tableAt i2 = some c ∧
        hashTerm (offset : Int) (len : Int) (x : Int) (y : Int) (z : Int) = some c) := by
  have h1 := Nat.mod_lt x hlen
  have ha := tableAt_ofNat (offset + x % len) (by omega)
  have h2 := Nat.mod_lt (PermutationTable.getD (offset + x % len) 0 + y) hlen
  have hb := tableAt_ofNat
    (offset + (PermutationTable.getD (offset + x % len) 0 + y) % len) (by omega)
  have h3 := Nat.mod_lt (PermutationTable.getD
      (offset + (PermutationTable.getD (offset + x % len) 0 + y) % len) 0 + z) hlen
  have hc := tableAt_ofNat (offset + (PermutationTable.getD
      (offset + (PermutationTable.getD (offset + x % len) 0 + y) % len) 0 + z) % len) (by omega)
  refine ⟨_, _, _, ?_, ?_, ?_, ?_, ⟨_, _, _, ha.1, hb.1, hc.1, ?_⟩⟩
  · rw [hashTermIndices_eq, tmod_ofNat_add, ha.1, Option.some_bind,
      addInt_ofNat _ _ (by have := ha.2; omega), Option.some_bind, tmod_ofNat_add, hb.1,
      Option.some_bind, addInt_ofNat _ _ (by have := hb.2; omega), Option.some_bind,
      tmod_ofNat_add]
  · omega
  · omega
  · omega
  · exact hashTerm_ofNat offset len x y z hlen hoff hy hz

/-- C22: for coordinates `0 <= x, y, z` with `y, z <= 2^31 - 1 - 18` each of the five lines
of the hash makes its three reads inside its own sub-table, at indices from `offset` to
`offset + len - 1` for the pairs (0, 11), (11, 13), (24, 16), (40, 17), (57, 19), which lie
inside the table of 76 entries; every read has a result, and the hash is the sum of the five
entries read last, modulo 16. -/
theorem hash_lookups_in_subtable (x y z : Int) (hx : 0 ≤ x) (hy : 0 ≤ y) (hz : 0 ≤ z)
    (hy' : y ≤ 2 ^ 31 - 1 - 18) (hz' : z ≤ 2 ^ 31 - 1 - 18) :
    (∀ ol ∈ hashLines, ∃ i0 i1 i2 : Int,
      hashTermIndices ol.1 ol.2 x y z = some (i0, i1, i2) ∧
      (ol.1 ≤ i0 ∧ i0 ≤ ol.1 + ol.2 - 1) ∧
      (ol.1 ≤ i1 ∧ i1 ≤ ol.1 + ol.2 - 1) ∧
      (ol.1 ≤ i2 ∧ i2 ≤ ol.1 + ol.2 - 1) ∧
      (∃ a b c, tableAt i0 = some a ∧ tableAt i1 = some b ∧ tableAt i2 = some c ∧
        hashTerm ol.1 ol.2 x y z = some c)) ∧
    (∀ ol ∈ hashLines, 0 ≤ ol.1 ∧ ol.1 + ol.2 - 1 < 76) ∧
    PerlinNoise3D.hash x y z =
      some ((hashLines.map (fun ol => (hashTerm ol.1 ol.2 x y z).getD 0)).sum % 16) := by
  obtain ⟨a, rfl⟩ := Int.eq_ofNat_of_zero_le hx
  obtain ⟨b, rfl⟩ := Int.eq_ofNat_of_zero_le hy
  obtain ⟨c, rfl⟩ := Int.eq_ofNat_of_zero_le hz
  have hb : b ≤ 2147483629 := by omega
  have hc : c ≤ 2147483629 := by omega
  have k0 := hashTermIndices_bounds 0 11 a b c (by decide) (by decide) hb hc
  have k1 := hashTermIndices_bounds 11 13 a b c (by decide) (by decide) hb hc
  have k2 := hashTermIndices_bounds 24 16 a b c (by decide) (by decide) hb hc
  have k3 := hashTermIndices_bounds 40 17 a b c (by decide) (by decide) hb hc
  have k4 := hashTermIndices_bounds 57 19 a b c (by decide) (by decide) hb hc
  simp only [Nat.cast_ofNat, Nat.cast_zero] at k0 k1 k2 k3 k4
  refine ⟨?_, by decide, ?_⟩
  · intro ol hol
    simp only [hashLines, List.mem_cons, List.mem_singleton, List.not_mem_nil, or_false] at hol
    rcases hol with rfl | rfl | rfl | rfl | rfl
    · exact k0
    · exact k1
    · exact k2
    · exact k3
    · exact k4
  · have e0 := hashTerm_ofNat 0 11 a b c (by decide) (by decide) hb hc
    have e1 := hashTerm_ofNat 11 13 a b c (by decide) (by decide) hb hc
    have e2 := hashTerm_ofNat 24 16 a b c (by decide) (by decide) hb hc
    have e3 := hashTerm_ofNat 40 17 a b c (by decide) (by decide) hb hc
    have e4 := hashTerm_ofNat 57 19 a b c (by decide) (by decide) hb hc
    simp only [Nat.cast_ofNat, Nat.cast_zero] at e0 e1 e2 e3 e4
    rw [hash_ofNat a b c hb hc]
    simp only [hashLines, List.map_cons, List.map_nil, e0, e1, e2, e3, e4, Option.getD_some,
      List.sum_cons, List.sum_nil, hashNat, Option.some.injEq]
    omega

theorem hash_lookups_in_subtable_witness :
    (∀ ol ∈ hashLines, ∃ i0 i1 i2 : Int,
      hashTermIndices ol.1 ol.2 14 89 43 = some (i0, i1, i2) ∧
      (ol.1 ≤ i0 ∧ i0 ≤ ol.1 + ol.2 - 1) ∧
      (ol.1 ≤ i1 ∧ i1 ≤ ol.1 + ol.2 - 1) ∧
      (ol.1 ≤ i2 ∧ i2 ≤ ol.1 + ol.2 - 1) ∧
      (∃ a b c, tableAt i0 = some a ∧ tableAt i1 = some b ∧ tableAt i2 = some c ∧
        hashTerm ol.1 ol.2 14 89 43 = some c)) ∧
    (∀ ol ∈ hashLines, 0 ≤ ol.1 ∧ ol.1 + ol.2 - 1 < 76) ∧
    PerlinNoise3D.hash 14 89 43 =
      some ((hashLines.map (fun ol => (hashTerm ol.1 ol.2 14 89 43).getD 0)).sum % 16) :=
  hash_lookups_in_subtable 14 89 43 (by decide) (by decide) (by decide) (by decide) (by decide)

/-- C26: the two parameterizations are inverse to each other.  For a count `n` below `2^31`
with a nonzero sum of `persistence^i` over `i < n` (so `n >= 1`), the object built from an
amplitude `A` has a supremum from which the other path builds the same object again, with
octave-0 amplitude `A`; and the object built from a supremum `S` has an octave-0 amplitude
from which the first path builds the same object again, with supremum `S`.  Equal objects
evaluate identically at every point. -/
theorem ctor_paths_inverse (n : Nat) (f0 A S mult pers : ℚ) (rep : Nat) (hn : n < 2 ^ 31)
    (hsum : ∑ i in Finset.range n, pers ^ i ≠ 0) :
    1 ≤ n ∧
    (∃ m1 m2, MultiOctavePerlinNoise3D.ctor n f0 A false mult pers rep = some m1 ∧
      MultiOctavePerlinNoise3D.ctor n f0 m1.m_supValue true mult pers rep = some m2 ∧
      m2.m_initialAmplitude = A ∧ m2.m_supValue = m1.m_supValue ∧ m2 = m1 ∧
      ∀ p, m2.evaluate p = m1.evaluate p) ∧
    (∃ m3 m4, MultiOctavePerlinNoise3D.ctor n f0 S true mult pers rep = some m3 ∧
      MultiOctavePerlinNoise3D.ctor n f0 m3.m_initialAmplitude false mult pers rep = some m4 ∧
      m4.m_supValue = S ∧ m4.m_initialAmplitude = m3.m_initialAmplitude ∧ m4 = m3 ∧
      ∀ p, m4.evaluate p = m3.evaluate p) := by
  have hA : (∑ i in Finset.range n, A * pers ^ i) / (∑ i in Finset.range n, pers ^ i) = A := by
    rw [← Finset.mul_sum, mul_div_assoc, div_self hsum, mul_one]
  have hS : ∑ i in Finset.range n, S / (∑ i in Finset.range n, pers ^ i) * pers ^ i = S := by
    rw [← Finset.mul_sum, div_mul_cancel₀ S hsum]
  refine ⟨?_, ?_, ?_⟩
  · rcases Nat.eq_zero_or_pos n with h0 | h0
    · exfalso
      apply hsum
      rw [h0, Finset.sum_range_zero]
    · exact h0
  · have e1 := ctor_amplitude_eq n f0 A mult pers rep hn
    have e2 : MultiOctavePerlinNoise3D.ctor n f0 (∑ i in Finset.range n, A * pers ^ i) true mult
        pers rep =
        some
          { m_primaryNoiseGen :=
              { m_repeat := if (rep : Int) < 2 ^ 31 then (rep : Int) else (rep : Int) - 2 ^ 32 }
            m_numOctaves := n
            m_initialFrequency := f0
            m_initialAmplitude := A
            m_frequencyMultiplier := mult
            m_persistence := pers
            m_supValue := ∑ i in Finset.range n, A * pers ^ i } := by
      rw [ctor_sup_eq n f0 _ mult pers rep hn, if_neg hsum, hA]
    exact ⟨_, _, e1, e2, rfl, rfl, rfl, fun _ => rfl⟩
  · have e3 : MultiOctavePerlinNoise3D.ctor n f0 S true mult pers rep =
        some
          { m_primaryNoiseGen :=
              { m_repeat := if (rep : Int) < 2 ^ 31 then (rep : Int) else (rep : Int) - 2 ^ 32 }
            m_numOctaves := n
            m_initialFrequency := f0
            m_initialAmplitude := S / ∑ i in Finset.range n, pers ^ i
            m_frequencyMultiplier := mult
            m_persistence := pers
            m_supValue := S } := by
      rw [ctor_sup_eq n f0 S mult pers rep hn, if_neg hsum]
    have e4 : MultiOctavePerlinNoise3D.ctor n f0 (S / ∑ i in Finset.range n, pers ^ i) false mult
        pers rep =
        some
          { m_primaryNoiseGen :=
              { m_repeat := if (rep : Int) < 2 ^ 31 then (rep : Int) else (rep : Int) - 2 ^ 32 }
            m_numOctaves := n
            m_initialFrequency := f0
            m_initialAmplitude := S / ∑ i in Finset.range n, pers ^ i
            m_frequencyMultiplier := mult
            m_persistence := pers
            m_supValue := S } := by
      rw [ctor_amplitude_eq n f0 _ mult pers rep hn, hS]
    exact ⟨_, _, e3, e4, rfl, rfl, rfl, fun _ => rfl⟩

theorem ctor_paths_inverse_witness :
    (3 < 2 ^ 31 ∧ ∑ i in Finset.range 3, (1 / 2 : ℚ) ^ i ≠ 0) ∧
    (1 ≤ 3 ∧
    (∃ m1 m2, MultiOctavePerlinNoise3D.ctor 3 1 4 false 2 (1 / 2) 0 = some m1 ∧
      MultiOctavePerlinNoise3D.ctor 3 1 m1.m_supValue true 2 (1 / 2) 0 = some m2 ∧
      m2.m_initialAmplitude = 4 ∧ m2.m_supValue = m1.m_supValue ∧ m2 = m1 ∧
      ∀ p, m2.evaluate p = m1.evaluate p) ∧
    (∃ m3 m4, MultiOctavePerlinNoise3D.ctor 3 1 7 true 2 (1 / 2) 0 = some m3 ∧
      MultiOctavePerlinNoise3D.ctor 3 1 m3.m_initialAmplitude false 2 (1 / 2) 0 = some m4 ∧
      m4.m_supValue = 7 ∧ m4.m_initialAmplitude = m3.m_initialAmplitude ∧ m4 = m3 ∧
      ∀ p, m4.evaluate p = m3.evaluate p)) := by
  have h : ∑ i in Finset.range 3, (1 / 2 : ℚ) ^ i ≠ 0 := by
    norm_num [Finset.sum_range_succ]
  exact ⟨⟨by decide, h⟩, ctor_paths_inverse 3 1 4 7 2 (1 / 2) 0 (by decide) h⟩

/-- Rounding `s = value + alignment - 1` down to a multiple of the alignment gives the least
multiple of the alignment that is at least `value`. -/
theorem round_down_least (value alignment : Nat) (ha : 1 ≤ alignment) :
    alignment ∣ (value + alignment - 1) / alignment * alignment ∧
    value ≤ (value + alignment - 1) / alignment * alignment ∧
    (value + alignment - 1) / alignment * alignment - value < alignment ∧
    (value + alignment - 1) / alignment * alignment ≤ value + alignment - 1 ∧
    (∀ m, alignment ∣ m → value ≤ m → (value + alignment - 1) / alignment * alignment ≤ m) := by
  have hdm := Nat.div_add_mod (value + alignment - 1) alignment
  have hmod := Nat.mod_lt (value + alignment - 1) (show 0 < alignment by omega)
  rw [Nat.mul_comm] at hdm
  generalize hr : (value + alignment - 1) / alignment * alignment = r at hdm
  generalize (value + alignment - 1) % alignment = t at hdm hmod
  refine ⟨?_, by omega, by omega, by omega, ?_⟩
  · rw [← hr]
    exact Nat.dvd_mul_left _ _
  · rintro m ⟨j, rfl⟩ hm
    by_contra hlt
    have hlt' : alignment * j < alignment * ((value + alignment - 1) / alignment) := by
      rw [Nat.mul_comm alignment ((value + alignment - 1) / alignment), hr]
      omega
    have hj : j < (value + alignment - 1) / alignment := Nat.lt_of_mul_lt_mul_left hlt'
    have h2 : alignment * (j + 1) ≤ alignment * ((value + alignment - 1) / alignment) :=
      Nat.mul_le_mul_left _ hj
    rw [Nat.mul_comm alignment ((value + alignment - 1) / alignment), hr, Nat.mul_add,
      Nat.mul_one] at h2
    omega

/-- C29: for an unsigned value and an alignment of at least 1 for which
`value + alignment - 1` does not overflow, `alignUp(value, alignment)` is the least multiple
of the alignment that is at least `value`: the result minus `value` is below the alignment,
and an aligned value is returned unchanged.  An alignment of 0 is a division by zero and has
no result. -/
theorem alignUp_least_multiple (bits value alignment : Nat) (ha : 1 ≤ alignment)
    (hno : value + alignment - 1 < 2 ^ bits) :
    (∃ r, alignUp bits value alignment = some r ∧
      r = (value + alignment - 1) / alignment * alignment ∧
      alignment ∣ r ∧ value ≤ r ∧ r - value < alignment ∧
      (∀ m, alignment ∣ m → value ≤ m → r ≤ m) ∧
      (alignment ∣ value → r = value)) ∧
    alignUp bits value 0 = none := by
  obtain ⟨h1, h2, h3, h4, h5⟩ := round_down_least value alignment ha
  have hw : 2 ^ bits ≤ 2 ^ max bits 32 := Nat.pow_le_pow_right (by decide) (le_max_left _ _)
  have hsum : ((value + alignment) % 2 ^ max bits 32 + 2 ^ max bits 32 - 1) % 2 ^ max bits 32 =
      value + alignment - 1 := by
    rcases Nat.lt_or_ge (value + alignment) (2 ^ max bits 32) with hlt | hge
    · rw [Nat.mod_eq_of_lt hlt]
      have e : value + alignment + 2 ^ max bits 32 - 1 =
          (value + alignment - 1) + 2 ^ max bits 32 := by omega
      rw [e, Nat.add_mod_right, Nat.mod_eq_of_lt (by omega)]
    · have e : value + alignment = 2 ^ max bits 32 := by omega
      rw [e, Nat.mod_self, Nat.zero_add, Nat.mod_eq_of_lt (by omega)]
  have hne : ¬ alignment = 0 := by omega
  have hval : alignUp bits value alignment =
      some ((value + alignment - 1) / alignment * alignment % 2 ^ max bits 32 % 2 ^ bits) := by
    simp only [alignUp, hne, if_false, hsum]
  generalize (value + alignment - 1) / alignment * alignment = r at h1 h2 h3 h4 h5 hval
  rw [Nat.mod_eq_of_lt (show r < 2 ^ max bits 32 by omega),
    Nat.mod_eq_of_lt (show r < 2 ^ bits by omega)] at hval
  refine ⟨⟨r, hval, rfl, h1, h2, h3, h5, ?_⟩, ?_⟩
  · intro hdvd
    exact Nat.le_antisymm (h5 value hdvd (Nat.le_refl _)) h2
  · unfold alignUp
    rw [if_pos rfl]

theorem alignUp_least_multiple_witness :
    (1 ≤ 128 ∧ 1000 + 128 - 1 < 2 ^ 64) ∧
    ((∃ r, alignUp 64 1000 128 = some r ∧
      r = (1000 + 128 - 1) / 128 * 128 ∧
      128 ∣ r ∧ 1000 ≤ r ∧ r - 1000 < 128 ∧
      (∀ m, 128 ∣ m → 1000 ≤ m → r ≤ m) ∧
      (128 ∣ 1000 → r = 1000)) ∧
    alignUp 64 1000 0 = none) :=
  ⟨⟨by decide, by decide⟩, alignUp_least_multiple 64 1000 128 (by decide) (by decide)⟩

/-- Clearing the lowest `e` bits of a 32-bit word rounds it down to a multiple of `2^e`. -/
theorem and_not_mask (y e : Nat) (hy : y < 2 ^ 32) :
    y &&& ((2 ^ e - 1) ^^^ 0xFFFFFFFF) = y / 2 ^ e * 2 ^ e := by
  apply Nat.eq_of_testBit_eq
  intro i
  have hfull : (0xFFFFFFFF : Nat) = 2 ^ 32 - 1 := by decide
  rw [Nat.testBit_and, Nat.testBit_xor, hfull, Nat.testBit_two_pow_sub_one,
    Nat.testBit_two_pow_sub_one, Nat.mul_comm, Nat.testBit_mul_pow_two,
    ← Nat.shiftRight_eq_div_pow, Nat.testBit_shiftRight]
  by_cases hie : e ≤ i
  · have e1 : e + (i - e) = i := by omega
    rw [e1]
    by_cases hi : i < 32
    · simp [hie, hi, Nat.not_lt.2 hie]
    · have hfalse : y.testBit i = false :=
        Nat.testBit_lt_two_pow (lt_of_lt_of_le hy (Nat.pow_le_pow_right (by decide) (by omega)))
      simp [hfalse]
  · have hlt : i < e := by omega
    by_cases hi : i < 32
    · simp [hie, hi, hlt]
    · have hfalse : y.testBit i = false :=
        Nat.testBit_lt_two_pow (lt_of_lt_of_le hy (Nat.pow_le_pow_right (by decide) (by omega)))
      simp [hfalse, hie]

theorem one_shiftLeft_eq (e : Nat) : 1 <<< e = 2 ^ e := by
  rw [Nat.shiftLeft_eq, Nat.one_mul]

/-- C30: for an unsigned 32-bit `x` and an exponent `e < 31` for which `x + 2^e - 1` does not
overflow, `nextMultiplesForPowOf2(x, e)` is the least multiple of `2^e` that is at least `x`,
the value of `alignUp(x, 2^e)`, and `nextMultiplierForPowOf2(x, e)` is that multiple divided
by `2^e`, the ceiling of `x / 2^e`: the least `k` with `x <= k * 2^e`. -/
theorem nextMultiplesForPowOf2_least (x e : Nat) (he : e < 31)
    (hno : x + 2 ^ e - 1 < 2 ^ 32) :
    (∃ r, nextMultiplesForPowOf2 x e = some r ∧
      r = (x + 2 ^ e - 1) / 2 ^ e * 2 ^ e ∧
      2 ^ e ∣ r ∧ x ≤ r ∧ r - x < 2 ^ e ∧
      (∀ m, 2 ^ e ∣ m → x ≤ m → r ≤ m) ∧
      alignUp 32 x (2 ^ e) = some r) ∧
    (∃ k, nextMultiplierForPowOf2 x e = some k ∧
      k = (x + 2 ^ e - 1) / 2 ^ e ∧
      k = ⌈(x : ℚ) / 2 ^ e⌉₊ ∧
      x ≤ k * 2 ^ e ∧ (∀ j, x ≤ j * 2 ^ e → k ≤ j)) := by
  have hpos : 0 < 2 ^ e := Nat.two_pow_pos e
  have hone : 1 ≤ 2 ^ e := hpos
  obtain ⟨⟨r, hal, hr, hdvd, hle, hlt, hleast, -⟩, -⟩ :=
    alignUp_least_multiple 32 x (2 ^ e) hone hno
  have hmask : x + (2 ^ e - 1) = x + 2 ^ e - 1 := by omega
  have hval : nextMultiplesForPowOf2 x e = some r := by
    unfold nextMultiplesForPowOf2
    rw [if_pos he]
    simp only [one_shiftLeft_eq, u32]
    rw [hmask, Nat.mod_eq_of_lt hno, and_not_mask _ e hno, ← hr]
  have hdiv : r / 2 ^ e = (x + 2 ^ e - 1) / 2 ^ e := by
    rw [hr, Nat.mul_div_cancel _ hpos]
  have hk1 : x ≤ (x + 2 ^ e - 1) / 2 ^ e * 2 ^ e := by rw [← hr]; exact hle
  have hk2 : ∀ j, x ≤ j * 2 ^ e → (x + 2 ^ e - 1) / 2 ^ e ≤ j := by
    intro j hj
    have h1 := hleast (j * 2 ^ e) (Nat.dvd_mul_left _ _) hj
    rw [hr] at h1
    exact Nat.le_of_mul_le_mul_right h1 hpos
  refine ⟨⟨r, hval, hr, hdvd, hle, hlt, hleast, hal⟩,
    ⟨(x + 2 ^ e - 1) / 2 ^ e, ?_, rfl, ?_, hk1, hk2⟩⟩
  · unfold nextMultiplierForPowOf2
    rw [hval, Option.map_some', Nat.shiftRight_eq_div_pow, hdiv]
  · have hq : (0 : ℚ) < 2 ^ e := by positivity
    apply Nat.le_antisymm
    · apply hk2
      have h1 : (x : ℚ) / 2 ^ e ≤ ⌈(x : ℚ) / 2 ^ e⌉₊ := Nat.le_ceil _
      have h2 : (x : ℚ) ≤ (⌈(x : ℚ) / 2 ^ e⌉₊ : ℚ) * 2 ^ e := (div_le_iff₀ hq).1 h1
      exact_mod_cast h2
    · apply Nat.ceil_le.2
      rw [div_le_iff₀ hq]
      exact_mod_cast hk1

theorem nextMultiplesForPowOf2_least_witness :
    (5 < 31 ∧ 40 + 2 ^ 5 - 1 < 2 ^ 32) ∧
    ((∃ r, nextMultiplesForPowOf2 40 5 = some r ∧
      r = (40 + 2 ^ 5 - 1) / 2 ^ 5 * 2 ^ 5 ∧
      2 ^ 5 ∣ r ∧ 40 ≤ r ∧ r - 40 < 2 ^ 5 ∧
      (∀ m, 2 ^ 5 ∣ m → 40 ≤ m → r ≤ m) ∧
      alignUp 32 40 (2 ^ 5) = some r) ∧
    (∃ k, nextMultiplierForPowOf2 40 5 = some k ∧
      k = (40 + 2 ^ 5 - 1) / 2 ^ 5 ∧
      k = ⌈((40 : Nat) : ℚ) / 2 ^ 5⌉₊ ∧
      40 ≤ k * 2 ^ 5 ∧ (∀ j, 40 ≤ j * 2 ^ 5 → k ≤ j))) :=
  ⟨⟨by decide, by decide⟩, nextMultiplesForPowOf2_least 40 5 (by decide) (by decide)⟩

/-- The leading zeros of a word below `2^k`, counted among its lowest `k` bits, and its bit
length add up to `k`. -/
theorem lzcntAux_add_size (k x : Nat) (hx : x < 2 ^ k) : lzcntAux k x + Nat.size x = k := by
  induction k with
  | zero =>
    have h0 : x = 0 := by simpa using hx
    rw [h0, Nat.size_zero]
    rfl
  | succ k ih =>
    unfold lzcntAux
    by_cases hb : x.testBit k = true
    · rw [if_pos hb]
      have hge : 2 ^ k ≤ x := by
        by_contra hlt
        rw [Nat.testBit_lt_two_pow (Nat.lt_of_not_le hlt)] at hb
        exact Bool.false_ne_true hb
      have h1 : k < Nat.size x := Nat.lt_size.2 hge
      have h2 : Nat.size x ≤ k + 1 := Nat.size_le.2 hx
      omega
    · rw [if_neg hb]
      have hlt : x < 2 ^ k := by
        by_contra hge
        apply hb
        rw [Nat.testBit_to_div_mod]
        have hq : x / 2 ^ k = 1 := by
          have h1 : x / 2 ^ k < 2 := by
            rw [Nat.div_lt_iff_lt_mul (Nat.two_pow_pos k)]
            rw [Nat.pow_succ] at hx
            omega
          have h2 : 0 < x / 2 ^ k := Nat.div_pos (Nat.le_of_not_lt hge) (Nat.two_pow_pos k)
          omega
        rw [hq]
        rfl
      have := ih hlt
      omega

theorem lzcnt_eq (x : Nat) (hx : x < 2 ^ 32) : 32 - lzcnt x = Nat.size x := by
  have := lzcntAux_add_size 32 x hx
  unfold lzcnt
  omega

/-- For a 32-bit `x >= 1` the exponent is the bit length of `x - 1`, the ceiling of the
binary logarithm of `x`. -/
theorem nextPowOf2Exponent_eq (x : Nat) (h1 : 1 ≤ x) (hx : x < 2 ^ 32) :
    nextPowOf2Exponent x = Nat.clog 2 x ∧
    (∀ k, nextPowOf2Exponent x ≤ k ↔ x ≤ 2 ^ k) := by
  have hval : nextPowOf2Exponent x = Nat.size (x - 1) := by
    unfold nextPowOf2Exponent u32
    rw [if_neg (by omega)]
    have e : (x + 2 ^ 32 - 1) % 2 ^ 32 = x - 1 := by omega
    rw [e, lzcnt_eq (x - 1) (by omega)]
  have hiff : ∀ k, nextPowOf2Exponent x ≤ k ↔ x ≤ 2 ^ k := by
    intro k
    rw [hval, Nat.size_le]
    have := Nat.two_pow_pos k
    omega
  refine ⟨?_, hiff⟩
  apply Nat.le_antisymm
  · exact (hiff _).2 (Nat.le_pow_clog (by decide) x)
  · exact (Nat.le_pow_iff_clog_le (by decide)).1 ((hiff _).1 (Nat.le_refl _))

/-- C28, refuted as worded: for the 32-bit value `x = 2^31 + 1` the exponent is 32, the shift
`1 << 32` has no result, and no 32-bit value is a power of two that is at least `x`. -/
theorem nextPowerOf2_above_half :
    nextPowOf2Exponent (2 ^ 31 + 1) = 32 ∧
    nextPowerOf2 (2 ^ 31 + 1) = none ∧
    ¬ ∃ r, r < 2 ^ 32 ∧ 2 ^ 31 + 1 ≤ r ∧ ∃ k, r = 2 ^ k := by
  have hexp : nextPowOf2Exponent (2 ^ 31 + 1) = 32 := by
    have h := nextPowOf2Exponent_eq (2 ^ 31 + 1) (by decide) (by decide)
    apply Nat.le_antisymm
    · exact (h.2 32).2 (by decide)
    · by_contra hlt
      have h31 : nextPowOf2Exponent (2 ^ 31 + 1) ≤ 31 := by omega
      have := (h.2 31).1 h31
      omega
  refine ⟨hexp, ?_, ?_⟩
  · unfold nextPowerOf2
    rw [if_neg (by decide), hexp]
    rfl
  · rintro ⟨r, hr, hle, k, rfl⟩
    have hk : k < 32 := (Nat.pow_lt_pow_iff_right (by decide)).1 hr
    have hk' : 2 ^ k ≤ 2 ^ 31 := Nat.pow_le_pow_right (by decide) (by omega)
    omega

/-- C28, amended: `nextPowerOf2(0) = 0`, and for every `x` with `1 <= x <= 2^31` the result
of `nextPowerOf2(x)` is 2 to the power `nextPowOf2Exponent(x)`, the ceiling of the binary
logarithm of `x`: it is a power of two, at least `x`, and at most every power of two that is
at least `x`, as the table in the comment states for its rows. -/
theorem nextPowerOf2_smallest (x : Nat) (h1 : 1 ≤ x) (hx : x ≤ 2 ^ 31) :
    nextPowerOf2 0 = some 0 ∧
    nextPowOf2Exponent x = Nat.clog 2 x ∧
    nextPowerOf2 x = some (2 ^ nextPowOf2Exponent x) ∧
    x ≤ 2 ^ nextPowOf2Exponent x ∧
    (∀ k, x ≤ 2 ^ k → 2 ^ nextPowOf2Exponent x ≤ 2 ^ k) ∧
    [1, 2, 3, 4, 5, 8, 9, 16].map nextPowerOf2 =
      [some 1, some 2, some 4, some 4, some 8, some 8, some 16, some 16] := by
  obtain ⟨hclog, hiff⟩ := nextPowOf2Exponent_eq x h1 (by omega)
  have h31 : nextPowOf2Exponent x ≤ 31 := (hiff 31).2 hx
  refine ⟨rfl, hclog, ?_, (hiff _).1 (Nat.le_refl _), ?_, by decide⟩
  · unfold nextPowerOf2 shiftLeftOne
    rw [if_neg (by omega), if_pos (by omega), one_shiftLeft_eq, u32,
      Nat.mod_eq_of_lt (Nat.pow_lt_pow_right (by decide) (by omega))]
  · intro k hk
    exact Nat.pow_le_pow_right (by decide) ((hiff k).2 hk)

theorem nextPowerOf2_smallest_witness :
    (1 ≤ 1000 ∧ 1000 ≤ 2 ^ 31) ∧
    (nextPowerOf2 0 = some 0 ∧
    nextPowOf2Exponent 1000 = Nat.clog 2 1000 ∧
    nextPowerOf2 1000 = some (2 ^ nextPowOf2Exponent 1000) ∧
    1000 ≤ 2 ^ nextPowOf2Exponent 1000 ∧
    (∀ k, 1000 ≤ 2 ^ k → 2 ^ nextPowOf2Exponent 1000 ≤ 2 ^ k) ∧
    [1, 2, 3, 4, 5, 8, 9, 16].map nextPowerOf2 =
      [some 1, some 2, some 4, some 4, some 8, some 8, some 16, some 16]) :=
  ⟨⟨by decide, by decide⟩, nextPowerOf2_smallest 1000 (by decide) (by decide)⟩

/-! ## The noise in binary32 arithmetic -/

theorem log2Aux_spec (fuel n : Nat) (hn : n ≠ 0) (hf : n ≤ fuel) :
    2 ^ log2Aux fuel n ≤ n ∧ n < 2 ^ (log2Aux fuel n + 1) := by
  induction fuel generalizing n with
  | zero => omega
  | succ fuel ih =>
    unfold log2Aux
    by_cases h2 : n < 2
    · rw [if_pos h2]
      have h1 : n = 1 := by omega
      rw [h1]
      decide
    · rw [if_neg h2]
      have ih' := ih (n / 2) (by omega) (by omega)
      have e1 : 2 ^ (1 + log2Aux fuel (n / 2)) = 2 * 2 ^ log2Aux fuel (n / 2) := by
        rw [Nat.add_comm, Nat.pow_succ, Nat.mul_comm]
      have e2 : 2 ^ (1 + log2Aux fuel (n / 2) + 1) = 2 * 2 ^ (log2Aux fuel (n / 2) + 1) := by
        rw [Nat.pow_succ, e1, Nat.pow_succ]
        ring
      rw [e1, e2]
      omega

/-- The binary exponent brackets a positive rational between two powers of two. -/
theorem floorLog2_spec (a : ℚ) (ha : 0 < a) :
    (2 : ℚ) ^ floorLog2 a ≤ a ∧ a < (2 : ℚ) ^ (floorLog2 a + 1) := by
  have hnum : 0 < a.num := Rat.num_pos.2 ha
  have hden : 0 < a.den := a.den_pos
  have hn0 : a.num.natAbs ≠ 0 := by omega
  obtain ⟨n1, n2⟩ := log2Aux_spec a.num.natAbs a.num.natAbs hn0 (Nat.le_refl _)
  obtain ⟨d1, d2⟩ := log2Aux_spec a.den a.den (by omega) (Nat.le_refl _)
  have hnat : ((a.num.natAbs : Nat) : ℚ) = (a.num : ℚ) := by
    rw [← Int.cast_natCast, Int.natAbs_of_nonneg hnum.le]
  have ha_eq : a = (a.num.natAbs : ℚ) / (a.den : ℚ) := by
    rw [hnat]
    exact (Rat.num_div_den a).symm
  have hdq : (0 : ℚ) < a.den := by exact_mod_cast hden
  unfold floorLog2
  simp only
  generalize log2Aux a.num.natAbs a.num.natAbs = ln at n1 n2 ⊢
  generalize log2Aux a.den a.den = ld at d1 d2 ⊢
  have n1q : (2 : ℚ) ^ ln ≤ (a.num.natAbs : ℚ) := by exact_mod_cast n1
  have n2q : ((a.num.natAbs : Nat) : ℚ) < (2 : ℚ) ^ (ln + 1) := by exact_mod_cast n2
  have d1q : (2 : ℚ) ^ ld ≤ (a.den : ℚ) := by exact_mod_cast d1
  have d2q : ((a.den : Nat) : ℚ) < (2 : ℚ) ^ (ld + 1) := by exact_mod_cast d2
  have hp : ∀ k : Int, (0 : ℚ) < (2 : ℚ) ^ k := fun k => zpow_pos (by norm_num) k
  have two_ne : (2 : ℚ) ≠ 0 := by norm_num
  -- the bracket `2^(d-1) < a < 2^(d+1)` for `d = ln - ld`
  have hupper : a < (2 : ℚ) ^ ((ln : Int) - (ld : Int) + 1) := by
    rw [ha_eq, div_lt_iff₀ hdq]
    have e : (2 : ℚ) ^ ((ln : Int) - (ld : Int) + 1) = (2 : ℚ) ^ (ln + 1) / (2 : ℚ) ^ ld := by
      rw [show ((ln : Int) - (ld : Int) + 1) = ((ln + 1 : Nat) : Int) - ((ld : Nat) : Int) by
        push_cast; ring, zpow_sub₀ two_ne, zpow_natCast, zpow_natCast]
    rw [e, div_mul_eq_mul_div, lt_div_iff₀ (pow_pos (by norm_num) ld)]
    calc (a.num.natAbs : ℚ) * 2 ^ ld ≤ (a.num.natAbs : ℚ) * a.den :=
          mul_le_mul_of_nonneg_left d1q (by positivity)
      _ < 2 ^ (ln + 1) * a.den := mul_lt_mul_of_pos_right n2q hdq
  have hlower : (2 : ℚ) ^ ((ln : Int) - (ld : Int) - 1) < a := by
    rw [ha_eq, lt_div_iff₀ hdq]
    have e : (2 : ℚ) ^ ((ln : Int) - (ld : Int) - 1) = (2 : ℚ) ^ ln / (2 : ℚ) ^ (ld + 1) := by
      rw [show ((ln : Int) - (ld : Int) - 1) = ((ln : Nat) : Int) - ((ld + 1 : Nat) : Int) by
        push_cast; ring, zpow_sub₀ two_ne, zpow_natCast, zpow_natCast]
    rw [e, div_mul_eq_mul_div, div_lt_iff₀ (pow_pos (by norm_num) (ld + 1))]
    calc (2 : ℚ) ^ ln * a.den < 2 ^ ln * 2 ^ (ld + 1) :=
          mul_lt_mul_of_pos_left d2q (pow_pos (by norm_num) ln)
      _ ≤ (a.num.natAbs : ℚ) * 2 ^ (ld + 1) :=
          mul_le_mul_of_nonneg_right n1q (by positivity)
  by_cases hle : (2 : ℚ) ^ ((ln : Int) - (ld : Int)) ≤ a
  · rw [if_pos hle]
    exact ⟨hle, hupper⟩
  · rw [if_neg hle]
    refine ⟨le_of_lt hlower, ?_⟩
    rw [sub_add_cancel]
    exact lt_of_not_le hle

/-- The rounded integer is within one half of its argument. -/
theorem roundNearestEven_spec (r : ℚ) : |(roundNearestEven r : ℚ) - r| ≤ 1 / 2 := by
  have h0 := Int.floor_le r
  have h1 := Int.lt_floor_add_one r
  unfold roundNearestEven
  rw [abs_le]
  split_ifs with ha hb hc
  · constructor <;> linarith
  · push_cast
    constructor <;> linarith
  · constructor <;> linarith
  · push_cast
    constructor <;> linarith

/-- C13: in binary32 the noise with period 4 at frequency 1 is not periodic.  The point
`(-2^-30, 1/2, 1/2)` and the point one period further, whose first coordinate `-2^-30 + 4`
is 4 in binary32, get the values 0 and -1/4: the sum `x += repeat` rounds the wrapped
coordinate up to the period itself, so the first point is taken from the cell of index 4.
In exact arithmetic the value at the first point is within `2^-20` of -1/4. -/
theorem evaluateF32_not_periodic :
    roundF32 (-1 / 2 ^ 30) = some (-1 / 2 ^ 30) ∧ roundF32 (1 / 2) = some (1 / 2) ∧
    addF32 (-1 / 2 ^ 30) 4 = some 4 ∧
    PerlinNoise3D.evaluateF32 { m_repeat := 4 } { x := -1 / 2 ^ 30, y := 1 / 2, z := 1 / 2 } 1 =
      some 0 ∧
    PerlinNoise3D.evaluateF32 { m_repeat := 4 } { x := 4, y := 1 / 2, z := 1 / 2 } 1 =
      some (-1 / 4) ∧
    (PerlinNoise3D.evaluate { m_repeat := 4 } { x := -1 / 2 ^ 30, y := 1 / 2, z := 1 / 2 } 1).map
      (fun v => decide (|v - (-1 / 4)| < 1 / 2 ^ 20)) = some true := by
  refine ⟨?_, ?_, ?_, ?_, ?_, ?_⟩ <;> decide!

/-- C18: in binary32 a wrapped coordinate reaches the period.  With period 4 the coordinate
`-2^-30` has the remainder `-2^-30`, and the sum `x += repeat` rounds to 4, so the lattice
index is 4, outside `0..3`, and its increment is 1.  The period itself is the truncation of
the rounded product: for `repeat = 10` and the binary32 frequency nearest to 0.7 it is 7,
while the floor of the exact product is 6. -/
theorem wrapCoordF32_reaches_period :
    PerlinNoise3D.periodF32 { m_repeat := 4 } 1 = some 4 ∧
    fmodf (-1 / 2 ^ 30) 4 = -1 / 2 ^ 30 ∧
    wrapCoordF32 4 (-1 / 2 ^ 30) = some 4 ∧
    floorToInt32 4 = some 4 ∧
    inc 4 4 = some 1 ∧
    roundF32 (7 / 10) = some (11744051 / 16777216) ∧
    PerlinNoise3D.periodF32 { m_repeat := 10 } (11744051 / 16777216) = some 7 ∧
    ⌊((10 : Int) : ℚ) * (11744051 / 16777216)⌋ = 6 := by
  refine ⟨?_, ?_, ?_, ?_, ?_, ?_, ?_, ?_⟩ <;> decide!

end OptiXUtility
